import Mathlib

/-!
# go-deployer: the upload / extract / execute pipeline

A shallow embedding of `server.go` (`authenticateMiddleware`, `handleDeploy`,
`unzip`, `cleanup`) and of the packaging side of `client.go` (`createZip`,
`shouldSkip`), together with the parts of the Go standard library they call
(`strings`, `path/filepath`, `os`) on a Unix host.

Conventions of the embedding:

* a Go `string` is a `List Char` (`Str`), a `[]byte` is a `List UInt8`;
* the file system is a finite map from resolved paths (lists of components
  relative to the working directory, with a leading `/` component for an
  absolute path) to nodes; a `..` component that survives `filepath.Clean` is
  kept as an ordinary component, so the map is exact for paths without one;
* system calls return the new file system together with an optional error,
  because the Go code drops some errors and carries on with whatever state
  the call left behind;
* the nodes the process touches belong to its user, and no directory carries
  the set-group-ID bit; `os.MkdirAll` and `os.OpenFile` need the owner's
  search permission on the directories on the way and the owner's write
  permission on the directory (or file) written, unless the process is
  privileged; the working directory and the root have the mode 0755;
  `os.Stat`, `os.Chmod` and reading a file are taken to be permitted; the
  umask and the privilege of the process are part of the state;
* there are no symbolic links and the device does not fill up;
* the files of the client's tree can be read and the walk meets no error;
* the zip container is a parameter (`zipOpenReader`, `zipWrite`): only the
  list of entries it carries is used;
* what the goroutine of `handleDeploy` does is the list of its events in order,
  each with the seconds elapsed since it started, given how long the script
  runs.
-/

namespace GoDeployer

/-! ## Strings (`strings`) -/

/-- A Go string. -/
abbrev Str := List Char

/-- A Go byte slice. -/
abbrev Bytes := List UInt8

/-- The function `strings.HasPrefix`. -/
def hasPrefix (s pre : Str) : Bool := pre.isPrefixOf s

/-- The function `strings.TrimPrefix`. -/
def trimPrefix (s pre : Str) : Str :=
  if hasPrefix s pre then s.drop pre.length else s

/-- The function `strings.Contains`: `sub` occurs somewhere in `s`. -/
def contains : Str → Str → Bool
  | [], sub => sub.isEmpty
  | c :: cs, sub => hasPrefix (c :: cs) sub || contains cs sub

/-! ## Lexical paths (`path/filepath`, Unix) -/

/-- The path separator `os.PathSeparator`. -/
def sep : Char := '/'

/-- The elements of a path between separators (empty elements included). -/
def splitSep : Str → List Str
  | [] => [[]]
  | c :: cs =>
    if c = sep then [] :: splitSep cs
    else
      match splitSep cs with
      | [] => [[c]]
      | w :: ws => (c :: w) :: ws

/-- Elements written back with one separator between neighbours. -/
def joinSep : List Str → Str
  | [] => []
  | [a] => a
  | a :: b :: rest => a ++ sep :: joinSep (b :: rest)

/-- The element `..`. -/
def dotdot : Str := ['.', '.']

/-- One step of the loop of `filepath.Clean`, on the stack of elements written
so far (last written first): an empty element and `.` are dropped, `..`
removes the last written element when there is one to backtrack over, is
dropped at the root, and is kept in front of a relative path; any other element
is written. -/
def cleanStep (rooted : Bool) (stk : List Str) (c : Str) : List Str :=
  if c = [] ∨ c = ['.'] then stk
  else if c = dotdot then
    match stk with
    | [] => if rooted then [] else [c]
    | t :: rest => if t = dotdot then c :: stk else rest
  else c :: stk

/-- The path starts with a separator. -/
def isRooted (path : Str) : Bool := path.head? = some sep

/-- The elements of `filepath.Clean path`, in order. -/
def cleanComps (path : Str) : List Str :=
  ((splitSep path).foldl (cleanStep (isRooted path)) []).reverse

/-- The string `filepath.Clean` returns for the elements it kept: a leading
separator for a rooted path, the elements with separators between them, and
`.` when nothing was written. -/
def render (rooted : Bool) (comps : List Str) : Str :=
  let out := (if rooted then [sep] else []) ++ joinSep comps
  if out = [] then ['.'] else out

/-- The function `filepath.Clean` (no volume names on Unix). -/
def Clean (path : Str) : Str := render (isRooted path) (cleanComps path)

/-- The function `filepath.Join` for two elements: leading empty elements are
ignored, the rest is joined with separators and cleaned. -/
def Join (a b : Str) : Str :=
  if a ≠ [] then Clean (a ++ sep :: b)
  else if b ≠ [] then Clean b
  else []

/-- The function `filepath.Dir`: everything up to the last separator, cleaned. -/
def Dir (path : Str) : Str :=
  Clean (path.reverse.dropWhile (fun c => c ≠ sep)).reverse

/-- Errors of the Go code and of the system calls it makes. -/
inductive GoError where
  | ENOENT
  | ENOTDIR
  | EISDIR
  | EACCES
  | invalidFilePath (name : Str)
  | relError
  | zipError
  deriving DecidableEq, Repr

/-- The elements `filepath.Rel` walks over: those of the cleaned path, without
the empty one after a final separator. -/
def relElems (s : Str) : List Str :=
  if s = [] then []
  else if s.getLast? = some sep then (splitSep s).dropLast
  else splitSep s

/-- The loop of `filepath.Rel`: drop the common leading elements. -/
def dropCommon : List Str → List Str → List Str × List Str
  | b :: bs, t :: ts => if t = b then dropCommon bs ts else (b :: bs, t :: ts)
  | bs, ts => (bs, ts)

/-- The function `filepath.Rel`, on the elements of the cleaned paths (exact
unless the target cleans to `.` while the base does not, which the walk of
`createZip` never asks for). -/
def Rel (basepath targpath : Str) : Except GoError Str :=
  let base := Clean basepath
  let targ := Clean targpath
  if targ = base then .ok ['.']
  else
    let base := if base = ['.'] then [] else base
    if isRooted base ≠ isRooted targ then .error .relError
    else
      match dropCommon (relElems base) (relElems targ) with
      | (b :: bs, ts) =>
        if b = dotdot then .error .relError
        else .ok (joinSep (List.replicate (bs.length + 1) dotdot ++ ts))
      | ([], ts) => .ok (joinSep ts)

/-! ## The file system (`os`) -/

/-- Unix mode bits: the nine permission bits and setuid, setgid, sticky. -/
abbrev Perm := Nat

/-- A node of the file system. -/
inductive Node where
  | dir (perm : Perm)
  | file (perm : Perm) (data : Bytes)
  deriving DecidableEq, Repr

/-- A resolved path: its components from the working directory, or from the
root when the first one is `/`. -/
abbrev Key := List Str

/-- The component that marks an absolute path. -/
def rootComp : Str := [sep]

/-- The resolved form of a path as the kernel reads it: empty and `.`
elements name no step. -/
def pathKey (p : Str) : Key :=
  (if isRooted p then [rootComp] else []) ++
    (splitSep p).filter (fun c => c ≠ [] ∧ c ≠ ['.'])

/-- The file system seen by the process, the process umask, and whether the
process is privileged (permission checks do not apply to it). -/
structure FS where
  nodes : Key → Option Node
  umask : Perm
  privileged : Bool

/-- The node at a resolved path; the working directory and the root are
directories that always exist, with the mode 0755: the process may search and
write them. -/
def FS.lookup (fs : FS) (k : Key) : Option Node :=
  if k = [] ∨ k = [rootComp] then some (.dir 0o755) else fs.nodes k

/-- Put a node at a resolved path. -/
def FS.set (fs : FS) (k : Key) (n : Node) : FS :=
  { fs with nodes := fun k' => if k' = k then some n else fs.nodes k' }

/-- The mode `open(2)` gives a new regular file: the permission, setuid,
setgid and sticky bits asked for, without the bits of the umask. -/
def fileMode (umask perm : Perm) : Perm := perm &&& (0o7777 ^^^ (umask &&& 0o777))

/-- The mode `os.Mkdir` gives a new directory: the permission bits and the
sticky bit asked for, without the bits of the umask (the set-user-ID and
set-group-ID bits asked for are not applied). -/
def dirMode (umask perm : Perm) : Perm := perm &&& (0o1777 ^^^ (umask &&& 0o777))

/-- The mode a new regular file gets. -/
def FS.newFilePerm (fs : FS) (perm : Perm) : Perm := fileMode fs.umask perm

/-- The mode a new directory gets. -/
def FS.newDirPerm (fs : FS) (perm : Perm) : Perm := dirMode fs.umask perm

/-- The process may look up a name in a directory with this mode: it is
privileged or the owner has search permission. -/
def FS.mayEnter (fs : FS) (perm : Perm) : Bool := fs.privileged || perm.testBit 6

/-- The process may write a file with this mode: it is privileged or the owner
has write permission. -/
def FS.mayWrite (fs : FS) (perm : Perm) : Bool := fs.privileged || perm.testBit 7

/-- The process may add an entry to a directory with this mode: it is
privileged or the owner has write and search permission. -/
def FS.mayCreateIn (fs : FS) (perm : Perm) : Bool :=
  fs.privileged || (perm.testBit 6 && perm.testBit 7)

/-- The mode of the directory at a resolved path (no bits when there is no
directory). -/
def FS.dirPerm (fs : FS) (k : Key) : Perm :=
  match fs.lookup k with
  | some (.dir p) => p
  | _ => 0

/-- The loop under `os.MkdirAll`, from the top: each component must be a
directory or is made one; a regular file on the way is `ENOTDIR`; a directory
on the way that may not be searched, or may not be written where a directory
is missing, is `EACCES`. -/
def mkdirAllFrom (perm : Perm) : FS → Key → List Str → Option GoError × FS
  | fs, _, [] => (none, fs)
  | fs, pre, c :: cs =>
    if fs.mayEnter (fs.dirPerm pre) then
      match fs.lookup (pre ++ [c]) with
      | some (.dir _) => mkdirAllFrom perm fs (pre ++ [c]) cs
      | some (.file _ _) => (some .ENOTDIR, fs)
      | none =>
        if fs.mayCreateIn (fs.dirPerm pre) then
          mkdirAllFrom perm (fs.set (pre ++ [c]) (.dir (fs.newDirPerm perm))) (pre ++ [c]) cs
        else (some .EACCES, fs)
    else (some .EACCES, fs)

/-- The function `os.MkdirAll`. -/
def MkdirAll (fs : FS) (path : Str) (perm : Perm) : Option GoError × FS :=
  if path = [] then (some .ENOENT, fs) else mkdirAllFrom perm fs [] (pathKey path)

/-- Path resolution of the directories leading to a node. -/
def resolveDirs (fs : FS) : Key → List Str → Option GoError
  | _, [] => none
  | pre, c :: cs =>
    match fs.lookup (pre ++ [c]) with
    | some (.dir _) => resolveDirs fs (pre ++ [c]) cs
    | some (.file _ _) => some .ENOTDIR
    | none => some .ENOENT

/-- The function `os.Stat`. -/
def Stat (fs : FS) (path : Str) : Except GoError Node :=
  if path = [] then .error .ENOENT
  else
    match resolveDirs fs [] (pathKey path).dropLast with
    | some e => .error e
    | none =>
      match fs.lookup (pathKey path) with
      | some n => .ok n
      | none => .error .ENOENT

/-- The function `os.IsNotExist`. -/
def IsNotExist (e : GoError) : Bool := e = .ENOENT

/-- The test `_, err := os.Stat(path); os.IsNotExist(err)` (a nil error is
not a not-exist error). -/
def statNotExist (fs : FS) (path : Str) : Bool :=
  match Stat fs path with
  | .error e => IsNotExist e
  | .ok _ => false

/-- The walk of `open(2)` through the directories leading to a node: a
directory must be searchable for the next name to be looked up in it. -/
def walkDirs (fs : FS) : Key → List Str → Option GoError
  | _, [] => none
  | pre, c :: cs =>
    if fs.mayEnter (fs.dirPerm pre) then
      match fs.lookup (pre ++ [c]) with
      | some (.dir _) => walkDirs fs (pre ++ [c]) cs
      | some (.file _ _) => some .ENOTDIR
      | none => some .ENOENT
    else some .EACCES

/-- The function `os.OpenFile` with `O_CREATE|O_TRUNC` and a write flag: an
existing regular file is emptied and keeps its mode, a missing one is created
with `perm` (before umask). The directories on the way must be searchable, an
existing file writable, and the directory of a missing file writable. -/
def OpenFile (fs : FS) (path : Str) (perm : Perm) : Option GoError × FS :=
  if path = [] then (some .ENOENT, fs)
  else
    match walkDirs fs [] (pathKey path).dropLast with
    | some e => (some e, fs)
    | none =>
      if fs.mayEnter (fs.dirPerm (pathKey path).dropLast) then
        match fs.lookup (pathKey path) with
        | some (.dir _) => (some .EISDIR, fs)
        | some (.file p _) =>
          if fs.mayWrite p then (none, fs.set (pathKey path) (.file p []))
          else (some .EACCES, fs)
        | none =>
          if fs.mayCreateIn (fs.dirPerm (pathKey path).dropLast) then
            (none, fs.set (pathKey path) (.file (fs.newFilePerm perm) []))
          else (some .EACCES, fs)
      else (some .EACCES, fs)

/-- The function `os.Create`: `OpenFile` with mode `0666`. -/
def Create (fs : FS) (path : Str) : Option GoError × FS := OpenFile fs path 0o666

/-- The call `io.Copy(out, src)` on a file just opened at `path`: the bytes
become the content of the file. -/
def ioCopy (fs : FS) (path : Str) (data : Bytes) : FS :=
  match fs.lookup (pathKey path) with
  | some (.file p _) => fs.set (pathKey path) (.file p data)
  | _ => fs

/-- The function `os.Chmod`. -/
def Chmod (fs : FS) (path : Str) (perm : Perm) : Option GoError × FS :=
  match Stat fs path with
  | .error e => (some e, fs)
  | .ok (.dir _) => (none, fs.set (pathKey path) (.dir perm))
  | .ok (.file _ d) => (none, fs.set (pathKey path) (.file perm d))

/-- Reading a whole file. -/
def readFile (fs : FS) (path : Str) : Except GoError Bytes :=
  match Stat fs path with
  | .error e => .error e
  | .ok (.dir _) => .error .EISDIR
  | .ok (.file _ d) => .ok d

/-! ## Archives (`archive/zip`) -/

/-- An entry of an opened archive (`*zip.File`): its name, what
`f.FileInfo().IsDir()` reports, the Unix mode bits of `f.FileInfo().Mode()`
(the permission bits and setuid, setgid, sticky, as `os.OpenFile` and
`os.MkdirAll` hand them to the kernel), and what `f.Open()` followed by
reading to the end yields. -/
structure ZipFile where
  name : Str
  isDir : Bool
  perm : Perm
  body : Except GoError Bytes

/-! ## `server.go` -/

/-- The constant `uploadDir`. -/
def uploadDir : Str := "./uploads".toList

/-- The closure `extractAndWriteFile` of `unzip`. An entry that cannot be
opened or read to its end (`f.body` is an error) is reported where `f.Open()`
is called, before anything is written. -/
def extractAndWriteFile (dest : Str) (fs : FS) (f : ZipFile) : Option GoError × FS :=
  match f.body with
  | .error e => (some e, fs)
  | .ok rc =>
    let path := Join dest f.name
    if !hasPrefix path (Clean dest ++ [sep]) then
      (some (.invalidFilePath f.name), fs)
    else if f.isDir then
      (none, (MkdirAll fs path f.perm).2)
    else
      let fs1 := (MkdirAll fs (Dir path) 0o755).2
      match OpenFile fs1 path f.perm with
      | (some e, fs2) => (some e, fs2)
      | (none, fs2) => (none, ioCopy fs2 path rc)

/-- The loop of `unzip` over `r.File`: stop at the first error. -/
def unzipFiles (dest : Str) : FS → List ZipFile → Option GoError × FS
  | fs, [] => (none, fs)
  | fs, f :: rest =>
    match extractAndWriteFile dest fs f with
    | (some e, fs1) => (some e, fs1)
    | (none, fs1) => unzipFiles dest fs1 rest

/-- The function `unzip`. -/
def unzip (zipOpenReader : Bytes → Except GoError (List ZipFile))
    (fs : FS) (src dest : Str) : Option GoError × FS :=
  match readFile fs src with
  | .error e => (some e, fs)
  | .ok bytes =>
    match zipOpenReader bytes with
    | .error e => (some e, fs)
    | .ok files => unzipFiles dest (MkdirAll fs dest 0o755).2 files

/-- An HTTP request as the handlers read it: the method, the header, the
uploaded files of the multipart form by field name. -/
structure Request where
  method : Str
  header : List (Str × Str)
  form : List (Str × Bytes)

/-- The method `Header.Get`: the first value of the key, or the empty string. -/
def Request.headerGet (r : Request) (key : Str) : Str :=
  match r.header.find? (fun kv => kv.1 = key) with
  | some kv => kv.2
  | none => []

/-- The method `Request.FormFile`. -/
def Request.FormFile (r : Request) (field : Str) : Option Bytes :=
  (r.form.find? (fun kv => kv.1 = field)).map Prod.snd

/-- An HTTP response: status code and body. -/
structure Response where
  status : Nat
  body : Str
  deriving DecidableEq, Repr

/-- The function `http.Error`. -/
def httpError (msg : Str) (code : Nat) : Response := ⟨code, msg ++ ['\n']⟩

/-- A goroutine started by `handleDeploy`, with the variables it captured. -/
structure Goroutine where
  deployDir : Str
  extractDir : Str
  deriving DecidableEq, Repr

/-- What a handler can change: the file system and the goroutines started. -/
structure ServerState where
  fs : FS
  spawned : List Goroutine

/-- A handler `func(http.ResponseWriter, *http.Request)`. -/
abbrev Handler := Request → ServerState → Response × ServerState

/-- The function `authenticateMiddleware`, with the global `apiKey` as an
argument. -/
def authenticateMiddleware (apiKey : Str) (next : Handler) : Handler :=
  fun r s =>
    let authHeader := r.headerGet "Authorization".toList
    if authHeader = [] then
      (httpError "Authorization header required".toList 401, s)
    else if !hasPrefix authHeader "Bearer ".toList then
      (httpError "Invalid authorization format".toList 401, s)
    else
      let token := trimPrefix authHeader "Bearer ".toList
      if token ≠ apiKey then
        (httpError "Invalid API key".toList 401, s)
      else next r s

/-- The function `handleDeploy`. `timestamp` is
`time.Now().Format("20060102-150405")`. -/
def handleDeploy (zipOpenReader : Bytes → Except GoError (List ZipFile))
    (timestamp : Str) : Handler :=
  fun r s =>
    if r.method ≠ "POST".toList then
      (httpError "Method not allowed".toList 405, s)
    else
      match r.FormFile "deployment".toList with
      | none => (httpError "Failed to get uploaded file".toList 400, s)
      | some file =>
        let deployDir := Join uploadDir ("deploy-".toList ++ timestamp)
        match MkdirAll s.fs deployDir 0o755 with
        | (some _, fs1) =>
          (httpError "Failed to create deployment directory".toList 500, { s with fs := fs1 })
        | (none, fs1) =>
          let zipPath := Join deployDir "deployment.zip".toList
          match Create fs1 zipPath with
          | (some _, fs2) =>
            (httpError "Failed to create zip file".toList 500, { s with fs := fs2 })
          | (none, fs2) =>
            let fs3 := ioCopy fs2 zipPath file
            let extractDir := Join deployDir "extracted".toList
            match unzip zipOpenReader fs3 zipPath extractDir with
            | (some _, fs4) =>
              (httpError "Failed to extract deployment".toList 500, { s with fs := fs4 })
            | (none, fs4) =>
              let deployScript := Join extractDir "DEPLOY.sh".toList
              if statNotExist fs4 deployScript then
                (httpError "DEPLOY.sh not found in deployment".toList 400, { s with fs := fs4 })
              else
                match Chmod fs4 deployScript 0o755 with
                | (some _, fs5) =>
                  (httpError "Failed to make deploy script executable".toList 500,
                    { s with fs := fs5 })
                | (none, fs5) =>
                  (⟨200, "Deployment started successfully in ".toList ++ deployDir ++ ['\n']⟩,
                    { fs := fs5, spawned := s.spawned ++ [⟨deployDir, extractDir⟩] })

/-- What happens in the background, with the time since the goroutine started
(in seconds). -/
inductive BgEvent where
  | scriptStart (dir : Str)
  | scriptExit (ok : Bool)
  | logLine (msg : Str)
  | removeAll (dir : Str)
  deriving DecidableEq, Repr

/-- The function `cleanup`, entered at time `t`: sleep five seconds, then
remove the directory and log the outcome (`removed` tells whether
`os.RemoveAll` returned no error; the text of the error is left out of the
log line). -/
def cleanup (t : Nat) (dir : Str) (removed : Bool) : List (Nat × BgEvent) :=
  [(t + 5, .removeAll dir),
    (t + 5, .logLine (if removed then "Cleaned up deployment directory: ".toList ++ dir
      else "Failed to cleanup directory ".toList ++ dir))]

/-- The goroutine of `handleDeploy`. `run` is what `cmd.Run()` does: it
returns after `d` seconds with success or failure, or it never returns
(`none`); the text of its error is left out of the log line. The deferred
`cleanup` runs when the function body returns. -/
def Goroutine.events (g : Goroutine) (run : Option (Nat × Bool)) (removed : Bool) :
    List (Nat × BgEvent) :=
  match run with
  | none => [(0, .scriptStart g.extractDir)]
  | some (d, ok) =>
    [(0, .scriptStart g.extractDir), (d, .scriptExit ok),
      (d, .logLine (if ok then "Deploy script completed successfully".toList
        else "Deploy script failed".toList))]
      ++ cleanup d g.deployDir removed

/-- The handler `main` registers for `/deploy`:
`authenticateMiddleware(handleDeploy)`. -/
def deployHandler (apiKey : Str) (zipOpenReader : Bytes → Except GoError (List ZipFile))
    (timestamp : Str) : Handler :=
  authenticateMiddleware apiKey (handleDeploy zipOpenReader timestamp)

/-! ## `client.go` -/

/-- The function `shouldSkip`. -/
def shouldSkip (path sourceDir : Str) : Bool :=
  let relPath := match Rel sourceDir path with
    | .ok p => p
    | .error _ => []
  let skipPaths := [".git".toList, "node_modules".toList, ".env".toList, "*.log".toList,
    ".DS_Store".toList, "Thumbs.db".toList]
  skipPaths.any (fun skip => contains relPath skip)

/-- A directory tree on the client: what `filepath.Walk` finds. The children
of a directory come in the order `Walk` visits them. -/
inductive Tree where
  | file (perm : Perm) (data : Bytes)
  | dir (perm : Perm) (children : List (Str × Tree))

/-- The walk of `createZip`: the callback given to `filepath.Walk`, run over
the tree at `path`. The result is the list of `(name, content)` pairs handed
to `zipWriter.Create` and `io.Copy`, or the first error. -/
def walkZip (sourceDir : Str) : Str → Tree → Except GoError (List (Str × Bytes))
  | path, .file _ data =>
    if shouldSkip path sourceDir then .ok []
    else
      match Rel sourceDir path with
      | .error e => .error e
      | .ok relPath => .ok [(relPath, data)]
  | path, .dir _ children =>
    if shouldSkip path sourceDir then .ok []
    else
      match Rel sourceDir path with
      | .error e => .error e
      | .ok _ => walkChildren sourceDir path children
where
  /-- The entries of a directory, one after the other. -/
  walkChildren (sourceDir : Str) : Str → List (Str × Tree) →
      Except GoError (List (Str × Bytes))
    | _, [] => .ok []
    | path, (name, t) :: rest =>
      match walkZip sourceDir (Join path name) t with
      | .error e => .error e
      | .ok es =>
        match walkChildren sourceDir path rest with
        | .error e => .error e
        | .ok es' => .ok (es ++ es')

/-- The function `createZip`: the archive written for the tree at
`sourceDir`. -/
def createZip (zipWrite : List (Str × Bytes) → Bytes) (sourceDir : Str) (tree : Tree) :
    Except GoError Bytes :=
  match walkZip sourceDir sourceDir tree with
  | .error e => .error e
  | .ok entries => .ok (zipWrite entries)

/-- What `zip.OpenReader` reports for an entry written with
`zipWriter.Create(name)`: no mode is stored, so the mode is `0666`, and the
entry is a directory only when the name ends in a separator. -/
def createdEntry (e : Str × Bytes) : ZipFile :=
  { name := e.1, isDir := e.1.getLast? = some sep, perm := 0o666, body := .ok e.2 }

/-! ## Predicates used in the statements -/

/-- A path element that `Clean` can keep: not empty, not `.`, no separator. -/
def Elem (c : Str) : Prop := c ≠ [] ∧ c ≠ ['.'] ∧ sep ∉ c

/-- An ordinary path element: one `Clean` can keep and that is not `..`. -/
def Normal (c : Str) : Prop := Elem c ∧ c ≠ dotdot

instance decElem (c : Str) : Decidable (Elem c) :=
  inferInstanceAs (Decidable (c ≠ [] ∧ c ≠ ['.'] ∧ sep ∉ c))

instance decNormal (c : Str) : Decidable (Normal c) :=
  inferInstanceAs (Decidable (Elem c ∧ c ≠ dotdot))

/-- The shape of the stack of `Clean`: ordinary elements above `..` elements,
and no `..` element when the path is rooted. -/
def CleanStk (rooted : Bool) (stk : List Str) : Prop :=
  ∃ ns ds, stk = ns ++ ds ∧ (∀ c ∈ ns, Normal c) ∧ (∀ c ∈ ds, c = dotdot) ∧
    (rooted = true → ds = [])

/-- The test `unzip` makes on an entry name before it touches the file
system (`strings.HasPrefix(path, filepath.Clean(dest)+string(os.PathSeparator))`). -/
def passesCheck (dest name : Str) : Bool :=
  hasPrefix (Join dest name) (Clean dest ++ [sep])

/-- The resolved path of the destination root. -/
def destKey (dest : Str) : Key := pathKey (Clean dest)

/-- The resolved path `unzip` computes for an entry. -/
def entryKey (dest : Str) (f : ZipFile) : Key := pathKey (Join dest f.name)

/-- A path lies lexically strictly inside the root `dest`: it is the cleaned
root, a separator, and one or more ordinary elements (none empty, `.` or `..`)
with separators between them. -/
def StrictlyInside (dest path : Str) : Prop :=
  ∃ rel : List Str, rel ≠ [] ∧ (∀ c ∈ rel, Normal c) ∧ path = Clean dest ++ sep :: joinSep rel

/-- The resolved paths `os.MkdirAll` visits below `pre`: `pre` extended by a
non-empty initial part of `cs`. -/
def OnChain (pre : Key) (cs : List Str) (k : Key) : Prop :=
  ∃ cs1 cs2, cs1 ≠ [] ∧ cs = cs1 ++ cs2 ∧ k = pre ++ cs1

/-- A resolved path lies strictly inside the root `dest`: the resolved root
followed by one or more ordinary elements. -/
def KeyInside (dest : Str) (k : Key) : Prop :=
  ∃ T : List Str, T ≠ [] ∧ (∀ c ∈ T, Normal c) ∧ k = destKey dest ++ T

/-! ## Concrete data for the examples -/

/-- An empty file system, seen by an unprivileged process with the usual
umask `022`. -/
def emptyFS : FS := { nodes := fun _ => none, umask := 0o022, privileged := false }

/-- A file system that holds one uploaded archive, `in.zip`. -/
def zipFS : FS := emptyFS.set ["in.zip".toList] (.file 0o644 [80, 75])

/-- A regular-file entry of an archive. -/
def fileEntry (name : String) (perm : Perm) (data : Bytes) : ZipFile :=
  { name := name.toList, isDir := false, perm := perm, body := .ok data }

/-- A directory entry of an archive. -/
def dirEntry (name : String) (perm : Perm) : ZipFile :=
  { name := name.toList, isDir := true, perm := perm, body := .ok [] }

/-- The names `shouldSkip` looks for that are plain names (all but the
pattern `*.log`). -/
def skipNames : List Str :=
  [".git".toList, "node_modules".toList, ".env".toList, ".DS_Store".toList, "Thumbs.db".toList]

/-- The variable `deployDir` of `handleDeploy`. -/
def deployDirOf (timestamp : Str) : Str := Join uploadDir ("deploy-".toList ++ timestamp)

/-- The variable `zipPath` of `handleDeploy`. -/
def zipPathOf (timestamp : Str) : Str := Join (deployDirOf timestamp) "deployment.zip".toList

/-- The variable `extractDir` of `handleDeploy`. -/
def extractDirOf (timestamp : Str) : Str := Join (deployDirOf timestamp) "extracted".toList

/-- The variable `deployScript` of `handleDeploy`. -/
def deployScriptOf (timestamp : Str) : Str := Join (extractDirOf timestamp) "DEPLOY.sh".toList

/-- The file system once `handleDeploy` has created the workspace and saved the
upload in it (the errors of these two steps are looked at separately). -/
def savedState (fs : FS) (timestamp : Str) (file : Bytes) : FS :=
  ioCopy (Create (MkdirAll fs (deployDirOf timestamp) 0o755).2 (zipPathOf timestamp)).2
    (zipPathOf timestamp) file

/-- The call of `unzip` in `handleDeploy`: its error and the file system it
leaves. -/
def extractedState (zipOpenReader : Bytes → Except GoError (List ZipFile)) (fs : FS)
    (timestamp : Str) (file : Bytes) : Option GoError × FS :=
  unzip zipOpenReader (savedState fs timestamp file) (zipPathOf timestamp)
    (extractDirOf timestamp)

/-- A POST request that uploads one file in the field `deployment`, with the
credential `Bearer secret`. -/
def uploadRequest (file : Bytes) : Request :=
  { method := "POST".toList,
    header := [("Authorization".toList, "Bearer secret".toList)],
    form := [("deployment".toList, file)] }

/-- The key the example server was started with. -/
def exampleKey : Str := "secret".toList

/-- A server that has handled no request yet, on an empty file system. -/
def freshServer : ServerState := { fs := emptyFS, spawned := [] }

/-- What holds of the file system while `unzip` works through an archive whose
entries do not collide: `done` are the entries extracted so far, `u` is the
umask and `q` the privilege of the process. The root and its ancestors are
directories; every directory on the way to the root or below it may be
searched and written; below the root, the regular files are exactly the file
entries extracted so far, with their content and mode, and every directory
lies on the way to an extracted entry and has the mode `0755` or that of an
extracted directory entry (less the umask); every proper ancestor of an
extracted entry is a directory; a directory entry that came before every entry
beneath it has its own mode. -/
structure UnzipInv (dest : Str) (u : Perm) (q : Bool) (done : List ZipFile) (fs : FS) :
    Prop where
  umask : fs.umask = u
  priv : fs.privileged = q
  root : ∀ k, k ≠ [] → k <+: destKey dest → ∃ p, fs.lookup k = some (.dir p)
  access : ∀ k p, (k <+: destKey dest ∨ destKey dest <+: k) → fs.lookup k = some (.dir p) →
    fs.mayCreateIn p = true
  files : ∀ k p d, destKey dest <+: k → fs.lookup k = some (.file p d) →
    ∃ f ∈ done, f.isDir = false ∧ entryKey dest f = k ∧ f.body = .ok d ∧
      p = fileMode u f.perm
  dirs : ∀ k p, destKey dest <+: k → k ≠ destKey dest → fs.lookup k = some (.dir p) →
    (∃ f ∈ done, k <+: entryKey dest f) ∧
      (p = dirMode u 0o755 ∨ ∃ f ∈ done, f.isDir = true ∧ p = dirMode u f.perm)
  ways : ∀ f ∈ done, ∀ k, k ≠ [] → k <+: entryKey dest f → k ≠ entryKey dest f →
    ∃ p, fs.lookup k = some (.dir p)
  doneFiles : ∀ f ∈ done, f.isDir = false →
    ∃ d, f.body = .ok d ∧ fs.lookup (entryKey dest f) = some (.file (fileMode u f.perm) d)
  doneDirs : ∀ f ∈ done, f.isDir = true → ∃ p, fs.lookup (entryKey dest f) = some (.dir p)
  dirPerm : ∀ pre f post, done = pre ++ f :: post → f.isDir = true →
    (∀ g ∈ pre, ¬ entryKey dest f <+: entryKey dest g) →
    fs.lookup (entryKey dest f) = some (.dir (dirMode u f.perm))

/-- The test of `shouldSkip` on a relative path: one of the six strings of
`skipPaths` occurs in it. -/
def matchesSkip (rel : Str) : Bool :=
  contains rel ".git".toList || contains rel "node_modules".toList ||
    contains rel ".env".toList || contains rel "*.log".toList ||
    contains rel ".DS_Store".toList || contains rel "Thumbs.db".toList

/-- The regular files of a tree, each with the names that lead to it from the
root of the tree. -/
def treeFiles : Tree → List (List Str × Bytes)
  | .file _ data => [([], data)]
  | .dir _ children => childrenFiles children
where
  /-- The regular files below the entries of a directory. -/
  childrenFiles : List (Str × Tree) → List (List Str × Bytes)
    | [] => []
    | (name, t) :: rest =>
      (treeFiles t).map (fun e => (name :: e.1, e.2)) ++ childrenFiles rest

/-- A tree as a file system holds it: every name is an ordinary path element
and the names in one directory are different. -/
def Tree.WF : Tree → Prop
  | .file _ _ => True
  | .dir _ children => childrenWF children
where
  /-- The entries of a directory are well formed. -/
  childrenWF : List (Str × Tree) → Prop
    | [] => True
    | (name, t) :: rest =>
      Normal name ∧ (∀ e ∈ rest, e.1 ≠ name) ∧ Tree.WF t ∧ childrenWF rest

/-- A project directory: an executable `DEPLOY.sh`, an empty directory, a
source file in a subdirectory, a log file and a `.gitignore`. -/
def exampleTree : Tree :=
  .dir 0o755
    [("DEPLOY.sh".toList, .file 0o755 [35]),
     ("empty".toList, .dir 0o755 []),
     ("src".toList, .dir 0o700 [("app.txt".toList, .file 0o600 [4])]),
     ("app.log".toList, .file 0o644 [3]),
     (".gitignore".toList, .file 0o644 [5])]

/-- A reader that decodes every upload as the archive `createZip` writes for
`exampleTree` in `/home/u/proj`. -/
def exampleReader : Bytes → Except GoError (List ZipFile) := fun _ =>
  match walkZip "/home/u/proj".toList "/home/u/proj".toList exampleTree with
  | .ok es => .ok (es.map createdEntry)
  | .error e => .error e

/-- The entries `createZip` writes for the tree found at the relative path
`rel`: one per regular file whose relative path is not skipped, named by that
path, with the content of the file. -/
def keptEntries (rel : List Str) (t : Tree) : List (Str × Bytes) :=
  ((treeFiles t).filter (fun e => !matchesSkip (joinSep (rel ++ e.1)))).map
    (fun e => (joinSep (rel ++ e.1), e.2))

/-- The relative paths of the files of a well-formed tree: ordinary names,
no path twice, and no path that continues another one. -/
def PathsOK (l : List (List Str × Bytes)) : Prop :=
  (∀ e ∈ l, ∀ c ∈ e.1, Normal c) ∧ (l.map Prod.fst).Nodup ∧
    ∀ e1 ∈ l, ∀ e2 ∈ l, e1.1 <+: e2.1 → e1.1 = e2.1

/-! ## The model of `path/filepath` on examples from the Go documentation -/

theorem Clean_examples :
    Clean "abc//def//ghi".toList = "abc/def/ghi".toList ∧
    Clean "abc/./def".toList = "abc/def".toList ∧
    Clean "abc/def/../ghi".toList = "abc/ghi".toList ∧
    Clean "abc/def/../../..".toList = "..".toList ∧
    Clean "/abc/def/../../..".toList = "/".toList ∧
    Clean "../../abc/../def/".toList = "../../def".toList ∧
    Clean "".toList = ".".toList ∧
    Clean "/../abc".toList = "/abc".toList ∧
    Clean "abc/..".toList = ".".toList := by
  decide

theorem Join_examples :
    Join "a".toList "b/c".toList = "a/b/c".toList ∧
    Join "a/b".toList "../../../xyz".toList = "../xyz".toList ∧
    Join "".toList "a".toList = "a".toList ∧
    Join "a".toList "".toList = "a".toList ∧
    Join "".toList "".toList = "".toList ∧
    Join "./uploads".toList "deploy-x".toList = "uploads/deploy-x".toList ∧
    Join "a".toList "/etc/passwd".toList = "a/etc/passwd".toList := by
  decide

theorem Dir_examples :
    Dir "/foo/bar/baz.js".toList = "/foo/bar".toList ∧
    Dir "/foo/bar/baz/".toList = "/foo/bar/baz".toList ∧
    Dir "dev.txt".toList = ".".toList ∧
    Dir "/".toList = "/".toList ∧
    Dir "".toList = ".".toList := by
  decide

theorem Rel_examples :
    (Rel "/a".toList "/a/b/c".toList).toOption = some "b/c".toList ∧
    (Rel "/a".toList "/b/c".toList).toOption = some "../b/c".toList ∧
    (Rel "/a".toList "./b/c".toList).toOption = none ∧
    (Rel "a/b".toList "a/b".toList).toOption = some ".".toList ∧
    (Rel ".".toList "a/b".toList).toOption = some "a/b".toList ∧
    (Rel "/".toList "/a".toList).toOption = some "a".toList := by
  decide

/-! ## Strings -/

theorem hasPrefix_iff (s pre : Str) : hasPrefix s pre = true ↔ ∃ t, s = pre ++ t := by
  unfold hasPrefix
  rw [ List.isPrefixOf_iff_prefix]
  constructor
  · rintro ⟨t, ht⟩; exact ⟨t, ht.symm⟩
  · rintro ⟨t, ht⟩; exact ⟨t, ht.symm⟩

theorem trimPrefix_append (pre t : Str) : trimPrefix (pre ++ t) pre = t := by
  unfold trimPrefix
  rw [if_pos ((hasPrefix_iff _ _).mpr ⟨t, rfl⟩)]
  exact List.drop_left _ _


/-! ### Splitting and joining -/

theorem splitSep_ne_nil (s : Str) : splitSep s ≠ [] := by
  induction s with
  | nil => simp [splitSep]
  | cons c cs ih =>
    unfold splitSep
    split_ifs
    · simp
    · split
      · simp
      · simp

theorem splitSep_cons_of_ne {c : Char} (hc : c ≠ sep) (cs : Str) :
    ∃ w ws, splitSep cs = w :: ws ∧ splitSep (c :: cs) = (c :: w) :: ws := by
  cases h : splitSep cs with
  | nil => exact absurd h (splitSep_ne_nil cs)
  | cons w ws =>
    refine ⟨w, ws, rfl, ?_⟩
    rw [splitSep, if_neg hc, h]

theorem splitSep_sep_cons (cs : Str) : splitSep (sep :: cs) = [] :: splitSep cs := by
  rw [splitSep, if_pos rfl]

theorem splitSep_noSep (s : Str) : ∀ c ∈ splitSep s, sep ∉ c := by
  induction s with
  | nil => intro c hc; simp [splitSep] at hc; subst hc; simp
  | cons a cs ih =>
    intro c hc
    by_cases ha : a = sep
    · subst ha
      rw [splitSep_sep_cons] at hc
      rcases List.mem_cons.mp hc with h | h
      · subst h; simp
      · exact ih c h
    · obtain ⟨w, ws, h1, h2⟩ := splitSep_cons_of_ne ha cs
      rw [h2] at hc
      rw [h1] at ih
      rcases List.mem_cons.mp hc with h | h
      · subst h
        intro hmem
        rcases List.mem_cons.mp hmem with h' | h'
        · exact ha h'.symm
        · exact ih w (List.mem_cons_self _ _) h'
      · exact ih c (List.mem_cons_of_mem _ h)

theorem splitSep_of_noSep (c : Str) (h : sep ∉ c) : splitSep c = [c] := by
  induction c with
  | nil => rfl
  | cons a cs ih =>
    have ha : a ≠ sep := fun e => h (e ▸ List.mem_cons_self _ _)
    have hcs : sep ∉ cs := fun e => h (List.mem_cons_of_mem _ e)
    rw [splitSep, if_neg ha, ih hcs]

theorem splitSep_append (a b : Str) :
    splitSep (a ++ sep :: b) = splitSep a ++ splitSep b := by
  induction a with
  | nil => simp [splitSep]
  | cons c cs ih =>
    by_cases hc : c = sep
    · subst hc
      rw [List.cons_append, splitSep_sep_cons, splitSep_sep_cons, ih]
      rfl
    · obtain ⟨w, ws, h1, h2⟩ := splitSep_cons_of_ne hc cs
      obtain ⟨w', ws', h1', h2'⟩ := splitSep_cons_of_ne hc (cs ++ sep :: b)
      rw [List.cons_append, h2', h2]
      rw [ih, h1] at h1'
      simp only [List.cons_append, List.cons.injEq] at h1'
      obtain ⟨rfl, rfl⟩ := h1'
      rfl

theorem joinSep_cons_cons (a b : Str) (rest : List Str) :
    joinSep (a :: b :: rest) = a ++ sep :: joinSep (b :: rest) := rfl

theorem splitSep_joinSep (X : List Str) (hne : X ≠ []) (h : ∀ c ∈ X, sep ∉ c) :
    splitSep (joinSep X) = X := by
  induction X with
  | nil => exact absurd rfl hne
  | cons a rest ih =>
    cases rest with
    | nil => exact splitSep_of_noSep a (h a (List.mem_cons_self _ _))
    | cons b rest =>
      rw [joinSep_cons_cons, splitSep_append,
        splitSep_of_noSep a (h a (List.mem_cons_self _ _)),
        ih (by simp) (fun c hc => h c (List.mem_cons_of_mem _ hc))]
      rfl

theorem joinSep_append_singleton (X : List Str) (hne : X ≠ []) (c : Str) :
    joinSep (X ++ [c]) = joinSep X ++ sep :: c := by
  induction X with
  | nil => exact absurd rfl hne
  | cons a rest ih =>
    cases rest with
    | nil => rfl
    | cons b rest =>
      rw [List.cons_append, List.cons_append, joinSep_cons_cons, joinSep_cons_cons,
        ← List.cons_append, ih (by simp)]
      simp

theorem joinSep_append (X Y : List Str) (hX : X ≠ []) (hY : Y ≠ []) :
    joinSep (X ++ Y) = joinSep X ++ sep :: joinSep Y := by
  induction X with
  | nil => exact absurd rfl hX
  | cons a rest ih =>
    cases rest with
    | nil =>
      cases Y with
      | nil => exact absurd rfl hY
      | cons y ys => rfl
    | cons b rest =>
      rw [List.cons_append, List.cons_append, joinSep_cons_cons, joinSep_cons_cons,
        ← List.cons_append, ih (by simp)]
      simp


/-! ### The stack of `Clean` -/

theorem elem_dotdot : Elem dotdot := by
  refine ⟨by decide, by decide, by decide⟩

theorem CleanStk.nil (r : Bool) : CleanStk r [] := ⟨[], [], rfl, by simp, by simp, by simp⟩

theorem CleanStk.elem {r : Bool} {stk : List Str} (h : CleanStk r stk) :
    ∀ c ∈ stk, Elem c := by
  obtain ⟨ns, ds, rfl, hn, hd, _⟩ := h
  intro c hc
  rcases List.mem_append.mp hc with h | h
  · exact (hn c h).1
  · rw [hd c h]; exact elem_dotdot

theorem CleanStk.tail {r : Bool} {c : Str} {stk : List Str} (h : CleanStk r (c :: stk)) :
    CleanStk r stk := by
  obtain ⟨ns, ds, heq, hn, hd, hr⟩ := h
  cases ns with
  | nil =>
    simp only [List.nil_append] at heq
    subst heq
    refine ⟨[], stk, rfl, by simp, fun x hx => hd x (List.mem_cons_of_mem _ hx), ?_⟩
    intro hrt; exact absurd (hr hrt) (by simp)
  | cons n ns =>
    simp only [List.cons_append, List.cons.injEq] at heq
    obtain ⟨rfl, rfl⟩ := heq
    exact ⟨ns, ds, rfl, fun x hx => hn x (List.mem_cons_of_mem _ hx), hd, hr⟩

theorem cleanStep_normal (r : Bool) (stk : List Str) {c : Str} (h : Normal c) :
    cleanStep r stk c = c :: stk := by
  unfold cleanStep
  rw [if_neg (by rintro (h' | h'); exact h.1.1 h'; exact h.1.2.1 h'), if_neg h.2]

theorem cleanStep_skip (r : Bool) (stk : List Str) {c : Str} (h : c = [] ∨ c = ['.']) :
    cleanStep r stk c = stk := by
  unfold cleanStep
  rw [if_pos h]

theorem CleanStk.push {r : Bool} {stk : List Str} (h : CleanStk r stk) {c : Str}
    (hc : Normal c) : CleanStk r (c :: stk) := by
  obtain ⟨ns, ds, rfl, hn, hd, hr⟩ := h
  refine ⟨c :: ns, ds, rfl, ?_, hd, hr⟩
  intro x hx
  rcases List.mem_cons.mp hx with h | h
  · subst h; exact hc
  · exact hn x h

theorem cleanStep_inv {r : Bool} {stk : List Str} (h : CleanStk r stk) {c : Str}
    (hc : sep ∉ c) : CleanStk r (cleanStep r stk c) := by
  by_cases h1 : c = [] ∨ c = ['.']
  · rw [cleanStep_skip r stk h1]; exact h
  · by_cases h2 : c = dotdot
    · subst h2
      unfold cleanStep
      rw [if_neg h1, if_pos rfl]
      cases stk with
      | nil =>
        cases r with
        | true => simpa using CleanStk.nil true
        | false =>
          simp only [Bool.false_eq_true, if_false]
          exact ⟨[], [dotdot], rfl, by simp, by simp, by simp⟩
      | cons t rest =>
        simp only []
        by_cases ht : t = dotdot
        · rw [if_pos ht]
          subst ht
          obtain ⟨ns, ds, heq, hn, hd, hr⟩ := h
          cases ns with
          | nil =>
            simp only [List.nil_append] at heq
            subst heq
            refine ⟨[], dotdot :: dotdot :: rest, rfl, by simp, ?_, ?_⟩
            · intro x hx
              rcases List.mem_cons.mp hx with h | h
              · exact h
              · exact hd x h
            · intro hrt; exact absurd (hr hrt) (by simp)
          | cons n ns =>
            simp only [List.cons_append, List.cons.injEq] at heq
            exact absurd heq.1.symm (hn n (List.mem_cons_self _ _)).2
        · rw [if_neg ht]
          exact h.tail
    · push_neg at h1
      have hn : Normal c := ⟨⟨h1.1, h1.2, hc⟩, h2⟩
      rw [cleanStep_normal r stk hn]
      exact h.push hn

theorem foldl_cleanStep_inv {r : Bool} (cs : List Str) (hcs : ∀ c ∈ cs, sep ∉ c) :
    ∀ stk, CleanStk r stk → CleanStk r (cs.foldl (cleanStep r) stk) := by
  induction cs with
  | nil => intro stk h; exact h
  | cons c cs ih =>
    intro stk h
    rw [List.foldl_cons]
    exact ih (fun x hx => hcs x (List.mem_cons_of_mem _ hx)) _
      (cleanStep_inv h (hcs c (List.mem_cons_self _ _)))

theorem foldl_cleanStep_normals (r : Bool) (T : List Str) (hT : ∀ c ∈ T, Normal c) :
    ∀ stk, T.foldl (cleanStep r) stk = T.reverse ++ stk := by
  induction T with
  | nil => intro stk; rfl
  | cons c T ih =>
    intro stk
    rw [List.foldl_cons, cleanStep_normal r stk (hT c (List.mem_cons_self _ _)),
      ih (fun x hx => hT x (List.mem_cons_of_mem _ hx))]
    simp

/-- Cleaning is idempotent on the stack: replaying a clean stack rebuilds it. -/
theorem foldl_cleanStep_replay {r : Bool} :
    ∀ stk, CleanStk r stk → stk.reverse.foldl (cleanStep r) [] = stk := by
  intro stk
  induction stk with
  | nil => intro _; rfl
  | cons c stk ih =>
    intro h
    rw [List.reverse_cons, List.foldl_append, ih h.tail]
    simp only [List.foldl_cons, List.foldl_nil]
    by_cases hc : c = dotdot
    · subst hc
      obtain ⟨ns, ds, heq, hn, hd, hr⟩ := h
      cases ns with
      | nil =>
        simp only [List.nil_append] at heq
        have hrf : r = false := by
          cases r with
          | false => rfl
          | true => rw [hr rfl] at heq; exact absurd heq (by simp)
        subst hrf
        unfold cleanStep
        rw [if_neg (by decide), if_pos rfl]
        cases stk with
        | nil => simp
        | cons t rest =>
          have : t = dotdot := hd t (by rw [← heq]; simp)
          simp [this]
      | cons n ns =>
        simp only [List.cons_append, List.cons.injEq] at heq
        exact absurd heq.1.symm (hn n (List.mem_cons_self _ _)).2
    · exact cleanStep_normal r stk ⟨h.elem c (List.mem_cons_self _ _), hc⟩


/-! ### The rendered path -/

theorem joinSep_ne_nil {X : List Str} (hne : X ≠ []) (h : ∀ c ∈ X, Elem c) :
    joinSep X ≠ [] := by
  cases X with
  | nil => exact absurd rfl hne
  | cons a rest =>
    have ha := (h a (List.mem_cons_self _ _)).1
    cases rest with
    | nil => exact ha
    | cons b rest => rw [joinSep_cons_cons]; simp [ha]

theorem joinSep_head {X : List Str} (hne : X ≠ []) (h : ∀ c ∈ X, Elem c) :
    ∃ a t, joinSep X = a :: t ∧ a ≠ sep := by
  cases X with
  | nil => exact absurd rfl hne
  | cons x rest =>
    obtain ⟨hx1, _, hx3⟩ := h x (List.mem_cons_self _ _)
    cases x with
    | nil => exact absurd rfl hx1
    | cons a x' =>
      have ha : a ≠ sep := fun e => hx3 (e ▸ List.mem_cons_self _ _)
      cases rest with
      | nil => exact ⟨a, x', rfl, ha⟩
      | cons b rest => exact ⟨a, _, rfl, ha⟩

theorem render_nil (r : Bool) : render r [] = if r then [sep] else ['.'] := by
  cases r <;> rfl

theorem render_of_ne_nil (r : Bool) {X : List Str} (hne : X ≠ []) (h : ∀ c ∈ X, Elem c) :
    render r X = (if r then [sep] else []) ++ joinSep X := by
  unfold render
  simp only []
  rw [if_neg]
  intro hnil
  exact joinSep_ne_nil hne h (List.append_eq_nil.mp hnil).2

theorem isRooted_render (r : Bool) {X : List Str} (h : ∀ c ∈ X, Elem c) :
    isRooted (render r X) = r := by
  by_cases hne : X = []
  · subst hne; cases r <;> rfl
  · rw [render_of_ne_nil r hne h]
    cases r with
    | true => rfl
    | false =>
      obtain ⟨a, t, hj, ha⟩ := joinSep_head hne h
      simp only [Bool.false_eq_true, if_false, List.nil_append, hj, isRooted, List.head?_cons]
      simp [ha]

theorem render_ne_nil (r : Bool) (X : List Str) : render r X ≠ [] := by
  unfold render
  simp only []
  by_cases h : (if r = true then [sep] else []) ++ joinSep X = []
  · rw [if_pos h]; simp
  · rw [if_neg h]; exact h

theorem filter_elems {X : List Str} (h : ∀ c ∈ X, Elem c) :
    X.filter (fun c => c ≠ [] ∧ c ≠ ['.']) = X := by
  rw [List.filter_eq_self]
  intro c hc
  have := h c hc
  simp [this.1, this.2.1]

theorem splitSep_render (r : Bool) {X : List Str} (hne : X ≠ []) (h : ∀ c ∈ X, Elem c) :
    splitSep (render r X) = (if r then [[]] else []) ++ X := by
  rw [render_of_ne_nil r hne h]
  have hs := splitSep_joinSep X hne (fun c hc => (h c hc).2.2)
  cases r with
  | true =>
    simp only [if_true, List.singleton_append]
    rw [splitSep_sep_cons, hs]
  | false => simpa using hs

theorem pathKey_render (r : Bool) {X : List Str} (h : ∀ c ∈ X, Elem c) :
    pathKey (render r X) = (if r then [rootComp] else []) ++ X := by
  unfold pathKey
  rw [isRooted_render r h]
  congr 1
  by_cases hne : X = []
  · subst hne; cases r <;> decide
  · rw [splitSep_render r hne h]
    cases r with
    | true =>
      simp only [if_true, List.singleton_append]
      rw [List.filter_cons_of_neg (by simp), filter_elems h]
    | false => simpa using filter_elems h

theorem foldl_cleanStep_render (r r' : Bool) {X : List Str} (h : ∀ c ∈ X, Elem c)
    (stk : List Str) :
    (splitSep (render r X)).foldl (cleanStep r') stk = X.foldl (cleanStep r') stk := by
  by_cases hne : X = []
  · subst hne; cases r <;> rfl
  · rw [splitSep_render r hne h]
    cases r with
    | true =>
      simp only [if_true, List.singleton_append, List.foldl_cons]
      rw [cleanStep_skip r' stk (Or.inl rfl)]
    | false => simp

/-! ### `Clean` and `Join` -/

theorem cleanStk_of_path (p : Str) (r : Bool) (stk : List Str) (h : CleanStk r stk) :
    CleanStk r ((splitSep p).foldl (cleanStep r) stk) :=
  foldl_cleanStep_inv _ (splitSep_noSep p) stk h

theorem cleanComps_stk (p : Str) : CleanStk (isRooted p) (cleanComps p).reverse := by
  unfold cleanComps
  rw [List.reverse_reverse]
  exact cleanStk_of_path p _ [] (CleanStk.nil _)

theorem cleanComps_elem (p : Str) : ∀ c ∈ cleanComps p, Elem c := by
  intro c hc
  exact (cleanComps_stk p).elem c (List.mem_reverse.mpr hc)

theorem isRooted_Clean (p : Str) : isRooted (Clean p) = isRooted p :=
  isRooted_render _ (cleanComps_elem p)

theorem pathKey_Clean (p : Str) :
    pathKey (Clean p) = (if isRooted p then [rootComp] else []) ++ cleanComps p :=
  pathKey_render _ (cleanComps_elem p)

theorem cleanComps_Clean (p : Str) : cleanComps (Clean p) = cleanComps p := by
  have h := cleanComps_stk p
  conv_lhs => unfold cleanComps
  rw [isRooted_Clean, Clean, foldl_cleanStep_render _ _ (cleanComps_elem p)]
  have := foldl_cleanStep_replay _ h
  rw [List.reverse_reverse] at this
  rw [this, List.reverse_reverse]

theorem Clean_ne_nil (p : Str) : Clean p ≠ [] := render_ne_nil _ _

theorem isRooted_append {a : Str} (ha : a ≠ []) (b : Str) : isRooted (a ++ b) = isRooted a := by
  cases a with
  | nil => exact absurd rfl ha
  | cons x xs => rfl

/-- The stack of `Clean` after reading the elements of `a` and then those of
`b`. -/
theorem cleanComps_append {a : Str} (ha : a ≠ []) (b : Str) :
    cleanComps (a ++ sep :: b) =
      ((splitSep b).foldl (cleanStep (isRooted a)) (cleanComps a).reverse).reverse := by
  unfold cleanComps
  rw [isRooted_append ha, splitSep_append, List.foldl_append, List.reverse_reverse]

theorem Join_of_ne_nil {a : Str} (ha : a ≠ []) (b : Str) :
    Join a b = render (isRooted a) (cleanComps (a ++ sep :: b)) := by
  unfold Join
  rw [if_pos ha, Clean, isRooted_append ha]


/-! ### Prefixes of rendered paths -/

theorem sep_split_unique {a b x y : Str} (ha : sep ∉ a) (hb : sep ∉ b)
    (h : a ++ sep :: x = b ++ sep :: y) : a = b ∧ x = y := by
  induction a generalizing b with
  | nil =>
    cases b with
    | nil => simpa using h
    | cons c b =>
      simp only [List.nil_append, List.cons_append, List.cons.injEq] at h
      exact absurd (h.1 ▸ List.mem_cons_self _ _) hb
  | cons c a ih =>
    cases b with
    | nil =>
      simp only [List.nil_append, List.cons_append, List.cons.injEq] at h
      exact absurd (h.1 ▸ List.mem_cons_self _ _) ha
    | cons d b =>
      simp only [List.cons_append, List.cons.injEq] at h
      obtain ⟨rfl, h⟩ := h
      obtain ⟨rfl, rfl⟩ := ih (fun e => ha (List.mem_cons_of_mem _ e))
        (fun e => hb (List.mem_cons_of_mem _ e)) h
      exact ⟨rfl, rfl⟩

theorem sep_not_in_of_eq {a b x : Str} (hb : sep ∉ b) (h : a ++ sep :: x = b) : False := by
  apply hb
  rw [← h]
  simp

theorem joinSep_startsWith {X : List Str} (hX : X ≠ []) (hXs : ∀ c ∈ X, sep ∉ c) :
    ∀ (Y : List Str) (t : Str), (∀ c ∈ Y, sep ∉ c) → joinSep Y = joinSep X ++ sep :: t →
      ∃ T, T ≠ [] ∧ Y = X ++ T ∧ t = joinSep T := by
  induction X with
  | nil => exact absurd rfl hX
  | cons a xs ih =>
    intro Y t hYs h
    have ha := hXs a (List.mem_cons_self _ _)
    cases Y with
    | nil =>
      cases xs <;> simp [joinSep] at h
    | cons b ys =>
      have hb := hYs b (List.mem_cons_self _ _)
      cases ys with
      | nil =>
        exfalso
        cases xs with
        | nil => exact sep_not_in_of_eq hb h.symm
        | cons a2 xs =>
          rw [joinSep_cons_cons, List.append_assoc] at h
          exact sep_not_in_of_eq hb h.symm
      | cons c ys =>
        rw [joinSep_cons_cons] at h
        cases xs with
        | nil =>
          obtain ⟨rfl, rfl⟩ := sep_split_unique hb ha h
          exact ⟨c :: ys, by simp, rfl, rfl⟩
        | cons a2 xs =>
          rw [joinSep_cons_cons, List.append_assoc, List.cons_append] at h
          obtain ⟨rfl, h'⟩ := sep_split_unique hb ha h
          obtain ⟨T, hT, hY, ht⟩ := ih (by simp) (fun x hx => hXs x (List.mem_cons_of_mem _ hx))
            (c :: ys) t (fun x hx => hYs x (List.mem_cons_of_mem _ hx)) h'
          exact ⟨T, hT, by rw [hY]; rfl, ht⟩

/-- If a rendered path starts with another rendered path followed by a
separator, its elements are those of the other, followed by at least one more. -/
theorem render_startsWith {r : Bool} {X Y : List Str} (hX : ∀ c ∈ X, Elem c) (hY : ∀ c ∈ Y, Elem c)
    (h : hasPrefix (render r Y) (render r X ++ [sep]) = true) :
    X ≠ [] ∧ ∃ T, T ≠ [] ∧ Y = X ++ T ∧ render r Y = render r X ++ sep :: joinSep T := by
  obtain ⟨t, ht⟩ := (hasPrefix_iff _ _).mp h
  have hYne : Y ≠ [] := by
    rintro rfl
    by_cases hXne : X = []
    · subst hXne; cases r <;> simp [render_nil] at ht
    · rw [render_of_ne_nil r hXne hX, render_nil] at ht
      have := joinSep_ne_nil hXne hX
      cases r with
      | true =>
        simp only [if_true, List.singleton_append, List.cons_append, List.cons.injEq,
          true_and] at ht
        exact absurd (List.append_eq_nil.mp (List.append_eq_nil.mp ht.symm).1).1 this
      | false =>
        simp only [Bool.false_eq_true, if_false, List.nil_append, List.append_assoc] at ht
        have hlen := congrArg List.length ht
        simp only [List.length_cons, List.length_nil, List.length_append] at hlen
        have : (joinSep X).length ≠ 0 := fun e => this (List.length_eq_zero.mp e)
        omega
  rw [render_of_ne_nil r hYne hY] at ht
  have hXne : X ≠ [] := by
    rintro rfl
    obtain ⟨a, u, hj, ha⟩ := joinSep_head hYne hY
    rw [render_nil, hj] at ht
    cases r with
    | true =>
      simp only [if_true, List.singleton_append, List.cons_append, List.cons.injEq,
        true_and, List.nil_append] at ht
      exact ha ht.1
    | false =>
      simp only [Bool.false_eq_true, if_false, List.nil_append, List.cons_append,
        List.cons.injEq] at ht
      obtain ⟨rfl, hu⟩ := ht
      cases Y with
      | nil => exact absurd rfl hYne
      | cons y ys =>
        have hy := hY y (List.mem_cons_self _ _)
        cases ys with
        | nil =>
          simp only [joinSep] at hj
          exact hy.2.2 (by rw [hj, hu]; simp)
        | cons y2 ys =>
          rw [joinSep_cons_cons] at hj
          have h2 : y ++ sep :: joinSep (y2 :: ys) = ['.'] ++ sep :: t := by
            rw [hj, hu]; rfl
          exact hy.2.1 (sep_split_unique hy.2.2 (by decide) h2).1
  refine ⟨hXne, ?_⟩
  rw [render_of_ne_nil r hXne hX] at ht
  have hj : joinSep Y = joinSep X ++ sep :: t := by
    have := List.append_cancel_left (by simpa [List.append_assoc] using ht :
      (if r = true then [sep] else []) ++ joinSep Y =
        (if r = true then [sep] else []) ++ (joinSep X ++ sep :: t))
    exact this
  obtain ⟨T, hT, hYe, htT⟩ := joinSep_startsWith hXne (fun c hc => (hX c hc).2.2) Y t
    (fun c hc => (hY c hc).2.2) hj
  refine ⟨T, hT, hYe, ?_⟩
  rw [render_of_ne_nil r hYne hY, render_of_ne_nil r hXne hX, hj, htT, List.append_assoc]

theorem render_append {r : Bool} {X T : List Str} (hX : X ≠ []) (hT : T ≠ [])
    (hXe : ∀ c ∈ X, Elem c) (hTe : ∀ c ∈ T, Elem c) :
    render r (X ++ T) = render r X ++ sep :: joinSep T := by
  rw [render_of_ne_nil r (by simp [hX]) (by
    intro c hc
    rcases List.mem_append.mp hc with h | h
    · exact hXe c h
    · exact hTe c h), render_of_ne_nil r hX hXe, joinSep_append X T hX hT, List.append_assoc]


theorem rootKey_eq (p : Str) : destKey p = (if isRooted p then [rootComp] else []) ++ cleanComps p :=
  pathKey_Clean p

/-- What passing the check of `unzip` means for the elements of the joined
path. -/
theorem passesCheck_comps {dest name : Str} (h : passesCheck dest name = true) :
    dest ≠ [] ∧ cleanComps dest ≠ [] ∧ ∃ T, T ≠ [] ∧
      cleanComps (dest ++ sep :: name) = cleanComps dest ++ T ∧
      Join dest name = Clean dest ++ sep :: joinSep T := by
  unfold passesCheck at h
  by_cases hd : dest = []
  · exfalso
    subst hd
    have hc : Clean ([] : Str) = render false [] := rfl
    unfold Join at h
    rw [if_neg (by simp)] at h
    by_cases hn : name = []
    · rw [if_neg (by simp [hn])] at h
      revert h; decide
    · rw [if_pos hn, hc] at h
      by_cases hr : isRooted name = true
      · obtain ⟨t, ht⟩ := (hasPrefix_iff _ _).mp h
        have h1 := isRooted_Clean name
        rw [ht, hr] at h1
        have h2 : isRooted (render false [] ++ [sep] ++ t) = false := rfl
        rw [h2] at h1
        exact absurd h1 (by simp)
      · have hr' : isRooted name = false := by simpa using hr
        rw [Clean, hr'] at h
        exact (render_startsWith (by simp) (cleanComps_elem name) h).1 rfl
  · refine ⟨hd, ?_⟩
    rw [Join_of_ne_nil hd, Clean] at h
    obtain ⟨hne, T, hT, hY, hren⟩ := render_startsWith (cleanComps_elem dest) (cleanComps_elem _) h
    refine ⟨hne, T, hT, hY, ?_⟩
    rw [Join_of_ne_nil hd, Clean]
    exact hren

theorem passesCheck_key {dest name : Str} (h : passesCheck dest name = true) :
    ∃ T, T ≠ [] ∧ (∀ c ∈ T, Elem c) ∧ pathKey (Join dest name) = destKey dest ++ T := by
  obtain ⟨hd, _, T, hT, hY, _⟩ := passesCheck_comps h
  refine ⟨T, hT, ?_, ?_⟩
  · intro c hc
    exact cleanComps_elem (dest ++ sep :: name) c (by rw [hY]; simp [hc])
  · rw [Join_of_ne_nil hd, pathKey_render _ (cleanComps_elem _), hY, rootKey_eq,
      List.append_assoc]

/-- In a cleaned path whose first element is not `..`, no element is `..`. -/
theorem cleanStk_no_dotdot {r : Bool} {X T : List Str} (h : CleanStk r (X ++ T).reverse)
    (hX : X ≠ []) (hXd : dotdot ∉ X) : ∀ c ∈ T, Normal c := by
  obtain ⟨ns, ds, heq, hn, hd, _⟩ := h
  have hds : ds = [] := by
    by_contra hne
    have hlast : (X ++ T).reverse.getLast? = ds.getLast? := by
      rw [heq, List.getLast?_append_of_ne_nil _ hne]
    cases X with
    | nil => exact hX rfl
    | cons x xs =>
      rw [List.getLast?_reverse] at hlast
      simp only [List.cons_append, List.head?_cons] at hlast
      have hmem : x ∈ ds := List.mem_of_getLast?_eq_some hlast.symm
      exact hXd (by rw [← hd x hmem]; exact List.mem_cons_self _ _)
  subst hds
  intro c hc
  apply hn
  rw [List.append_nil] at heq
  rw [← heq]
  simp [hc]

theorem passesCheck_inside {dest name : Str} (hdd : dotdot ∉ cleanComps dest)
    (h : passesCheck dest name = true) : StrictlyInside dest (Join dest name) := by
  obtain ⟨hd, hne, T, hT, hY, hj⟩ := passesCheck_comps h
  refine ⟨T, hT, ?_, hj⟩
  have hs := cleanComps_stk (dest ++ sep :: name)
  rw [hY] at hs
  exact cleanStk_no_dotdot hs hne hdd


/-! ### `Join` with ordinary elements, and `Dir` -/

theorem cleanComps_render {r : Bool} {X : List Str} (h : CleanStk r X.reverse) :
    cleanComps (render r X) = X := by
  have he : ∀ c ∈ X, Elem c := fun c hc => h.elem c (List.mem_reverse.mpr hc)
  unfold cleanComps
  rw [isRooted_render r he, foldl_cleanStep_render r r he]
  have := foldl_cleanStep_replay _ h
  rw [List.reverse_reverse] at this
  rw [this, List.reverse_reverse]

theorem cleanComps_join_normals {dest : Str} (hd : dest ≠ []) {T : List Str} (hT : T ≠ [])
    (hn : ∀ c ∈ T, Normal c) :
    cleanComps (dest ++ sep :: joinSep T) = cleanComps dest ++ T := by
  rw [cleanComps_append hd, splitSep_joinSep T hT (fun c hc => (hn c hc).1.2.2),
    foldl_cleanStep_normals _ T hn]
  simp

theorem passesCheck_of_normals {dest : Str} (hne : cleanComps dest ≠ []) {T : List Str}
    (hT : T ≠ []) (hn : ∀ c ∈ T, Normal c) :
    passesCheck dest (joinSep T) = true ∧
      pathKey (Join dest (joinSep T)) = destKey dest ++ T := by
  have hd : dest ≠ [] := by
    rintro rfl
    exact hne rfl
  have hTe : ∀ c ∈ T, Elem c := fun c hc => (hn c hc).1
  constructor
  · unfold passesCheck
    rw [Join_of_ne_nil hd, cleanComps_join_normals hd hT hn, Clean,
      render_append hne hT (cleanComps_elem dest) hTe, hasPrefix_iff]
    exact ⟨joinSep T, by simp⟩
  · rw [Join_of_ne_nil hd, cleanComps_join_normals hd hT hn, pathKey_render, rootKey_eq,
      List.append_assoc]
    intro c hc
    rcases List.mem_append.mp hc with h | h
    · exact cleanComps_elem dest c h
    · exact hTe c h

theorem dropWhile_append_of_all {α : Type} (p : α → Bool) (l m : List α) (h : ∀ x ∈ l, p x = true) :
    (l ++ m).dropWhile p = m.dropWhile p := by
  induction l with
  | nil => rfl
  | cons a l ih =>
    rw [List.cons_append, List.dropWhile_cons, if_pos (h a (List.mem_cons_self _ _))]
    exact ih (fun x hx => h x (List.mem_cons_of_mem _ hx))

/-- The text up to and including the last separator. -/
theorem strip_after_sep (a c : Str) (hc : sep ∉ c) :
    ((a ++ sep :: c).reverse.dropWhile (fun x => x ≠ sep)).reverse = a ++ [sep] := by
  have : (a ++ sep :: c).reverse = c.reverse ++ sep :: a.reverse := by simp
  rw [this, dropWhile_append_of_all]
  · rw [List.dropWhile_cons, if_neg (by simp)]
    simp
  · intro x hx
    have : x ≠ sep := fun e => hc (e ▸ List.mem_reverse.mp hx)
    simpa using this

theorem strip_no_sep (c : Str) (hc : sep ∉ c) :
    (c.reverse.dropWhile (fun x => x ≠ sep)).reverse = [] := by
  have := dropWhile_append_of_all (fun x => decide (x ≠ sep)) c.reverse [] (by
    intro x hx
    have : x ≠ sep := fun e => hc (e ▸ List.mem_reverse.mp hx)
    simpa using this)
  rw [List.append_nil] at this
  rw [this]
  rfl

theorem Dir_render {r : Bool} {X : List Str} {c : Str} (h : CleanStk r (X ++ [c]).reverse) :
    Dir (render r (X ++ [c])) = render r X := by
  have he : ∀ x ∈ X ++ [c], Elem x := fun x hx => h.elem x (List.mem_reverse.mpr hx)
  have hc : sep ∉ c := (he c (by simp)).2.2
  have hX : CleanStk r X.reverse := by
    rw [List.reverse_append] at h
    exact h.tail
  have hXe : ∀ x ∈ X, Elem x := fun x hx => he x (by simp [hx])
  unfold Dir
  by_cases hne : X = []
  · subst hne
    rw [List.nil_append, render_of_ne_nil r (by simp) (by simpa using he)]
    cases r with
    | true =>
      simp only [if_true, joinSep]
      rw [show [sep] ++ c = [] ++ sep :: c from rfl, strip_after_sep [] c hc]
      rfl
    | false =>
      simp only [Bool.false_eq_true, if_false, joinSep, List.nil_append]
      rw [strip_no_sep c hc]
      rfl
  · rw [render_append hne (by simp) hXe (by simpa using he c (by simp))]
    simp only [joinSep]
    rw [strip_after_sep _ c hc, Clean, isRooted_append (render_ne_nil _ _),
      isRooted_render r hXe, cleanComps_append (render_ne_nil _ _), cleanComps_render hX]
    simp [splitSep, cleanStep]

/-- The parent of the resolved path of a joined path is what `filepath.Dir`
resolves to. -/
theorem pathKey_Dir_Join {dest name : Str} (hd : dest ≠ []) {X : List Str} {c : Str}
    (h : cleanComps (dest ++ sep :: name) = X ++ [c]) :
    pathKey (Dir (Join dest name)) = (pathKey (Join dest name)).dropLast := by
  have hs := cleanComps_stk (dest ++ sep :: name)
  rw [h, isRooted_append hd] at hs
  have he : ∀ x ∈ X ++ [c], Elem x := fun x hx => hs.elem x (List.mem_reverse.mpr hx)
  rw [Join_of_ne_nil hd, h, Dir_render hs, pathKey_render _ he,
    pathKey_render _ (fun x hx => he x (by simp [hx])), ← List.append_assoc,
    List.dropLast_concat]


/-! ## The file system -/

theorem lookup_special (fs : FS) {k : Key} (h : k = [] ∨ k = [rootComp]) :
    fs.lookup k = some (.dir 0o755) := by
  unfold FS.lookup
  rw [if_pos h]

theorem lookup_not_special (fs : FS) {k : Key} (h : ¬ (k = [] ∨ k = [rootComp])) :
    fs.lookup k = fs.nodes k := by
  unfold FS.lookup
  rw [if_neg h]

theorem not_special_of_none {fs : FS} {k : Key} (h : fs.lookup k = none) :
    ¬ (k = [] ∨ k = [rootComp]) := by
  intro hs
  rw [lookup_special fs hs] at h
  exact absurd h (by simp)

theorem not_special_of_file {fs : FS} {k : Key} {p : Perm} {d : Bytes}
    (h : fs.lookup k = some (.file p d)) : ¬ (k = [] ∨ k = [rootComp]) := by
  intro hs
  rw [lookup_special fs hs] at h
  exact absurd h (by simp)

theorem lookup_set_self (fs : FS) {k : Key} (n : Node) (h : ¬ (k = [] ∨ k = [rootComp])) :
    (fs.set k n).lookup k = some n := by
  rw [lookup_not_special _ h]
  simp [FS.set]

theorem lookup_set_ne (fs : FS) {k k' : Key} (n : Node) (h : k' ≠ k) :
    (fs.set k n).lookup k' = fs.lookup k' := by
  unfold FS.lookup
  simp [FS.set, h]

theorem lookup_cases (fs : FS) (k : Key) :
    fs.lookup k = none ∨ (∃ p, fs.lookup k = some (.dir p)) ∨
      ∃ p d, fs.lookup k = some (.file p d) := by
  cases h : fs.lookup k with
  | none => exact Or.inl rfl
  | some n =>
    cases n with
    | dir p => exact Or.inr (Or.inl ⟨p, rfl⟩)
    | file p d => exact Or.inr (Or.inr ⟨p, d, rfl⟩)

theorem umask_set (fs : FS) (k : Key) (n : Node) : (fs.set k n).umask = fs.umask := rfl

theorem privileged_set (fs : FS) (k : Key) (n : Node) :
    (fs.set k n).privileged = fs.privileged := rfl

theorem newDirPerm_set (fs : FS) (k : Key) (n : Node) (perm : Perm) :
    (fs.set k n).newDirPerm perm = fs.newDirPerm perm := rfl

theorem newFilePerm_set (fs : FS) (k : Key) (n : Node) (perm : Perm) :
    (fs.set k n).newFilePerm perm = fs.newFilePerm perm := rfl

theorem mayCreateIn_set (fs : FS) (k : Key) (n : Node) (perm : Perm) :
    (fs.set k n).mayCreateIn perm = fs.mayCreateIn perm := rfl

theorem mayEnter_of_mayCreateIn {fs : FS} {p : Perm} (h : fs.mayCreateIn p = true) :
    fs.mayEnter p = true := by
  unfold FS.mayCreateIn at h
  unfold FS.mayEnter
  cases hp : fs.privileged
  · rw [hp] at h
    simp only [Bool.false_or, Bool.and_eq_true] at h ⊢
    exact h.1
  · rfl

theorem mayCreateIn_congr {fs fs' : FS} (h : fs'.privileged = fs.privileged) (p : Perm) :
    fs'.mayCreateIn p = fs.mayCreateIn p := by
  unfold FS.mayCreateIn
  rw [h]

theorem mayCreateIn_default (fs : FS) : fs.mayCreateIn 0o755 = true := by
  unfold FS.mayCreateIn
  cases fs.privileged
  · decide
  · rfl

theorem dirPerm_of_dir {fs : FS} {k : Key} {p : Perm} (h : fs.lookup k = some (.dir p)) :
    fs.dirPerm k = p := by
  unfold FS.dirPerm
  rw [h]

theorem dirPerm_nil (fs : FS) : fs.dirPerm [] = 0o755 :=
  dirPerm_of_dir (lookup_special fs (Or.inl rfl))

theorem onChain_cons {pre : Key} {c : Str} {cs : List Str} {k : Key} :
    OnChain pre (c :: cs) k ↔ k = pre ++ [c] ∨ OnChain (pre ++ [c]) cs k := by
  constructor
  · rintro ⟨cs1, cs2, hne, heq, rfl⟩
    cases cs1 with
    | nil => exact absurd rfl hne
    | cons x xs =>
      simp only [List.cons_append, List.cons.injEq] at heq
      obtain ⟨rfl, rfl⟩ := heq
      cases xs with
      | nil => exact Or.inl rfl
      | cons y ys =>
        right
        exact ⟨y :: ys, cs2, by simp, rfl, by simp⟩
  · rintro (rfl | ⟨cs1, cs2, hne, rfl, rfl⟩)
    · exact ⟨[c], cs, by simp, rfl, rfl⟩
    · exact ⟨c :: cs1, cs2, by simp, rfl, by simp⟩

theorem onChain_nil {pre k : Key} : ¬ OnChain pre [] k := by
  rintro ⟨cs1, cs2, hne, heq, _⟩
  exact hne (List.append_eq_nil.mp heq.symm).1

theorem onChain_ne {pre : Key} {c : Str} {cs : List Str} {k : Key}
    (h : OnChain (pre ++ [c]) cs k) : k ≠ pre ++ [c] := by
  obtain ⟨cs1, cs2, hne, _, rfl⟩ := h
  intro e
  have := congrArg List.length e
  simp only [List.length_append, List.length_cons, List.length_nil] at this
  have : cs1.length ≠ 0 := fun e => hne (List.length_eq_zero.mp e)
  omega

theorem onChain_root {cs : List Str} {k : Key} : OnChain [] cs k ↔ k ≠ [] ∧ k <+: cs := by
  constructor
  · rintro ⟨cs1, cs2, hne, rfl, rfl⟩
    exact ⟨by simpa using hne, by simp⟩
  · rintro ⟨hne, cs2, rfl⟩
    exact ⟨k, cs2, hne, rfl, rfl⟩

/-- The ways one step of the loop under `os.MkdirAll` can go. -/
theorem mkdirAllFrom_cases (perm : Perm) (fs : FS) (pre : Key) (c : Str) (cs : List Str) :
    mkdirAllFrom perm fs pre (c :: cs) = (some .EACCES, fs) ∨
    (∃ q d, fs.lookup (pre ++ [c]) = some (.file q d) ∧
      mkdirAllFrom perm fs pre (c :: cs) = (some .ENOTDIR, fs)) ∨
    (∃ q, fs.lookup (pre ++ [c]) = some (.dir q) ∧
      mkdirAllFrom perm fs pre (c :: cs) = mkdirAllFrom perm fs (pre ++ [c]) cs) ∨
    (fs.lookup (pre ++ [c]) = none ∧
      mkdirAllFrom perm fs pre (c :: cs) =
        mkdirAllFrom perm (fs.set (pre ++ [c]) (.dir (fs.newDirPerm perm))) (pre ++ [c]) cs) := by
  by_cases he : fs.mayEnter (fs.dirPerm pre) = true
  · cases hl : fs.lookup (pre ++ [c]) with
    | none =>
      by_cases hc : fs.mayCreateIn (fs.dirPerm pre) = true
      · right; right; right
        refine ⟨rfl, ?_⟩
        simp only [mkdirAllFrom, he, hl, hc, if_true]
      · left
        simp only [mkdirAllFrom, he, hl, hc, if_true, if_false, Bool.false_eq_true]
    | some n =>
      cases n with
      | dir q =>
        right; right; left
        refine ⟨q, rfl, ?_⟩
        simp only [mkdirAllFrom, he, hl, if_true]
      | file q d =>
        right; left
        refine ⟨q, d, rfl, ?_⟩
        simp only [mkdirAllFrom, he, hl, if_true]
  · left
    simp only [mkdirAllFrom, he, if_false, Bool.false_eq_true]

theorem mkdirAllFrom_dir {perm : Perm} {fs : FS} {pre : Key} {c : Str} {cs : List Str} {q : Perm}
    (he : fs.mayEnter (fs.dirPerm pre) = true) (hl : fs.lookup (pre ++ [c]) = some (.dir q)) :
    mkdirAllFrom perm fs pre (c :: cs) = mkdirAllFrom perm fs (pre ++ [c]) cs := by
  simp only [mkdirAllFrom, he, hl, if_true]

theorem mkdirAllFrom_new {perm : Perm} {fs : FS} {pre : Key} {c : Str} {cs : List Str}
    (hc : fs.mayCreateIn (fs.dirPerm pre) = true) (hl : fs.lookup (pre ++ [c]) = none) :
    mkdirAllFrom perm fs pre (c :: cs) =
      mkdirAllFrom perm (fs.set (pre ++ [c]) (.dir (fs.newDirPerm perm))) (pre ++ [c]) cs := by
  simp only [mkdirAllFrom, mayEnter_of_mayCreateIn hc, hl, hc, if_true]

theorem mkdirAllFrom_umask (perm : Perm) : ∀ (cs : List Str) (fs : FS) (pre : Key),
    (mkdirAllFrom perm fs pre cs).2.umask = fs.umask := by
  intro cs
  induction cs with
  | nil => intro fs pre; rfl
  | cons c cs ih =>
    intro fs pre
    rcases mkdirAllFrom_cases perm fs pre c cs with h | ⟨_, _, _, h⟩ | ⟨_, _, h⟩ | ⟨_, h⟩ <;>
      rw [h]
    · exact ih _ _
    · rw [ih]; rfl

theorem mkdirAllFrom_privileged (perm : Perm) : ∀ (cs : List Str) (fs : FS) (pre : Key),
    (mkdirAllFrom perm fs pre cs).2.privileged = fs.privileged := by
  intro cs
  induction cs with
  | nil => intro fs pre; rfl
  | cons c cs ih =>
    intro fs pre
    rcases mkdirAllFrom_cases perm fs pre c cs with h | ⟨_, _, _, h⟩ | ⟨_, _, h⟩ | ⟨_, h⟩ <;>
      rw [h]
    · exact ih _ _
    · rw [ih]; rfl

/-- A call of `os.MkdirAll` changes a node only by making a directory where
there was nothing, on the way to its argument. -/
theorem mkdirAllFrom_lookup (perm : Perm) : ∀ (cs : List Str) (fs : FS) (pre : Key) (k : Key),
    (mkdirAllFrom perm fs pre cs).2.lookup k = fs.lookup k ∨
      (OnChain pre cs k ∧ fs.lookup k = none ∧
        (mkdirAllFrom perm fs pre cs).2.lookup k = some (.dir (fs.newDirPerm perm))) := by
  intro cs
  induction cs with
  | nil => intro fs pre k; exact Or.inl rfl
  | cons c cs ih =>
    intro fs pre k
    rcases mkdirAllFrom_cases perm fs pre c cs with h | ⟨_, _, _, h⟩ | ⟨_, _, h⟩ | ⟨hnone, h⟩ <;>
      rw [h]
    · exact Or.inl rfl
    · exact Or.inl rfl
    · rcases ih fs (pre ++ [c]) k with h | ⟨h1, h2, h3⟩
      · exact Or.inl h
      · exact Or.inr ⟨onChain_cons.mpr (Or.inr h1), h2, h3⟩
    · have hns := not_special_of_none hnone
      rcases ih (fs.set (pre ++ [c]) (.dir (fs.newDirPerm perm))) (pre ++ [c]) k with
        h | ⟨h1, h2, h3⟩
      · by_cases hk : k = pre ++ [c]
        · subst hk
          right
          refine ⟨onChain_cons.mpr (Or.inl rfl), hnone, ?_⟩
          rw [h, lookup_set_self _ _ hns]
        · left
          rw [h, lookup_set_ne _ _ hk]
      · right
        have hk := onChain_ne h1
        rw [lookup_set_ne _ _ hk] at h2
        exact ⟨onChain_cons.mpr (Or.inr h1), h2, h3⟩

/-- When no regular file is in the way and the process may search and write
the directories on the way, those there and those it makes, `os.MkdirAll`
succeeds and every directory on the way exists afterwards. -/
theorem mkdirAllFrom_ok (perm : Perm) : ∀ (cs : List Str) (fs : FS) (pre : Key),
    fs.mayCreateIn (fs.newDirPerm perm) = true →
    fs.mayCreateIn (fs.dirPerm pre) = true →
    (∀ k, OnChain pre cs k → ∀ p d, fs.lookup k ≠ some (.file p d)) →
    (∀ k p, OnChain pre cs k → fs.lookup k = some (.dir p) → fs.mayCreateIn p = true) →
    (mkdirAllFrom perm fs pre cs).1 = none ∧
      ∀ k, OnChain pre cs k → ∃ p, (mkdirAllFrom perm fs pre cs).2.lookup k = some (.dir p) := by
  intro cs
  induction cs with
  | nil =>
    intro fs pre _ _ _ _
    exact ⟨rfl, fun k hk => absurd hk onChain_nil⟩
  | cons c cs ih =>
    intro fs pre hnew hpre hfile hacc
    have keep : ∀ (fs' : FS) (q : Perm), fs'.lookup (pre ++ [c]) = some (.dir q) →
        ∃ p, (mkdirAllFrom perm fs' (pre ++ [c]) cs).2.lookup (pre ++ [c]) = some (.dir p) := by
      intro fs' q hq
      rcases mkdirAllFrom_lookup perm cs fs' (pre ++ [c]) (pre ++ [c]) with h | ⟨_, h2, _⟩
      · exact ⟨q, by rw [h, hq]⟩
      · rw [hq] at h2; exact absurd h2 (by simp)
    rcases lookup_cases fs (pre ++ [c]) with hnone | ⟨q, hq⟩ | ⟨q, d, hq⟩
    · have hns := not_special_of_none hnone
      have hself := lookup_set_self fs (.dir (fs.newDirPerm perm)) hns
      rw [mkdirAllFrom_new hpre hnone]
      obtain ⟨h1, h2⟩ := ih (fs.set (pre ++ [c]) (.dir (fs.newDirPerm perm))) (pre ++ [c])
        hnew (by rw [dirPerm_of_dir hself]; exact hnew)
        (by
          intro k hk
          rw [lookup_set_ne _ _ (onChain_ne hk)]
          exact hfile k (onChain_cons.mpr (Or.inr hk)))
        (by
          intro k p hk
          rw [lookup_set_ne _ _ (onChain_ne hk)]
          exact hacc k p (onChain_cons.mpr (Or.inr hk)))
      refine ⟨h1, ?_⟩
      intro k hk
      rcases onChain_cons.mp hk with rfl | hk'
      · exact keep _ _ hself
      · exact h2 k hk'
    · rw [mkdirAllFrom_dir (mayEnter_of_mayCreateIn hpre) hq]
      obtain ⟨h1, h2⟩ := ih fs (pre ++ [c]) hnew
        (by rw [dirPerm_of_dir hq]; exact hacc _ q (onChain_cons.mpr (Or.inl rfl)) hq)
        (fun k hk => hfile k (onChain_cons.mpr (Or.inr hk)))
        (fun k p hk => hacc k p (onChain_cons.mpr (Or.inr hk)))
      refine ⟨h1, ?_⟩
      intro k hk
      rcases onChain_cons.mp hk with rfl | hk'
      · exact keep fs q hq
      · exact h2 k hk'
    · exact absurd hq (hfile _ (onChain_cons.mpr (Or.inl rfl)) q d)

theorem resolveDirs_ok (fs : FS) : ∀ (cs : List Str) (pre : Key),
    (∀ k, OnChain pre cs k → ∃ p, fs.lookup k = some (.dir p)) → resolveDirs fs pre cs = none := by
  intro cs
  induction cs with
  | nil => intro pre _; rfl
  | cons c cs ih =>
    intro pre h
    obtain ⟨p, hp⟩ := h (pre ++ [c]) (onChain_cons.mpr (Or.inl rfl))
    unfold resolveDirs
    rw [hp]
    exact ih _ (fun k hk => h k (onChain_cons.mpr (Or.inr hk)))

theorem resolveDirs_none (fs : FS) : ∀ (cs : List Str) (pre : Key),
    resolveDirs fs pre cs = none → ∀ k, OnChain pre cs k → ∃ p, fs.lookup k = some (.dir p) := by
  intro cs
  induction cs with
  | nil => intro pre _ k hk; exact absurd hk onChain_nil
  | cons c cs ih =>
    intro pre h k hk
    unfold resolveDirs at h
    split at h
    · rename_i q hq
      rcases onChain_cons.mp hk with rfl | hk'
      · exact ⟨q, hq⟩
      · exact ih _ h k hk'
    · exact absurd h (by simp)
    · exact absurd h (by simp)


theorem MkdirAll_eq {path : Str} (h : path ≠ []) (fs : FS) (perm : Perm) :
    MkdirAll fs path perm = mkdirAllFrom perm fs [] (pathKey path) := by
  unfold MkdirAll
  rw [if_neg h]

theorem MkdirAll_umask (fs : FS) (path : Str) (perm : Perm) :
    (MkdirAll fs path perm).2.umask = fs.umask := by
  unfold MkdirAll
  split_ifs
  · rfl
  · exact mkdirAllFrom_umask _ _ _ _

theorem MkdirAll_privileged (fs : FS) (path : Str) (perm : Perm) :
    (MkdirAll fs path perm).2.privileged = fs.privileged := by
  unfold MkdirAll
  split_ifs
  · rfl
  · exact mkdirAllFrom_privileged _ _ _ _

theorem MkdirAll_lookup (fs : FS) (path : Str) (perm : Perm) (k : Key) :
    (MkdirAll fs path perm).2.lookup k = fs.lookup k ∨
      (k ≠ [] ∧ k <+: pathKey path ∧ fs.lookup k = none ∧
        (MkdirAll fs path perm).2.lookup k = some (.dir (fs.newDirPerm perm))) := by
  unfold MkdirAll
  split_ifs
  · exact Or.inl rfl
  · rcases mkdirAllFrom_lookup perm (pathKey path) fs [] k with h | ⟨h1, h2, h3⟩
    · exact Or.inl h
    · obtain ⟨h4, h5⟩ := onChain_root.mp h1
      exact Or.inr ⟨h4, h5, h2, h3⟩

theorem MkdirAll_ok {path : Str} (hp : path ≠ []) (fs : FS) (perm : Perm)
    (hnew : fs.mayCreateIn (fs.newDirPerm perm) = true)
    (h : ∀ k, k ≠ [] → k <+: pathKey path → ∀ p d, fs.lookup k ≠ some (.file p d))
    (hacc : ∀ k p, k ≠ [] → k <+: pathKey path → fs.lookup k = some (.dir p) →
      fs.mayCreateIn p = true) :
    (MkdirAll fs path perm).1 = none ∧
      ∀ k, k ≠ [] → k <+: pathKey path → ∃ p, (MkdirAll fs path perm).2.lookup k = some (.dir p) := by
  rw [MkdirAll_eq hp]
  obtain ⟨h1, h2⟩ := mkdirAllFrom_ok perm (pathKey path) fs [] hnew
    (by rw [dirPerm_nil]; exact mayCreateIn_default fs)
    (fun k hk => h k (onChain_root.mp hk).1 (onChain_root.mp hk).2)
    (fun k p hk => hacc k p (onChain_root.mp hk).1 (onChain_root.mp hk).2)
  exact ⟨h1, fun k hk1 hk2 => h2 k (onChain_root.mpr ⟨hk1, hk2⟩)⟩

/-- The ways `os.OpenFile` can go. -/
theorem OpenFile_cases (fs : FS) (path : Str) (perm : Perm) :
    (OpenFile fs path perm).2 = fs ∨
    (∃ p d, fs.lookup (pathKey path) = some (.file p d) ∧
      OpenFile fs path perm = (none, fs.set (pathKey path) (.file p []))) ∨
    (fs.lookup (pathKey path) = none ∧
      OpenFile fs path perm = (none, fs.set (pathKey path) (.file (fs.newFilePerm perm) []))) := by
  unfold OpenFile
  by_cases hp : path = []
  · rw [if_pos hp]; exact Or.inl rfl
  · rw [if_neg hp]
    cases walkDirs fs [] (pathKey path).dropLast with
    | some e => exact Or.inl rfl
    | none =>
      simp only []
      by_cases hs : fs.mayEnter (fs.dirPerm (pathKey path).dropLast) = true
      · rw [if_pos hs]
        cases hl : fs.lookup (pathKey path) with
        | none =>
          simp only []
          by_cases hc : fs.mayCreateIn (fs.dirPerm (pathKey path).dropLast) = true
          · rw [if_pos hc]; exact Or.inr (Or.inr ⟨trivial, rfl⟩)
          · rw [if_neg hc]; exact Or.inl rfl
        | some n =>
          cases n with
          | dir q => exact Or.inl rfl
          | file q d =>
            simp only []
            by_cases hw : fs.mayWrite q = true
            · rw [if_pos hw]; exact Or.inr (Or.inl ⟨q, d, rfl, rfl⟩)
            · rw [if_neg hw]; exact Or.inl rfl
      · rw [if_neg hs]; exact Or.inl rfl

theorem OpenFile_umask (fs : FS) (path : Str) (perm : Perm) :
    (OpenFile fs path perm).2.umask = fs.umask := by
  rcases OpenFile_cases fs path perm with h | ⟨_, _, _, h⟩ | ⟨_, h⟩ <;> rw [h]
  · rfl
  · rfl

theorem OpenFile_privileged (fs : FS) (path : Str) (perm : Perm) :
    (OpenFile fs path perm).2.privileged = fs.privileged := by
  rcases OpenFile_cases fs path perm with h | ⟨_, _, _, h⟩ | ⟨_, h⟩ <;> rw [h]
  · rfl
  · rfl

theorem OpenFile_lookup (fs : FS) (path : Str) (perm : Perm) (k : Key) :
    (OpenFile fs path perm).2.lookup k = fs.lookup k ∨
      (k = pathKey path ∧ (∀ p, fs.lookup k ≠ some (.dir p)) ∧
        ∃ p, (OpenFile fs path perm).2.lookup k = some (.file p [])) := by
  rcases OpenFile_cases fs path perm with h | ⟨p, d, hf, h⟩ | ⟨hn, h⟩ <;> rw [h]
  · exact Or.inl rfl
  · by_cases hk : k = pathKey path
    · subst hk
      right
      refine ⟨rfl, ?_, p, lookup_set_self _ _ (not_special_of_file hf)⟩
      intro q hq
      rw [hf] at hq
      exact absurd hq (by simp)
    · exact Or.inl (lookup_set_ne _ _ hk)
  · by_cases hk : k = pathKey path
    · subst hk
      right
      refine ⟨rfl, ?_, _, lookup_set_self _ _ (not_special_of_none hn)⟩
      intro q hq
      rw [hn] at hq
      exact absurd hq (by simp)
    · exact Or.inl (lookup_set_ne _ _ hk)

theorem walkDirs_ok (fs : FS) : ∀ (cs : List Str) (pre : Key),
    fs.mayEnter (fs.dirPerm pre) = true →
    (∀ k, OnChain pre cs k → ∃ p, fs.lookup k = some (.dir p) ∧ fs.mayCreateIn p = true) →
    walkDirs fs pre cs = none := by
  intro cs
  induction cs with
  | nil => intro pre _ _; rfl
  | cons c cs ih =>
    intro pre he h
    obtain ⟨p, hp, hc⟩ := h (pre ++ [c]) (onChain_cons.mpr (Or.inl rfl))
    unfold walkDirs
    rw [if_pos he, hp]
    exact ih _ (by rw [dirPerm_of_dir hp]; exact mayEnter_of_mayCreateIn hc)
      (fun k hk => h k (onChain_cons.mpr (Or.inr hk)))

theorem walkDirs_resolve (fs : FS) : ∀ (cs : List Str) (pre : Key),
    walkDirs fs pre cs = none → resolveDirs fs pre cs = none := by
  intro cs
  induction cs with
  | nil => intro pre _; rfl
  | cons c cs ih =>
    intro pre h
    unfold walkDirs at h
    unfold resolveDirs
    by_cases he : fs.mayEnter (fs.dirPerm pre) = true
    · rw [if_pos he] at h
      cases hl : fs.lookup (pre ++ [c]) with
      | none => rw [hl] at h; exact absurd h (by simp)
      | some n =>
        cases n with
        | dir q =>
          rw [hl] at h
          exact ih _ h
        | file q d => rw [hl] at h; exact absurd h (by simp)
    · rw [if_neg he] at h; exact absurd h (by simp)

theorem OpenFile_new {fs : FS} {path : Str} (hp : path ≠ []) (perm : Perm)
    (hdirs : ∀ k, k ≠ [] → k <+: (pathKey path).dropLast →
      ∃ p, fs.lookup k = some (.dir p) ∧ fs.mayCreateIn p = true)
    (hnone : fs.lookup (pathKey path) = none) :
    OpenFile fs path perm = (none, fs.set (pathKey path) (.file (fs.newFilePerm perm) [])) := by
  have hparent : fs.mayCreateIn (fs.dirPerm (pathKey path).dropLast) = true := by
    by_cases hd : (pathKey path).dropLast = []
    · rw [hd, dirPerm_nil]; exact mayCreateIn_default fs
    · obtain ⟨p, h1, h2⟩ := hdirs _ hd (List.prefix_refl _)
      rw [dirPerm_of_dir h1]; exact h2
  unfold OpenFile
  rw [if_neg hp, walkDirs_ok fs _ []
    (by rw [dirPerm_nil]; exact mayEnter_of_mayCreateIn (mayCreateIn_default fs))
    (fun k hk => hdirs k (onChain_root.mp hk).1 (onChain_root.mp hk).2)]
  simp only []
  rw [if_pos (mayEnter_of_mayCreateIn hparent), hnone]
  simp only []
  rw [if_pos hparent]

theorem ioCopy_privileged (fs : FS) (path : Str) (data : Bytes) :
    (ioCopy fs path data).privileged = fs.privileged := by
  unfold ioCopy
  split <;> rfl

theorem ioCopy_umask (fs : FS) (path : Str) (data : Bytes) :
    (ioCopy fs path data).umask = fs.umask := by
  unfold ioCopy
  split <;> rfl

theorem ioCopy_lookup (fs : FS) (path : Str) (data : Bytes) (k : Key) :
    (ioCopy fs path data).lookup k = fs.lookup k ∨
      (k = pathKey path ∧ ∃ p d, fs.lookup k = some (.file p d) ∧
        (ioCopy fs path data).lookup k = some (.file p data)) := by
  unfold ioCopy
  split
  · rename_i p d hf
    by_cases hk : k = pathKey path
    · subst hk
      exact Or.inr ⟨rfl, p, d, hf, lookup_set_self _ _ (not_special_of_file hf)⟩
    · exact Or.inl (lookup_set_ne _ _ hk)
  · exact Or.inl rfl

/-- The shape of the resolved path of an entry that passes the check. -/
theorem entry_shape {dest name : Str} (h : passesCheck dest name = true) :
    ∃ T, T ≠ [] ∧ (∀ c ∈ T, Elem c) ∧ destKey dest ≠ [] ∧
      pathKey (Join dest name) = destKey dest ++ T ∧
      pathKey (Dir (Join dest name)) = destKey dest ++ T.dropLast ∧
      Join dest name ≠ [] := by
  obtain ⟨hd, hne, T, hT, hY, hj⟩ := passesCheck_comps h
  obtain ⟨T', hT', hTe, hk⟩ := passesCheck_key h
  have hTT : T' = T := by
    have h1 : pathKey (Join dest name) = destKey dest ++ T := by
      rw [Join_of_ne_nil hd, pathKey_render _ (cleanComps_elem _), hY, rootKey_eq,
        List.append_assoc]
    exact List.append_cancel_left (hk.symm.trans h1)
  subst hTT
  refine ⟨T', hT, hTe, ?_, hk, ?_, ?_⟩
  · rw [rootKey_eq]
    simp [hne]
  · have hY' : cleanComps (dest ++ sep :: name) =
        (cleanComps dest ++ T'.dropLast) ++ [T'.getLast hT] := by
      rw [hY, List.append_assoc, List.dropLast_append_getLast]
    rw [pathKey_Dir_Join hd hY', hk, List.dropLast_append_of_ne_nil _ hT]
  · rw [Join_of_ne_nil hd]
    exact render_ne_nil _ _


/-! ## `unzip` -/

theorem extract_rejects {dest : Str} (fs : FS) (f : ZipFile)
    (h : passesCheck dest f.name = false) :
    ∃ e, extractAndWriteFile dest fs f = (some e, fs) := by
  unfold extractAndWriteFile
  cases hb : f.body with
  | error e => exact ⟨e, rfl⟩
  | ok rc =>
    refine ⟨.invalidFilePath f.name, ?_⟩
    unfold passesCheck at h
    simp only [h, Bool.not_false, if_true]

theorem extract_umask (dest : Str) (fs : FS) (f : ZipFile) :
    (extractAndWriteFile dest fs f).2.umask = fs.umask := by
  unfold extractAndWriteFile
  split
  · rfl
  · simp only []
    split_ifs
    · rfl
    · exact MkdirAll_umask _ _ _
    · split
      · rename_i e fs2 h
        have := OpenFile_umask (MkdirAll fs (Dir (Join dest f.name)) 0o755).2 (Join dest f.name) f.perm
        rw [h] at this
        rw [this, MkdirAll_umask]
      · rename_i fs2 h
        have := OpenFile_umask (MkdirAll fs (Dir (Join dest f.name)) 0o755).2 (Join dest f.name) f.perm
        rw [h] at this
        rw [ioCopy_umask, this, MkdirAll_umask]

theorem extract_privileged (dest : Str) (fs : FS) (f : ZipFile) :
    (extractAndWriteFile dest fs f).2.privileged = fs.privileged := by
  unfold extractAndWriteFile
  split
  · rfl
  · simp only []
    split_ifs
    · rfl
    · exact MkdirAll_privileged _ _ _
    · split
      · rename_i e fs2 h
        have := OpenFile_privileged (MkdirAll fs (Dir (Join dest f.name)) 0o755).2 (Join dest f.name) f.perm
        rw [h] at this
        rw [this, MkdirAll_privileged]
      · rename_i fs2 h
        have := OpenFile_privileged (MkdirAll fs (Dir (Join dest f.name)) 0o755).2 (Join dest f.name) f.perm
        rw [h] at this
        rw [ioCopy_privileged, this, MkdirAll_privileged]

/-- An entry changes a node only when it passes the check, only on the way to
its own resolved path, and never where a directory was. -/
theorem extract_lookup (dest : Str) (fs : FS) (f : ZipFile) (k : Key) :
    (extractAndWriteFile dest fs f).2.lookup k = fs.lookup k ∨
      (passesCheck dest f.name = true ∧ k ≠ [] ∧ k <+: entryKey dest f ∧
        ∀ p, fs.lookup k ≠ some (.dir p)) := by
  unfold extractAndWriteFile
  split
  · exact Or.inl rfl
  · rename_i rc hbody
    simp only []
    by_cases hc : passesCheck dest f.name = true
    · have hc' : hasPrefix (Join dest f.name) (Clean dest ++ [sep]) = true := hc
      obtain ⟨T, hT, hTe, hD, hK, hKd, hJ⟩ := entry_shape hc
      have hdl : destKey dest ++ T.dropLast <+: entryKey dest f := by
        unfold entryKey
        rw [hK]
        exact (List.prefix_append_right_inj _).mpr (List.dropLast_prefix T)
      simp only [hc', Bool.not_true, Bool.false_eq_true, if_false]
      split_ifs
      · rcases MkdirAll_lookup fs (Join dest f.name) f.perm k with h | ⟨h1, h2, h3, _⟩
        · exact Or.inl h
        · exact Or.inr ⟨hc, h1, h2, fun p hp => by rw [h3] at hp; exact absurd hp (by simp)⟩
      · have hmk := MkdirAll_lookup fs (Dir (Join dest f.name)) 0o755 k
        have hop := OpenFile_lookup (MkdirAll fs (Dir (Join dest f.name)) 0o755).2
          (Join dest f.name) f.perm k
        have hmk' : (MkdirAll fs (Dir (Join dest f.name)) 0o755).2.lookup k = fs.lookup k ∨
            (passesCheck dest f.name = true ∧ k ≠ [] ∧ k <+: entryKey dest f ∧
              ∀ p, fs.lookup k ≠ some (.dir p)) := by
          rcases hmk with h | ⟨h1, h2, h3, _⟩
          · exact Or.inl h
          · rw [hKd] at h2
            exact Or.inr ⟨hc, h1, h2.trans hdl,
              fun p hp => by rw [h3] at hp; exact absurd hp (by simp)⟩
        have hkne : pathKey (Join dest f.name) ≠ [] := by
          rw [hK]; simp [hT]
        have hop' : (OpenFile (MkdirAll fs (Dir (Join dest f.name)) 0o755).2
            (Join dest f.name) f.perm).2.lookup k = fs.lookup k ∨
            (passesCheck dest f.name = true ∧ k ≠ [] ∧ k <+: entryKey dest f ∧
              ∀ p, fs.lookup k ≠ some (.dir p)) := by
          rcases hop with h | ⟨h1, h2, _⟩
          · rw [h]; exact hmk'
          · rcases hmk' with h' | h'
            · right
              refine ⟨hc, by rw [h1]; exact hkne, by rw [h1]; exact List.prefix_refl _, ?_⟩
              intro p hp
              exact h2 p (by rw [h', hp])
            · exact Or.inr h'
        split
        · rename_i e fs2 h
          rw [h] at hop'
          exact hop'
        · rename_i fs2 h
          rw [h] at hop'
          rcases ioCopy_lookup fs2 (Join dest f.name) rc k with h3 | ⟨h3, p, d, h4, _⟩
          · rw [h3]; exact hop'
          · rcases hop' with h' | h'
            · right
              refine ⟨hc, by rw [h3]; exact hkne, by rw [h3]; exact List.prefix_refl _, ?_⟩
              intro q hq
              rw [← h', h4] at hq
              exact absurd hq (by simp)
            · exact Or.inr h'
    · have hc' : hasPrefix (Join dest f.name) (Clean dest ++ [sep]) = false := by
        simpa [passesCheck] using hc
      simp only [hc', Bool.not_false, if_true]
      first | exact Or.inl rfl | exact Or.inl trivial

theorem unzipFiles_cons (dest : Str) (fs : FS) (f : ZipFile) (rest : List ZipFile) :
    unzipFiles dest fs (f :: rest) =
      if (extractAndWriteFile dest fs f).1 = none then
        unzipFiles dest (extractAndWriteFile dest fs f).2 rest
      else extractAndWriteFile dest fs f := by
  rw [unzipFiles]
  rcases h : extractAndWriteFile dest fs f with ⟨_ | e, fs1⟩
  · simp
  · simp

theorem unzipFiles_append (dest : Str) : ∀ (pre post : List ZipFile) (fs : FS),
    unzipFiles dest fs (pre ++ post) =
      if (unzipFiles dest fs pre).1 = none then unzipFiles dest (unzipFiles dest fs pre).2 post
      else unzipFiles dest fs pre := by
  intro pre
  induction pre with
  | nil => intro post fs; simp [unzipFiles]
  | cons f pre ih =>
    intro post fs
    rw [List.cons_append, unzipFiles_cons, unzipFiles_cons]
    by_cases h : (extractAndWriteFile dest fs f).1 = none
    · rw [if_pos h, if_pos h, ih]
    · rw [if_neg h, if_neg h, if_neg h]

theorem unzipFiles_umask (dest : Str) : ∀ (files : List ZipFile) (fs : FS),
    (unzipFiles dest fs files).2.umask = fs.umask := by
  intro files
  induction files with
  | nil => intro fs; rfl
  | cons f rest ih =>
    intro fs
    rw [unzipFiles_cons]
    split_ifs
    · rw [ih, extract_umask]
    · exact extract_umask _ _ _

/-- The loop of `unzip` stops at an entry that fails the check: the result is
an error and the state is the one the entries before it left. -/
theorem unzipFiles_stops (dest : Str) (fs : FS) (pre post : List ZipFile) (f : ZipFile)
    (h : passesCheck dest f.name = false) :
    (unzipFiles dest fs (pre ++ f :: post)).1 ≠ none ∧
      (unzipFiles dest fs (pre ++ f :: post)).2 = (unzipFiles dest fs pre).2 := by
  rw [unzipFiles_append]
  by_cases hp : (unzipFiles dest fs pre).1 = none
  · rw [if_pos hp, unzipFiles_cons]
    obtain ⟨e, he⟩ := extract_rejects (unzipFiles dest fs pre).2 f h
    rw [he]
    simp
  · rw [if_neg hp]
    exact ⟨hp, rfl⟩

theorem unzipFiles_lookup (dest : Str) : ∀ (files : List ZipFile) (fs : FS) (k : Key),
    (unzipFiles dest fs files).2.lookup k = fs.lookup k ∨
      ((∃ f ∈ files, passesCheck dest f.name = true ∧ k ≠ [] ∧ k <+: entryKey dest f) ∧
        ∀ p, fs.lookup k ≠ some (.dir p)) := by
  intro files
  induction files with
  | nil => intro fs k; exact Or.inl rfl
  | cons f rest ih =>
    intro fs k
    rw [unzipFiles_cons]
    have hstep := extract_lookup dest fs f k
    have hstep' : (extractAndWriteFile dest fs f).2.lookup k = fs.lookup k ∨
        ((∃ g ∈ f :: rest, passesCheck dest g.name = true ∧ k ≠ [] ∧ k <+: entryKey dest g) ∧
          ∀ p, fs.lookup k ≠ some (.dir p)) := by
      rcases hstep with h | ⟨h1, h2, h3, h4⟩
      · exact Or.inl h
      · exact Or.inr ⟨⟨f, List.mem_cons_self _ _, h1, h2, h3⟩, h4⟩
    split_ifs
    · rcases ih (extractAndWriteFile dest fs f).2 k with h | ⟨⟨g, hg, hg'⟩, h2⟩
      · rw [h]; exact hstep'
      · rcases hstep' with h' | h'
        · right
          exact ⟨⟨g, List.mem_cons_of_mem _ hg, hg'⟩, fun p hp => h2 p (by rw [h', hp])⟩
        · exact Or.inr h'
    · exact hstep'

theorem key_under_cases {dest : Str} {name : Str} (hdd : dotdot ∉ cleanComps dest)
    (hc : passesCheck dest name = true) {k : Key} (hk : k <+: pathKey (Join dest name)) :
    k <+: destKey dest ∨ KeyInside dest k := by
  obtain ⟨hd, hne, T, hT, hY, hj⟩ := passesCheck_comps hc
  have hs := cleanComps_stk (dest ++ sep :: name)
  rw [hY] at hs
  have hn := cleanStk_no_dotdot hs hne hdd
  have hK : pathKey (Join dest name) = destKey dest ++ T := by
    rw [Join_of_ne_nil hd, pathKey_render _ (cleanComps_elem _), hY, rootKey_eq,
      List.append_assoc]
  rw [hK] at hk
  rcases List.prefix_or_prefix_of_prefix hk (List.prefix_append (destKey dest) T) with h | h
  · exact Or.inl h
  · obtain ⟨T', rfl⟩ := h
    by_cases hT' : T' = []
    · left; subst hT'; simp
    · right
      have hpre : T' <+: T := (List.prefix_append_right_inj _).mp hk
      exact ⟨T', hT', fun c hc => hn c (hpre.subset hc), rfl⟩


theorem contains_iff (s sub : Str) : contains s sub = true ↔ ∃ a b, s = a ++ sub ++ b := by
  induction s with
  | nil =>
    unfold contains
    constructor
    · intro h
      have : sub = [] := by simpa using h
      exact ⟨[], [], by simp [this]⟩
    · rintro ⟨a, b, h⟩
      have : sub = [] := by
        have := congrArg List.length h
        simp only [List.length_nil, List.length_append] at this
        exact List.length_eq_zero.mp (by omega)
      simp [this]
  | cons c cs ih =>
    unfold contains
    rw [Bool.or_eq_true, hasPrefix_iff, ih]
    constructor
    · rintro (⟨t, ht⟩ | ⟨a, b, h⟩)
      · exact ⟨[], t, by simpa using ht⟩
      · exact ⟨c :: a, b, by simp [h]⟩
    · rintro ⟨a, b, h⟩
      cases a with
      | nil => exact Or.inl ⟨b, by simpa using h⟩
      | cons x a =>
        simp only [List.cons_append, List.cons.injEq] at h
        exact Or.inr ⟨a, b, by simpa using h.2⟩

theorem contains_tail {s sub : Str} {c : Char} (h : contains s (c :: sub) = true) :
    contains s sub = true := by
  obtain ⟨a, b, hab⟩ := (contains_iff _ _).mp h
  exact (contains_iff _ _).mpr ⟨a ++ [c], b, by simp [hab]⟩

theorem contains_append_left {s sub : Str} (t : Str) (h : contains s sub = true) :
    contains (s ++ t) sub = true := by
  obtain ⟨a, b, hab⟩ := (contains_iff _ _).mp h
  exact (contains_iff _ _).mpr ⟨a, b ++ t, by simp [hab]⟩

/-- The names `shouldSkip` looks for, apart from `*.log`. -/
theorem shouldSkip_eq (path sourceDir rel : Str) (hrel : Rel sourceDir path = .ok rel) :
    shouldSkip path sourceDir =
      (contains rel ".git".toList || contains rel "node_modules".toList ||
        contains rel ".env".toList || contains rel "*.log".toList ||
        contains rel ".DS_Store".toList || contains rel "Thumbs.db".toList) := by
  unfold shouldSkip
  rw [hrel]
  simp only [List.any_cons, List.any_nil, Bool.or_false, Bool.or_assoc]


/-! ## `handleDeploy` -/

/-- The body of `handleDeploy` for a POST request that carries the form file,
with the stages named. -/
theorem handleDeploy_eq (zipOpenReader : Bytes → Except GoError (List ZipFile))
    (timestamp : Str) (r : Request) (s : ServerState) (file : Bytes)
    (hm : r.method = "POST".toList) (hf : r.FormFile "deployment".toList = some file) :
    handleDeploy zipOpenReader timestamp r s =
      if (MkdirAll s.fs (deployDirOf timestamp) 0o755).1 ≠ none then
        (httpError "Failed to create deployment directory".toList 500,
          { s with fs := (MkdirAll s.fs (deployDirOf timestamp) 0o755).2 })
      else if (Create (MkdirAll s.fs (deployDirOf timestamp) 0o755).2
          (zipPathOf timestamp)).1 ≠ none then
        (httpError "Failed to create zip file".toList 500,
          { s with fs := (Create (MkdirAll s.fs (deployDirOf timestamp) 0o755).2
            (zipPathOf timestamp)).2 })
      else if (extractedState zipOpenReader s.fs timestamp file).1 ≠ none then
        (httpError "Failed to extract deployment".toList 500,
          { s with fs := (extractedState zipOpenReader s.fs timestamp file).2 })
      else if statNotExist (extractedState zipOpenReader s.fs timestamp file).2
          (deployScriptOf timestamp) = true then
        (httpError "DEPLOY.sh not found in deployment".toList 400,
          { s with fs := (extractedState zipOpenReader s.fs timestamp file).2 })
      else if (Chmod (extractedState zipOpenReader s.fs timestamp file).2
          (deployScriptOf timestamp) 0o755).1 ≠ none then
        (httpError "Failed to make deploy script executable".toList 500,
          { s with fs := (Chmod (extractedState zipOpenReader s.fs timestamp file).2
            (deployScriptOf timestamp) 0o755).2 })
      else
        (⟨200, "Deployment started successfully in ".toList ++ deployDirOf timestamp ++ ['\n']⟩,
          { fs := (Chmod (extractedState zipOpenReader s.fs timestamp file).2
              (deployScriptOf timestamp) 0o755).2,
            spawned := s.spawned ++ [⟨deployDirOf timestamp, extractDirOf timestamp⟩] }) := by
  unfold handleDeploy
  simp only []
  rw [if_neg (by rw [hm]; simp), hf]
  simp only []
  unfold extractedState savedState
  unfold deployScriptOf extractDirOf zipPathOf deployDirOf
  generalize Join uploadDir ("deploy-".toList ++ timestamp) = deployDir
  rcases h1 : MkdirAll s.fs deployDir 0o755 with ⟨_ | e1, fs1⟩
  · simp only [ne_eq, not_true_eq_false, if_false]
    rcases h2 : Create fs1 (Join deployDir "deployment.zip".toList) with ⟨_ | e2, fs2⟩
    · simp only [ne_eq, not_true_eq_false, if_false]
      rcases h3 : unzip zipOpenReader (ioCopy fs2 (Join deployDir "deployment.zip".toList) file)
        (Join deployDir "deployment.zip".toList) (Join deployDir "extracted".toList) with
        ⟨_ | e3, fs4⟩
      · simp only [ne_eq, not_true_eq_false, if_false]
        generalize statNotExist fs4
          (Join (Join deployDir "extracted".toList) "DEPLOY.sh".toList) = cond
        cases cond with
        | true => simp
        | false =>
          simp only [Bool.false_eq_true, if_false]
          rcases h5 : Chmod fs4 (Join (Join deployDir "extracted".toList) "DEPLOY.sh".toList) 0o755
            with ⟨_ | e5, fs5⟩
          · simp
          · simp
      · simp
    · simp
  · simp


theorem Join_render_normal {r : Bool} {X : List Str} (hX : CleanStk r X.reverse) {c : Str}
    (hc : Normal c) :
    Join (render r X) c = render r (X ++ [c]) ∧ CleanStk r (X ++ [c]).reverse := by
  have hXe : ∀ x ∈ X, Elem x := fun x hx => hX.elem x (List.mem_reverse.mpr hx)
  constructor
  · rw [Join_of_ne_nil (render_ne_nil _ _), isRooted_render r hXe,
      cleanComps_append (render_ne_nil _ _), cleanComps_render hX,
      splitSep_of_noSep c hc.1.2.2]
    simp only [List.foldl_cons, List.foldl_nil]
    rw [cleanStep_normal _ _ hc]
    simp
  · rw [List.reverse_append]
    exact hX.push hc

theorem normal_of_literal {c : Str} (h1 : c ≠ []) (h2 : c ≠ ['.']) (h3 : c ≠ dotdot)
    (h4 : sep ∉ c) : Normal c := ⟨⟨h1, h2, h4⟩, h3⟩

/-- The workspace directory is a cleaned relative path. -/
theorem deployDirOf_render (timestamp : Str) :
    ∃ X, CleanStk false X.reverse ∧ deployDirOf timestamp = render false X := by
  refine ⟨cleanComps (uploadDir ++ sep :: ("deploy-".toList ++ timestamp)), ?_, ?_⟩
  · exact cleanComps_stk (uploadDir ++ sep :: ("deploy-".toList ++ timestamp))
  · unfold deployDirOf
    rw [Join_of_ne_nil (by decide)]
    rfl

theorem deployDirOf_eq {timestamp : Str} (hts : sep ∉ timestamp) :
    deployDirOf timestamp = render false ["uploads".toList, "deploy-".toList ++ timestamp] ∧
      CleanStk false ["uploads".toList, "deploy-".toList ++ timestamp].reverse := by
  have hn : Normal ("deploy-".toList ++ timestamp) := by
    refine normal_of_literal (by simp) (by simp) (by simp [dotdot]) ?_
    intro h
    rcases List.mem_append.mp h with h | h
    · revert h; decide
    · exact hts h
  have hu : CleanStk false ["uploads".toList].reverse :=
    (CleanStk.nil false).push (normal_of_literal (by decide) (by decide) (by decide) (by decide))
  have h := Join_render_normal hu hn
  have hr : render false ["uploads".toList] = Clean uploadDir := by decide
  constructor
  · unfold deployDirOf
    have hj : Join uploadDir ("deploy-".toList ++ timestamp) =
        Join (render false ["uploads".toList]) ("deploy-".toList ++ timestamp) := by
      rw [Join_of_ne_nil (by decide), Join_of_ne_nil (render_ne_nil _ _),
        cleanComps_append (by decide), cleanComps_append (render_ne_nil _ _)]
      rfl
    rw [hj, h.1]
    rfl
  · exact h.2

theorem literal_normal_zip : Normal "deployment.zip".toList :=
  normal_of_literal (by decide) (by decide) (by decide) (by decide)

theorem literal_normal_extracted : Normal "extracted".toList :=
  normal_of_literal (by decide) (by decide) (by decide) (by decide)

theorem literal_normal_script : Normal "DEPLOY.sh".toList :=
  normal_of_literal (by decide) (by decide) (by decide) (by decide)

theorem pathKey_render_false {X : List Str} (hX : CleanStk false X.reverse) :
    pathKey (render false X) = X := by
  rw [pathKey_render false (fun x hx => hX.elem x (List.mem_reverse.mpr hx))]
  rfl

/-- The resolved paths of the variables of `handleDeploy`. -/
theorem workspace_keys (timestamp : Str) :
    ∃ X, pathKey (deployDirOf timestamp) = X ∧
      pathKey (zipPathOf timestamp) = X ++ ["deployment.zip".toList] ∧
      pathKey (extractDirOf timestamp) = X ++ ["extracted".toList] ∧
      pathKey (deployScriptOf timestamp) = X ++ ["extracted".toList] ++ ["DEPLOY.sh".toList] ∧
      Clean (extractDirOf timestamp) = extractDirOf timestamp ∧
      cleanComps (extractDirOf timestamp) = X ++ ["extracted".toList] ∧
      (sep ∉ timestamp → X = ["uploads".toList, "deploy-".toList ++ timestamp]) := by
  obtain ⟨X, hX, hd⟩ := deployDirOf_render timestamp
  have hz := Join_render_normal hX literal_normal_zip
  have he := Join_render_normal hX literal_normal_extracted
  have hs := Join_render_normal he.2 literal_normal_script
  refine ⟨X, ?_, ?_, ?_, ?_, ?_, ?_, ?_⟩
  · rw [hd, pathKey_render_false hX]
  · unfold zipPathOf
    rw [hd, hz.1, pathKey_render_false hz.2]
  · unfold extractDirOf
    rw [hd, he.1, pathKey_render_false he.2]
  · unfold deployScriptOf extractDirOf
    rw [hd, he.1, hs.1, pathKey_render_false hs.2]
  · unfold extractDirOf
    rw [hd, he.1, Clean, cleanComps_render he.2, isRooted_render]
    exact fun x hx => he.2.elem x (List.mem_reverse.mpr hx)
  · unfold extractDirOf
    rw [hd, he.1, cleanComps_render he.2]
  · intro hts
    have h2 := deployDirOf_eq hts
    have h3 : pathKey (deployDirOf timestamp) = X := by rw [hd, pathKey_render_false hX]
    rw [h2.1, pathKey_render_false h2.2] at h3
    exact h3.symm


theorem resolveDirs_congr (fs fs' : FS) : ∀ (cs : List Str) (pre : Key),
    (∀ k, OnChain pre cs k → fs'.lookup k = fs.lookup k) →
    resolveDirs fs' pre cs = resolveDirs fs pre cs := by
  intro cs
  induction cs with
  | nil => intro pre _; rfl
  | cons c cs ih =>
    intro pre h
    unfold resolveDirs
    rw [h (pre ++ [c]) (onChain_cons.mpr (Or.inl rfl))]
    split
    · exact ih _ (fun k hk => h k (onChain_cons.mpr (Or.inr hk)))
    · rfl
    · rfl

theorem ne_of_prefix_dropLast {k K : Key} (hK : K ≠ []) (h : k <+: K.dropLast) : k ≠ K := by
  rintro rfl
  have h1 := h.length_le
  rw [List.length_dropLast] at h1
  have : k.length ≠ 0 := fun e => hK (List.length_eq_zero.mp e)
  omega

/-- What a call of `os.OpenFile` without error has done. -/
theorem OpenFile_none {fs : FS} {path : Str} {perm : Perm}
    (h : (OpenFile fs path perm).1 = none) :
    path ≠ [] ∧ resolveDirs fs [] (pathKey path).dropLast = none ∧
      ¬ (pathKey path = [] ∨ pathKey path = [rootComp]) ∧
      ∃ p, (OpenFile fs path perm).2 = fs.set (pathKey path) (.file p []) := by
  unfold OpenFile at h ⊢
  by_cases hp : path = []
  · rw [if_pos hp] at h; exact absurd h (by simp)
  · rw [if_neg hp] at h ⊢
    cases hres : walkDirs fs [] (pathKey path).dropLast with
    | some e => rw [hres] at h; exact absurd h (by simp)
    | none =>
      have hres' := walkDirs_resolve fs _ _ hres
      rw [hres] at h
      simp only [] at h ⊢
      by_cases hs : fs.mayEnter (fs.dirPerm (pathKey path).dropLast) = true
      · rw [if_pos hs] at h ⊢
        cases hl : fs.lookup (pathKey path) with
        | none =>
          rw [hl] at h
          simp only [] at h ⊢
          by_cases hc : fs.mayCreateIn (fs.dirPerm (pathKey path).dropLast) = true
          · rw [if_pos hc]
            exact ⟨hp, hres', not_special_of_none hl, _, rfl⟩
          · rw [if_neg hc] at h; exact absurd h (by simp)
        | some n =>
          cases n with
          | dir q => rw [hl] at h; exact absurd h (by simp)
          | file q d =>
            rw [hl] at h
            simp only [] at h ⊢
            by_cases hw : fs.mayWrite q = true
            · rw [if_pos hw]
              exact ⟨hp, hres', not_special_of_file hl, _, rfl⟩
            · rw [if_neg hw] at h; exact absurd h (by simp)
      · rw [if_neg hs] at h; exact absurd h (by simp)

/-- After a successful `os.Create` and `io.Copy`, the file reads back as
written. -/
theorem readFile_after_write (fs : FS) (path : Str) (perm : Perm) (data : Bytes)
    (h : (OpenFile fs path perm).1 = none) :
    readFile (ioCopy (OpenFile fs path perm).2 path data) path = .ok data := by
  have key : ∀ (p : Perm), ¬ (pathKey path = [] ∨ pathKey path = [rootComp]) →
      path ≠ [] → resolveDirs fs [] (pathKey path).dropLast = none →
      readFile (ioCopy (fs.set (pathKey path) (.file p [])) path data) path = .ok data := by
    intro p hns hp hres
    have hl : (fs.set (pathKey path) (.file p [])).lookup (pathKey path) = some (.file p []) :=
      lookup_set_self _ _ hns
    have hio : ioCopy (fs.set (pathKey path) (.file p [])) path data =
        (fs.set (pathKey path) (.file p [])).set (pathKey path) (.file p data) := by
      unfold ioCopy
      rw [hl]
    have hKne : pathKey path ≠ [] := fun e => hns (Or.inl e)
    rw [hio]
    unfold readFile Stat
    rw [if_neg hp, resolveDirs_congr fs _ _ [] (by
      intro k hk
      have hne := ne_of_prefix_dropLast hKne (onChain_root.mp hk).2
      rw [lookup_set_ne _ _ hne, lookup_set_ne _ _ hne]), hres]
    simp only []
    rw [lookup_set_self _ _ hns]
  obtain ⟨hp, hres, hns, p, hfs⟩ := OpenFile_none h
  rw [hfs]
  exact key p hns hp hres

theorem MkdirAll_dir_persist (fs : FS) (path : Str) (perm : Perm) {k : Key} {p : Perm}
    (h : fs.lookup k = some (.dir p)) : (MkdirAll fs path perm).2.lookup k = some (.dir p) := by
  rcases MkdirAll_lookup fs path perm k with h' | ⟨_, _, h3, _⟩
  · rw [h', h]
  · rw [h] at h3; exact absurd h3 (by simp)

theorem OpenFile_dir_persist (fs : FS) (path : Str) (perm : Perm) {k : Key} {p : Perm}
    (h : fs.lookup k = some (.dir p)) : (OpenFile fs path perm).2.lookup k = some (.dir p) := by
  rcases OpenFile_lookup fs path perm k with h' | ⟨_, h2, _⟩
  · rw [h', h]
  · exact absurd h (h2 p)

theorem ioCopy_dir_persist (fs : FS) (path : Str) (data : Bytes) {k : Key} {p : Perm}
    (h : fs.lookup k = some (.dir p)) : (ioCopy fs path data).lookup k = some (.dir p) := by
  rcases ioCopy_lookup fs path data k with h' | ⟨_, q, d, h2, _⟩
  · rw [h', h]
  · rw [h] at h2; exact absurd h2 (by simp)

theorem unzipFiles_dir_persist (dest : Str) (files : List ZipFile) (fs : FS) {k : Key}
    {p : Perm} (h : fs.lookup k = some (.dir p)) :
    (unzipFiles dest fs files).2.lookup k = some (.dir p) := by
  rcases unzipFiles_lookup dest files fs k with h' | ⟨_, h2⟩
  · rw [h', h]
  · exact absurd h (h2 p)

theorem unzip_dir_persist (zipOpenReader : Bytes → Except GoError (List ZipFile)) (fs : FS)
    (src dest : Str) {k : Key} {p : Perm} (h : fs.lookup k = some (.dir p)) :
    (unzip zipOpenReader fs src dest).2.lookup k = some (.dir p) := by
  unfold unzip
  split
  · exact h
  · split
    · exact h
    · exact unzipFiles_dir_persist _ _ _ (MkdirAll_dir_persist _ _ _ h)

/-- Which nodes `unzip` can change. -/
theorem unzip_lookup (zipOpenReader : Bytes → Except GoError (List ZipFile)) (fs : FS)
    (src dest : Str) (k : Key) :
    (unzip zipOpenReader fs src dest).2.lookup k = fs.lookup k ∨
      (k ≠ [] ∧ (k <+: pathKey dest ∨ ∃ T, k <+: destKey dest ++ T)) := by
  unfold unzip
  split
  · exact Or.inl rfl
  · split
    · exact Or.inl rfl
    · rename_i files _
      rcases unzipFiles_lookup dest files (MkdirAll fs dest 0o755).2 k with
        h | ⟨⟨f, _, hc, hne, hpre⟩, _⟩
      · rcases MkdirAll_lookup fs dest 0o755 k with h' | ⟨h1, h2, _, _⟩
        · exact Or.inl (h.trans h')
        · exact Or.inr ⟨h1, Or.inl h2⟩
      · obtain ⟨T, _, _, hK⟩ := passesCheck_key hc
        unfold entryKey at hpre
        rw [hK] at hpre
        exact Or.inr ⟨hne, Or.inr ⟨T, hpre⟩⟩

theorem mkdirAllFrom_none_dirs (perm : Perm) : ∀ (cs : List Str) (fs : FS) (pre : Key),
    (mkdirAllFrom perm fs pre cs).1 = none →
    ∀ k, OnChain pre cs k → ∃ p, (mkdirAllFrom perm fs pre cs).2.lookup k = some (.dir p) := by
  intro cs
  induction cs with
  | nil => intro fs pre _ k hk; exact absurd hk onChain_nil
  | cons c cs ih =>
    intro fs pre h k hk
    have keep : ∀ (fs' : FS) (q : Perm), fs'.lookup (pre ++ [c]) = some (.dir q) →
        ∃ p, (mkdirAllFrom perm fs' (pre ++ [c]) cs).2.lookup (pre ++ [c]) = some (.dir p) := by
      intro fs' q hq
      rcases mkdirAllFrom_lookup perm cs fs' (pre ++ [c]) (pre ++ [c]) with h | ⟨_, h2, _⟩
      · exact ⟨q, by rw [h, hq]⟩
      · rw [hq] at h2; exact absurd h2 (by simp)
    rcases mkdirAllFrom_cases perm fs pre c cs with e | ⟨_, _, _, e⟩ | ⟨q, hl, e⟩ | ⟨hl, e⟩ <;>
      rw [e] at h ⊢
    · exact absurd h (by simp)
    · exact absurd h (by simp)
    · rcases onChain_cons.mp hk with rfl | hk'
      · exact keep fs q hl
      · exact ih _ _ h k hk'
    · rcases onChain_cons.mp hk with rfl | hk'
      · exact keep _ _ (lookup_set_self _ _ (not_special_of_none hl))
      · exact ih _ _ h k hk'

theorem MkdirAll_none_dirs {fs : FS} {path : Str} {perm : Perm}
    (h : (MkdirAll fs path perm).1 = none) :
    ∀ k, k ≠ [] → k <+: pathKey path → ∃ p, (MkdirAll fs path perm).2.lookup k = some (.dir p) := by
  by_cases hp : path = []
  · unfold MkdirAll at h
    rw [if_pos hp] at h
    exact absurd h (by simp)
  · rw [MkdirAll_eq hp] at h ⊢
    intro k hk1 hk2
    exact mkdirAllFrom_none_dirs perm _ fs [] h k (onChain_root.mpr ⟨hk1, hk2⟩)


theorem unzip_eq {zipOpenReader : Bytes → Except GoError (List ZipFile)} {fs : FS}
    {src : Str} {bytes : Bytes} {files : List ZipFile} (dest : Str)
    (hread : readFile fs src = .ok bytes) (hdec : zipOpenReader bytes = .ok files) :
    unzip zipOpenReader fs src dest = unzipFiles dest (MkdirAll fs dest 0o755).2 files := by
  unfold unzip
  rw [hread]
  simp only []
  rw [hdec]

theorem prefix_of_prefix_append {k W t : Key} (h : k <+: W ++ t) (hW : ¬ W <+: k) : k <+: W := by
  rcases List.prefix_or_prefix_of_prefix h (List.prefix_append W t) with h' | h'
  · exact h'
  · exact absurd h' hW

theorem prefix_pair {k : Key} {a b : Str} (hne : k ≠ []) (h : k <+: [a, b])
    (hW : ¬ [a, b] <+: k) : k = [a] := by
  obtain ⟨t, ht⟩ := h
  match k, hne, ht, hW with
  | [x], _, ht, _ =>
    simp only [List.cons_append, List.nil_append, List.cons.injEq] at ht
    rw [ht.1]
  | x :: y :: rest, _, ht, hW =>
    exfalso
    simp only [List.cons_append, List.cons.injEq] at ht
    obtain ⟨rfl, rfl, hr⟩ := ht
    have hrest : rest = [] := (List.append_eq_nil.mp hr).1
    subst hrest
    exact hW (List.prefix_refl _)

/-- Up to the end of `unzip`, `handleDeploy` changes no node outside the
workspace, except that it makes the directories on the way to the workspace
that are missing. -/
theorem workspace_frame (zipOpenReader : Bytes → Except GoError (List ZipFile)) (fs : FS)
    (timestamp : Str) (file : Bytes) {k : Key}
    (hk : ¬ pathKey (deployDirOf timestamp) <+: k) :
    (Create (MkdirAll fs (deployDirOf timestamp) 0o755).2 (zipPathOf timestamp)).2.lookup k =
      (MkdirAll fs (deployDirOf timestamp) 0o755).2.lookup k ∧
    ((MkdirAll fs (deployDirOf timestamp) 0o755).1 = none →
      (extractedState zipOpenReader fs timestamp file).2.lookup k =
        (MkdirAll fs (deployDirOf timestamp) 0o755).2.lookup k) := by
  obtain ⟨X, hd, hz, he, _, hcl, _, _⟩ := workspace_keys timestamp
  rw [hd] at hk
  have hzk : k ≠ pathKey (zipPathOf timestamp) := by
    rintro rfl
    rw [hz] at hk
    exact hk ⟨_, rfl⟩
  have h2 : (Create (MkdirAll fs (deployDirOf timestamp) 0o755).2
      (zipPathOf timestamp)).2.lookup k =
        (MkdirAll fs (deployDirOf timestamp) 0o755).2.lookup k := by
    unfold Create
    rcases OpenFile_lookup (MkdirAll fs (deployDirOf timestamp) 0o755).2 (zipPathOf timestamp)
      0o666 k with h | ⟨h, _, _⟩
    · exact h
    · exact absurd h hzk
  have h3 : (savedState fs timestamp file).lookup k =
      (MkdirAll fs (deployDirOf timestamp) 0o755).2.lookup k := by
    unfold savedState
    rcases ioCopy_lookup (Create (MkdirAll fs (deployDirOf timestamp) 0o755).2
      (zipPathOf timestamp)).2 (zipPathOf timestamp) file k with h | ⟨h, _⟩
    · exact h.trans h2
    · exact absurd h hzk
  refine ⟨h2, ?_⟩
  intro h1
  have hdir : k ≠ [] → k <+: X →
      (extractedState zipOpenReader fs timestamp file).2.lookup k =
        (MkdirAll fs (deployDirOf timestamp) 0o755).2.lookup k := by
    intro hne hkX
    obtain ⟨p, hp⟩ := MkdirAll_none_dirs h1 k hne (by rw [hd]; exact hkX)
    rw [hp]
    unfold extractedState savedState Create
    exact unzip_dir_persist _ _ _ _ (ioCopy_dir_persist _ _ _ (OpenFile_dir_persist _ _ _ hp))
  rcases unzip_lookup zipOpenReader (savedState fs timestamp file) (zipPathOf timestamp)
    (extractDirOf timestamp) k with h | ⟨hne, h | ⟨T, h⟩⟩
  · unfold extractedState
    exact h.trans h3
  · rw [he] at h
    exact hdir hne (prefix_of_prefix_append h hk)
  · unfold destKey at h
    rw [hcl, he, List.append_assoc] at h
    exact hdir hne (prefix_of_prefix_append h hk)

theorem extractedState_fails (zipOpenReader : Bytes → Except GoError (List ZipFile)) (fs : FS)
    (timestamp : Str) (file : Bytes) (files : List ZipFile)
    (h2 : (Create (MkdirAll fs (deployDirOf timestamp) 0o755).2 (zipPathOf timestamp)).1 = none)
    (hdec : zipOpenReader file = .ok files)
    (hbad : ∃ f ∈ files, passesCheck (extractDirOf timestamp) f.name = false) :
    (extractedState zipOpenReader fs timestamp file).1 ≠ none := by
  unfold extractedState
  have hread : readFile (savedState fs timestamp file) (zipPathOf timestamp) = .ok file :=
    readFile_after_write _ _ _ _ h2
  rw [unzip_eq _ hread hdec]
  obtain ⟨f, hf, hc⟩ := hbad
  obtain ⟨pre, post, rfl⟩ := List.append_of_mem hf
  exact (unzipFiles_stops _ _ pre post f hc).1


theorem Stat_ok_lookup {fs : FS} {path : Str} {n : Node} (h : Stat fs path = .ok n) :
    fs.lookup (pathKey path) = some n := by
  unfold Stat at h
  split_ifs at h
  split at h
  · exact absurd h (by simp)
  · split at h
    · rename_i m hm
      rw [hm]
      exact congrArg some (Except.ok.inj h)
    · exact absurd h (by simp)

theorem Chmod_none_lookup {fs : FS} {path : Str} {perm : Perm}
    (h : (Chmod fs path perm).1 = none) : ∃ n, fs.lookup (pathKey path) = some n := by
  unfold Chmod at h
  split at h
  · exact absurd h (by simp)
  · rename_i q hq
    exact ⟨_, Stat_ok_lookup hq⟩
  · rename_i q d hq
    exact ⟨_, Stat_ok_lookup hq⟩

theorem statNotExist_of_missing {fs : FS} {path : Str} (hp : path ≠ [])
    (hdirs : ∀ k, k ≠ [] → k <+: (pathKey path).dropLast → ∃ p, fs.lookup k = some (.dir p))
    (hnone : fs.lookup (pathKey path) = none) : statNotExist fs path = true := by
  unfold statNotExist Stat
  rw [if_neg hp, resolveDirs_ok fs _ []
    (fun k hk => hdirs k (onChain_root.mp hk).1 (onChain_root.mp hk).2)]
  simp only []
  rw [hnone]
  rfl

/-- The directories of the workspace are still there after `unzip`. -/
theorem workspace_dirs (zipOpenReader : Bytes → Except GoError (List ZipFile)) (fs : FS)
    (timestamp : Str) (file : Bytes)
    (h1 : (MkdirAll fs (deployDirOf timestamp) 0o755).1 = none) :
    ∀ k, k ≠ [] → k <+: pathKey (deployDirOf timestamp) →
      ∃ p, (extractedState zipOpenReader fs timestamp file).2.lookup k = some (.dir p) := by
  intro k hk1 hk2
  obtain ⟨p, hp⟩ := MkdirAll_none_dirs h1 k hk1 hk2
  refine ⟨p, ?_⟩
  unfold extractedState savedState Create
  exact unzip_dir_persist _ _ _ _ (ioCopy_dir_persist _ _ _ (OpenFile_dir_persist _ _ _ hp))


/-! ## Extraction of an archive without collisions -/

theorem newDirPerm_eq {fs : FS} {u : Perm} (h : fs.umask = u) (perm : Perm) :
    fs.newDirPerm perm = dirMode u perm := by
  unfold FS.newDirPerm
  rw [h]

theorem newFilePerm_eq {fs : FS} {u : Perm} (h : fs.umask = u) (perm : Perm) :
    fs.newFilePerm perm = fileMode u perm := by
  unfold FS.newFilePerm
  rw [h]

theorem prefix_dropLast_of_ne {k K : Key} (h : k <+: K) (hne : k ≠ K) : k <+: K.dropLast := by
  obtain ⟨t, rfl⟩ := h
  have ht : t ≠ [] := by
    rintro rfl
    exact hne (by simp)
  rw [List.dropLast_append_of_ne_nil _ ht]
  exact List.prefix_append _ _

/-- A directory found after `os.MkdirAll` may be searched and written when
that holds of the directory that was there before and of the new ones. -/
theorem MkdirAll_access {fs : FS} {path : Str} {perm : Perm}
    (hnew : fs.mayCreateIn (fs.newDirPerm perm) = true) {k : Key} {p : Perm}
    (hold : ∀ p, fs.lookup k = some (.dir p) → fs.mayCreateIn p = true)
    (h : (MkdirAll fs path perm).2.lookup k = some (.dir p)) : fs.mayCreateIn p = true := by
  rcases MkdirAll_lookup fs path perm k with e | ⟨_, _, _, e⟩
  · rw [e] at h; exact hold p h
  · rw [e] at h
    rw [← Node.dir.inj (Option.some.inj h)]; exact hnew

theorem entryKey_shape {dest : Str} {f : ZipFile} (h : passesCheck dest f.name = true) :
    ∃ T, T ≠ [] ∧ entryKey dest f = destKey dest ++ T ∧
      pathKey (Dir (Join dest f.name)) = (entryKey dest f).dropLast ∧
      destKey dest <+: (entryKey dest f).dropLast ∧
      destKey dest <+: entryKey dest f ∧ entryKey dest f ≠ destKey dest ∧
      entryKey dest f ≠ [] := by
  obtain ⟨T, hT, _, hD, hK, hKd, _⟩ := entry_shape h
  unfold entryKey
  refine ⟨T, hT, hK, ?_, ?_, ?_, ?_, ?_⟩
  · rw [hKd, hK, List.dropLast_append_of_ne_nil _ hT]
  · rw [hK, List.dropLast_append_of_ne_nil _ hT]
    exact List.prefix_append _ _
  · rw [hK]; exact List.prefix_append _ _
  · rw [hK]
    intro e
    have := congrArg List.length e
    simp only [List.length_append] at this
    have : T.length ≠ 0 := fun e => hT (List.length_eq_zero.mp e)
    omega
  · rw [hK]; simp [hT]

/-- Nothing on the way to an entry is a regular file, when no file entry
extracted before lies on that way. -/
theorem no_file_on_way {dest : Str} {u : Perm} {q : Bool} {done : List ZipFile} {fs : FS}
    (inv : UnzipInv dest u q done fs) {f : ZipFile} (hchk : passesCheck dest f.name = true)
    (hleaf : ∀ g ∈ done, g.isDir = false → ¬ entryKey dest g <+: entryKey dest f) :
    ∀ k, k ≠ [] → k <+: entryKey dest f → ∀ p d, fs.lookup k ≠ some (.file p d) := by
  intro k hk1 hk2 p d hfile
  obtain ⟨T, _, _, _, _, hDK, _, _⟩ := entryKey_shape hchk
  rcases List.prefix_or_prefix_of_prefix hk2 hDK with h | h
  · obtain ⟨q, hq⟩ := inv.root k hk1 h
    rw [hq] at hfile
    exact absurd hfile (by simp)
  · obtain ⟨g, hg, hgf, hgk, _, _⟩ := inv.files k p d h hfile
    exact hleaf g hg hgf (by rw [hgk]; exact hk2)

/-- The resolved path of an entry that no earlier entry touches holds
nothing yet. -/
theorem entry_slot_free {dest : Str} {u : Perm} {q : Bool} {done : List ZipFile} {fs : FS}
    (inv : UnzipInv dest u q done fs) {f : ZipFile} (hchk : passesCheck dest f.name = true)
    (hleaf : ∀ g ∈ done, g.isDir = false → ¬ entryKey dest g <+: entryKey dest f)
    (hfree : ∀ g ∈ done, ¬ entryKey dest f <+: entryKey dest g) :
    fs.lookup (entryKey dest f) = none := by
  obtain ⟨T, _, _, _, _, hDK, hne, hne'⟩ := entryKey_shape hchk
  rcases lookup_cases fs (entryKey dest f) with h | ⟨p, h⟩ | ⟨p, d, h⟩
  · exact h
  · obtain ⟨⟨g, hg, hgk⟩, _⟩ := inv.dirs _ p hDK hne h
    exact absurd hgk (hfree g hg)
  · exact absurd h (no_file_on_way inv hchk hleaf _ hne' (List.prefix_refl _) p d)

/-- The directories on the way to an entry may be searched and written. -/
theorem way_access {dest : Str} {u : Perm} {q : Bool} {done : List ZipFile} {fs : FS}
    (inv : UnzipInv dest u q done fs) {f : ZipFile} (hchk : passesCheck dest f.name = true) :
    ∀ k p, k <+: entryKey dest f → fs.lookup k = some (.dir p) → fs.mayCreateIn p = true := by
  intro k p hk hl
  obtain ⟨T, _, _, _, _, hDK, _, _⟩ := entryKey_shape hchk
  exact inv.access k p (List.prefix_or_prefix_of_prefix hk hDK) hl

theorem mem_concat_cases {α : Type} {l pre post : List α} {x y : α}
    (h : l ++ [x] = pre ++ y :: post) :
    (post = [] ∧ pre = l ∧ y = x) ∨ ∃ post', post = post' ++ [x] ∧ l = pre ++ y :: post' := by
  rcases List.eq_nil_or_concat post with rfl | ⟨post', z, rfl⟩
  · left
    have h' : l ++ [x] = pre ++ [y] := h
    obtain ⟨h1, h2⟩ := List.append_inj' h' rfl
    exact ⟨rfl, h1.symm, (List.cons.inj h2).1.symm⟩
  · right
    have h' : l ++ [x] = (pre ++ y :: post') ++ [z] := by
      rw [h]; simp
    obtain ⟨h1, h2⟩ := List.append_inj' h' rfl
    have hz : x = z := (List.cons.inj h2).1
    subst hz
    exact ⟨post', by simp, h1⟩

/-- Extracting a directory entry keeps the invariant. -/
theorem extract_dir_step {dest : Str} {u : Perm} {q : Bool} {done : List ZipFile} {fs : FS}
    (inv : UnzipInv dest u q done fs) {f : ZipFile} {d : Bytes}
    (hchk : passesCheck dest f.name = true) (hbody : f.body = .ok d) (hdir : f.isDir = true)
    (hmode : fs.mayCreateIn (dirMode u f.perm) = true)
    (hleaf : ∀ g ∈ done, g.isDir = false → ¬ entryKey dest g <+: entryKey dest f) :
    (extractAndWriteFile dest fs f).1 = none ∧
      UnzipInv dest u q (done ++ [f]) (extractAndWriteFile dest fs f).2 := by
  have hchk' : hasPrefix (Join dest f.name) (Clean dest ++ [sep]) = true := hchk
  have hres : extractAndWriteFile dest fs f = (none, (MkdirAll fs (Join dest f.name) f.perm).2) := by
    unfold extractAndWriteFile
    rw [hbody]
    simp only [hchk', Bool.not_true, Bool.false_eq_true, if_false, hdir, if_true]
  rw [hres]
  refine ⟨rfl, ?_⟩
  simp only []
  obtain ⟨T, hT, hK, _, _, hDK, hne, hne'⟩ := entryKey_shape hchk
  have hJ : Join dest f.name ≠ [] := (entry_shape hchk).choose_spec.2.2.2.2.2
  have hnp := newDirPerm_eq inv.umask f.perm
  have hnew : fs.mayCreateIn (fs.newDirPerm f.perm) = true := by rw [hnp]; exact hmode
  have hok := MkdirAll_ok hJ fs f.perm hnew (no_file_on_way inv hchk hleaf)
    (fun k p _ hk hl => way_access inv hchk k p hk hl)
  have hlook := MkdirAll_lookup fs (Join dest f.name) f.perm
  refine ⟨?_, ?_, ?_, ?_, ?_, ?_, ?_, ?_, ?_, ?_⟩
  · rw [MkdirAll_umask]; exact inv.umask
  · rw [MkdirAll_privileged]; exact inv.priv
  · intro k hk1 hk2
    obtain ⟨p, hp⟩ := inv.root k hk1 hk2
    exact ⟨p, MkdirAll_dir_persist _ _ _ hp⟩
  · intro k p hk hl
    rw [mayCreateIn_congr (MkdirAll_privileged fs (Join dest f.name) f.perm)]
    exact MkdirAll_access hnew (fun p' h' => inv.access k p' hk h') hl
  · intro k p d' hDk hfile
    rcases hlook k with h | ⟨_, _, _, h⟩
    · rw [h] at hfile
      obtain ⟨g, hg, hrest⟩ := inv.files k p d' hDk hfile
      exact ⟨g, List.mem_append_left _ hg, hrest⟩
    · rw [h] at hfile
      exact absurd hfile (by simp)
  · intro k p hDk hkne hd
    rcases hlook k with h | ⟨_, h2, _, h⟩
    · rw [h] at hd
      obtain ⟨⟨g, hg, hgk⟩, hp⟩ := inv.dirs k p hDk hkne hd
      refine ⟨⟨g, List.mem_append_left _ hg, hgk⟩, ?_⟩
      rcases hp with hp | ⟨g', hg', hp⟩
      · exact Or.inl hp
      · exact Or.inr ⟨g', List.mem_append_left _ hg', hp⟩
    · rw [h, hnp] at hd
      refine ⟨⟨f, by simp, h2⟩, Or.inr ⟨f, by simp, hdir, ?_⟩⟩
      exact (Node.dir.inj (Option.some.inj hd)).symm
  · intro g hg k hk1 hk2 hk3
    rcases List.mem_append.mp hg with hg | hg
    · obtain ⟨p, hp⟩ := inv.ways g hg k hk1 hk2 hk3
      exact ⟨p, MkdirAll_dir_persist _ _ _ hp⟩
    · rw [List.mem_singleton.mp hg] at hk2
      exact hok.2 k hk1 hk2
  · intro g hg hgf
    rcases List.mem_append.mp hg with hg | hg
    · obtain ⟨d', hb, hl⟩ := inv.doneFiles g hg hgf
      refine ⟨d', hb, ?_⟩
      rcases hlook (entryKey dest g) with h | ⟨_, _, h, _⟩
      · rw [h, hl]
      · rw [hl] at h; exact absurd h (by simp)
    · rw [List.mem_singleton.mp hg, hdir] at hgf
      exact absurd hgf (by simp)
  · intro g hg hgd
    rcases List.mem_append.mp hg with hg | hg
    · obtain ⟨p, hp⟩ := inv.doneDirs g hg hgd
      exact ⟨p, MkdirAll_dir_persist _ _ _ hp⟩
    · rw [List.mem_singleton.mp hg]
      exact hok.2 _ hne' (List.prefix_refl _)
  · intro pre g post hdec hgd hfree
    rcases mem_concat_cases hdec with ⟨_, rfl, rfl⟩ | ⟨post', _, hdone⟩
    · have hnone := entry_slot_free inv hchk hleaf hfree
      obtain ⟨p, hp⟩ := hok.2 _ hne' (List.prefix_refl _)
      rcases hlook (entryKey dest g) with h | ⟨_, _, _, h⟩
      · rw [h, hnone] at hp
        exact absurd hp (by simp)
      · rw [h, hnp]
    · exact MkdirAll_dir_persist _ _ _ (inv.dirPerm pre g post' hdone hgd hfree)


theorem not_prefix_dropLast {K : Key} (hK : K ≠ []) : ¬ K <+: K.dropLast := by
  intro h
  exact ne_of_prefix_dropLast hK h rfl

/-- What extracting a regular-file entry into a free slot does. -/
theorem extract_file_result {dest : Str} {fs : FS} {f : ZipFile} {d : Bytes}
    (hchk : passesCheck dest f.name = true) (hbody : f.body = .ok d) (hfile : f.isDir = false)
    (hnew : fs.mayCreateIn (fs.newDirPerm 0o755) = true)
    (hway : ∀ k, k ≠ [] → k <+: entryKey dest f → ∀ p d, fs.lookup k ≠ some (.file p d))
    (hacc : ∀ k p, k <+: entryKey dest f → fs.lookup k = some (.dir p) →
      fs.mayCreateIn p = true)
    (hnone : fs.lookup (entryKey dest f) = none) :
    (extractAndWriteFile dest fs f).1 = none ∧
      (extractAndWriteFile dest fs f).2.lookup (entryKey dest f) =
        some (.file (fs.newFilePerm f.perm) d) ∧
      (∀ k, k ≠ entryKey dest f → (extractAndWriteFile dest fs f).2.lookup k =
        (MkdirAll fs (Dir (Join dest f.name)) 0o755).2.lookup k) ∧
      ∀ k, k ≠ [] → k <+: (entryKey dest f).dropLast →
        ∃ p, (MkdirAll fs (Dir (Join dest f.name)) 0o755).2.lookup k = some (.dir p) := by
  have hchk' : hasPrefix (Join dest f.name) (Clean dest ++ [sep]) = true := hchk
  obtain ⟨T, hT, hK, hKd, _, hDK, hne, hne'⟩ := entryKey_shape hchk
  have hJ : Join dest f.name ≠ [] := (entry_shape hchk).choose_spec.2.2.2.2.2
  have hDir : Dir (Join dest f.name) ≠ [] := Clean_ne_nil _
  have hok := MkdirAll_ok hDir fs 0o755 hnew (by
    intro k hk1 hk2
    rw [hKd] at hk2
    exact hway k hk1 (hk2.trans (List.dropLast_prefix _))) (by
    intro k p _ hk2 hl
    rw [hKd] at hk2
    exact hacc k p (hk2.trans (List.dropLast_prefix _)) hl)
  have hnone1 : (MkdirAll fs (Dir (Join dest f.name)) 0o755).2.lookup (pathKey (Join dest f.name))
      = none := by
    rcases MkdirAll_lookup fs (Dir (Join dest f.name)) 0o755 (entryKey dest f) with h | ⟨_, h, _, _⟩
    · exact h.trans hnone
    · rw [hKd] at h
      exact absurd h (not_prefix_dropLast hne')
  have hopen := @OpenFile_new (MkdirAll fs (Dir (Join dest f.name)) 0o755).2 _ hJ f.perm (by
    intro k hk1 hk2
    obtain ⟨p, hp⟩ := hok.2 k hk1 (by rw [hKd]; exact hk2)
    refine ⟨p, hp, ?_⟩
    rw [mayCreateIn_congr (MkdirAll_privileged fs (Dir (Join dest f.name)) 0o755)]
    exact MkdirAll_access hnew
      (fun p' h' => hacc k p' (hk2.trans (List.dropLast_prefix _)) h') hp) hnone1
  have hns := not_special_of_none hnone1
  have hres : extractAndWriteFile dest fs f =
      (none, ((MkdirAll fs (Dir (Join dest f.name)) 0o755).2.set (pathKey (Join dest f.name))
        (.file ((MkdirAll fs (Dir (Join dest f.name)) 0o755).2.newFilePerm f.perm) [])).set
        (pathKey (Join dest f.name))
        (.file ((MkdirAll fs (Dir (Join dest f.name)) 0o755).2.newFilePerm f.perm) d)) := by
    unfold extractAndWriteFile
    rw [hbody]
    simp only [hchk', Bool.not_true, Bool.false_eq_true, if_false, hfile]
    rw [hopen]
    simp only []
    unfold ioCopy
    rw [lookup_set_self _ _ hns]
  rw [hres]
  refine ⟨rfl, ?_, ?_, ?_⟩
  · simp only []
    unfold entryKey
    rw [lookup_set_self _ _ hns]
    unfold FS.newFilePerm
    rw [MkdirAll_umask]
  · intro k hk
    have hk' : k ≠ pathKey (Join dest f.name) := hk
    simp only []
    rw [lookup_set_ne _ _ hk', lookup_set_ne _ _ hk']
  · intro k hk1 hk2
    exact hok.2 k hk1 (by rw [hKd]; exact hk2)

/-- Extracting a regular-file entry keeps the invariant. -/
theorem extract_file_step {dest : Str} {u : Perm} {q : Bool} {done : List ZipFile} {fs : FS}
    (inv : UnzipInv dest u q done fs) {f : ZipFile} {d : Bytes}
    (hchk : passesCheck dest f.name = true) (hbody : f.body = .ok d) (hfile : f.isDir = false)
    (hmode : fs.mayCreateIn (dirMode u 0o755) = true)
    (hleaf : ∀ g ∈ done, g.isDir = false → ¬ entryKey dest g <+: entryKey dest f)
    (hfree : ∀ g ∈ done, ¬ entryKey dest f <+: entryKey dest g) :
    (extractAndWriteFile dest fs f).1 = none ∧
      UnzipInv dest u q (done ++ [f]) (extractAndWriteFile dest fs f).2 := by
  obtain ⟨T, hT, hK, hKd, hDKd, hDK, hne, hne'⟩ := entryKey_shape hchk
  have hway := no_file_on_way inv hchk hleaf
  have hnone := entry_slot_free inv hchk hleaf hfree
  have hnp := newDirPerm_eq inv.umask 0o755
  have hnew' : fs.mayCreateIn (fs.newDirPerm 0o755) = true := by rw [hnp]; exact hmode
  obtain ⟨h1, h2, h3, h4⟩ := extract_file_result hchk hbody hfile hnew' hway
    (way_access inv hchk) hnone
  rw [newFilePerm_eq inv.umask] at h2
  have hlook := MkdirAll_lookup fs (Dir (Join dest f.name)) 0o755
  have hnew : ∀ g ∈ done, entryKey dest g ≠ entryKey dest f := by
    intro g hg e
    exact hfree g hg (by rw [e])
  have hdirne : ∀ k p, fs.lookup k = some (.dir p) → k ≠ entryKey dest f := by
    rintro k p hl rfl
    rw [hnone] at hl
    exact absurd hl (by simp)
  refine ⟨h1, ?_, ?_, ?_, ?_, ?_, ?_, ?_, ?_, ?_, ?_⟩
  · rw [extract_umask]; exact inv.umask
  · rw [extract_privileged]; exact inv.priv
  · intro k hk1 hk2
    obtain ⟨p, hp⟩ := inv.root k hk1 hk2
    exact ⟨p, by rw [h3 k (hdirne k p hp)]; exact MkdirAll_dir_persist _ _ _ hp⟩
  · intro k p hk hl
    have hkK : k ≠ entryKey dest f := by
      rintro rfl
      rw [h2] at hl
      exact absurd hl (by simp)
    rw [h3 k hkK] at hl
    rw [mayCreateIn_congr (extract_privileged dest fs f)]
    exact MkdirAll_access hnew' (fun p' h' => inv.access k p' hk h') hl
  · intro k p d' hDk hf
    by_cases hkK : k = entryKey dest f
    · subst hkK
      rw [h2] at hf
      obtain ⟨hp, hd⟩ := Node.file.inj (Option.some.inj hf)
      exact ⟨f, by simp, hfile, rfl, by rw [hbody, hd], hp.symm⟩
    · rw [h3 k hkK] at hf
      rcases hlook k with h | ⟨_, _, _, h⟩
      · rw [h] at hf
        obtain ⟨g, hg, hrest⟩ := inv.files k p d' hDk hf
        exact ⟨g, List.mem_append_left _ hg, hrest⟩
      · rw [h] at hf
        exact absurd hf (by simp)
  · intro k p hDk hkne hd
    have hkK : k ≠ entryKey dest f := by
      rintro rfl
      rw [h2] at hd
      exact absurd hd (by simp)
    rw [h3 k hkK] at hd
    rcases hlook k with h | ⟨_, hk2, _, h⟩
    · rw [h] at hd
      obtain ⟨⟨g, hg, hgk⟩, hp⟩ := inv.dirs k p hDk hkne hd
      refine ⟨⟨g, List.mem_append_left _ hg, hgk⟩, ?_⟩
      rcases hp with hp | ⟨g', hg', hp⟩
      · exact Or.inl hp
      · exact Or.inr ⟨g', List.mem_append_left _ hg', hp⟩
    · rw [h, hnp] at hd
      rw [hKd] at hk2
      refine ⟨⟨f, by simp, hk2.trans (List.dropLast_prefix _)⟩, Or.inl ?_⟩
      exact (Node.dir.inj (Option.some.inj hd)).symm
  · intro g hg k hk1 hk2 hk3
    rcases List.mem_append.mp hg with hg | hg
    · obtain ⟨p, hp⟩ := inv.ways g hg k hk1 hk2 hk3
      exact ⟨p, by rw [h3 k (hdirne k p hp)]; exact MkdirAll_dir_persist _ _ _ hp⟩
    · rw [List.mem_singleton.mp hg] at hk2 hk3
      rw [h3 k hk3]
      exact h4 k hk1 (prefix_dropLast_of_ne hk2 hk3)
  · intro g hg hgf
    rcases List.mem_append.mp hg with hg | hg
    · obtain ⟨d', hb, hl⟩ := inv.doneFiles g hg hgf
      refine ⟨d', hb, ?_⟩
      rw [h3 _ (hnew g hg)]
      rcases hlook (entryKey dest g) with h | ⟨_, _, h, _⟩
      · rw [h, hl]
      · rw [hl] at h; exact absurd h (by simp)
    · rw [List.mem_singleton.mp hg]
      exact ⟨d, hbody, h2⟩
  · intro g hg hgd
    rcases List.mem_append.mp hg with hg | hg
    · obtain ⟨p, hp⟩ := inv.doneDirs g hg hgd
      exact ⟨p, by rw [h3 _ (hnew g hg)]; exact MkdirAll_dir_persist _ _ _ hp⟩
    · rw [List.mem_singleton.mp hg, hfile] at hgd
      exact absurd hgd (by simp)
  · intro pre g post hdec hgd hfr
    rcases mem_concat_cases hdec with ⟨_, _, rfl⟩ | ⟨post', _, hdone⟩
    · rw [hfile] at hgd
      exact absurd hgd (by simp)
    · have hg : g ∈ done := by rw [hdone]; simp
      rw [h3 _ (hnew g hg)]
      exact MkdirAll_dir_persist _ _ _ (inv.dirPerm pre g post' hdone hgd hfr)


theorem key_not_in_done {dest : Str} {done rest : List ZipFile} {f : ZipFile}
    (h : ((done ++ f :: rest).map (entryKey dest)).Nodup) :
    ∀ g ∈ done, entryKey dest g ≠ entryKey dest f := by
  intro g hg e
  rw [List.map_append, List.map_cons] at h
  have h2 := (List.nodup_middle.mp h)
  have h3 := (List.nodup_cons.mp h2).1
  apply h3
  rw [← e]
  exact List.mem_append_left _ (List.mem_map_of_mem _ hg)

/-- The loop of `unzip` on entries that do not collide, by a process that may
search and write the directories it makes: no error, and the invariant holds
at the end. -/
theorem unzipFiles_inv (dest : Str) (u : Perm) (fs0 : FS)
    (hmode : fs0.mayCreateIn (dirMode u 0o755) = true) :
    ∀ (rest done : List ZipFile) (fs : FS),
    (∀ f ∈ rest, passesCheck dest f.name = true) →
    (∀ f ∈ rest, ∃ d, f.body = .ok d) →
    (∀ f ∈ rest, f.isDir = true → fs0.mayCreateIn (dirMode u f.perm) = true) →
    ((done ++ rest).map (entryKey dest)).Nodup →
    (∀ f ∈ done ++ rest, f.isDir = false → ∀ g ∈ done ++ rest,
      entryKey dest f <+: entryKey dest g → entryKey dest g = entryKey dest f) →
    UnzipInv dest u fs0.privileged done fs →
    (unzipFiles dest fs rest).1 = none ∧
      UnzipInv dest u fs0.privileged (done ++ rest) (unzipFiles dest fs rest).2 := by
  intro rest
  induction rest with
  | nil =>
    intro done fs _ _ _ _ _ inv
    rw [List.append_nil]
    exact ⟨rfl, inv⟩
  | cons f rest ih =>
    intro done fs hchk hbody hmodes hnodup hleaf inv
    have hf : f ∈ done ++ f :: rest := by simp
    have hnew := key_not_in_done hnodup
    have hleaf1 : ∀ g ∈ done, g.isDir = false → ¬ entryKey dest g <+: entryKey dest f := by
      intro g hg hgf hpre
      exact hnew g hg (hleaf g (List.mem_append_left _ hg) hgf f hf hpre).symm
    obtain ⟨d, hd⟩ := hbody f (List.mem_cons_self _ _)
    have hc := hchk f (List.mem_cons_self _ _)
    have hstep : (extractAndWriteFile dest fs f).1 = none ∧
        UnzipInv dest u fs0.privileged (done ++ [f]) (extractAndWriteFile dest fs f).2 := by
      cases hdir : f.isDir with
      | true =>
        refine extract_dir_step inv hc hd hdir ?_ hleaf1
        rw [mayCreateIn_congr inv.priv]
        exact hmodes f (List.mem_cons_self _ _) hdir
      | false =>
        refine extract_file_step inv hc hd hdir ?_ hleaf1 ?_
        · rw [mayCreateIn_congr inv.priv]
          exact hmode
        · intro g hg hpre
          exact hnew g hg (hleaf f hf hdir g (List.mem_append_left _ hg) hpre)
    rw [unzipFiles_cons, if_pos hstep.1]
    have happ : done ++ f :: rest = (done ++ [f]) ++ rest := by simp
    rw [happ]
    exact ih (done ++ [f]) _ (fun g hg => hchk g (List.mem_cons_of_mem _ hg))
      (fun g hg => hbody g (List.mem_cons_of_mem _ hg))
      (fun g hg => hmodes g (List.mem_cons_of_mem _ hg)) (by rw [← happ]; exact hnodup)
      (by rw [← happ]; exact hleaf) hstep.2

/-- After `os.MkdirAll(dest, 0755)` on a root that does not exist yet, the
invariant holds with nothing extracted. -/
theorem unzipInv_init (dest : Str) (fs : FS) (hclean : Clean dest = dest)
    (hfresh : ∀ k, destKey dest <+: k → fs.lookup k = none)
    (hanc : ∀ k, k <+: destKey dest → ∀ p d, fs.lookup k ≠ some (.file p d))
    (hopen : ∀ k p, k <+: destKey dest → fs.lookup k = some (.dir p) →
      fs.mayCreateIn p = true)
    (hmode : fs.mayCreateIn (dirMode fs.umask 0o755) = true) :
    UnzipInv dest fs.umask fs.privileged [] (MkdirAll fs dest 0o755).2 := by
  have hd : dest ≠ [] := by
    rintro rfl
    exact absurd hclean (by decide)
  have hkey : pathKey dest = destKey dest := by
    unfold destKey
    rw [hclean]
  have hok := MkdirAll_ok hd fs 0o755 hmode (by
    intro k _ hk2
    rw [hkey] at hk2
    exact hanc k hk2) (by
    intro k p _ hk2 hl
    rw [hkey] at hk2
    exact hopen k p hk2 hl)
  have hlook := MkdirAll_lookup fs dest 0o755
  refine ⟨MkdirAll_umask _ _ _, MkdirAll_privileged _ _ _, ?_, ?_, ?_, ?_, ?_, ?_, ?_, ?_⟩
  · intro k hk1 hk2
    exact hok.2 k hk1 (by rw [hkey]; exact hk2)
  · intro k p hk hl
    rw [mayCreateIn_congr (MkdirAll_privileged fs dest 0o755)]
    refine MkdirAll_access hmode ?_ hl
    intro p' h'
    rcases hk with hk | hk
    · exact hopen k p' hk h'
    · rw [hfresh k hk] at h'
      exact absurd h' (by simp)
  · intro k p d hDk hf
    rcases hlook k with h | ⟨_, _, _, h⟩
    · rw [h, hfresh k hDk] at hf
      exact absurd hf (by simp)
    · rw [h] at hf
      exact absurd hf (by simp)
  · intro k p hDk hkne hdir
    rcases hlook k with h | ⟨_, h2, _, _⟩
    · rw [h, hfresh k hDk] at hdir
      exact absurd hdir (by simp)
    · rw [hkey] at h2
      exact absurd (h2.eq_of_length_le hDk.length_le) hkne
  · intro f hf
    exact absurd hf (List.not_mem_nil _)
  · intro f hf
    exact absurd hf (List.not_mem_nil _)
  · intro f hf
    exact absurd hf (List.not_mem_nil _)
  · intro pre f post h
    exact absurd h (by simp)

/-- The function `unzip` on a fresh root and an archive whose entries pass
the check, can be opened and do not collide, run by a process that may search
and write the directories on the way to the root and the ones it makes. -/
theorem unzip_inv (zipOpenReader : Bytes → Except GoError (List ZipFile))
    (fs : FS) (src dest : Str) (bytes : Bytes) (files : List ZipFile)
    (hread : readFile fs src = .ok bytes) (hdec : zipOpenReader bytes = .ok files)
    (hclean : Clean dest = dest)
    (hfresh : ∀ k, destKey dest <+: k → fs.lookup k = none)
    (hanc : ∀ k, k <+: destKey dest → ∀ p d, fs.lookup k ≠ some (.file p d))
    (hopen : ∀ k p, k <+: destKey dest → fs.lookup k = some (.dir p) →
      fs.mayCreateIn p = true)
    (hmode : fs.mayCreateIn (dirMode fs.umask 0o755) = true)
    (hmodes : ∀ f ∈ files, f.isDir = true → fs.mayCreateIn (dirMode fs.umask f.perm) = true)
    (hchk : ∀ f ∈ files, passesCheck dest f.name = true)
    (hbody : ∀ f ∈ files, ∃ d, f.body = .ok d)
    (hnodup : (files.map (entryKey dest)).Nodup)
    (hleaf : ∀ f ∈ files, f.isDir = false → ∀ g ∈ files,
      entryKey dest f <+: entryKey dest g → entryKey dest g = entryKey dest f) :
    (unzip zipOpenReader fs src dest).1 = none ∧
      UnzipInv dest fs.umask fs.privileged files (unzip zipOpenReader fs src dest).2 := by
  rw [unzip_eq dest hread hdec]
  have h := unzipFiles_inv dest fs.umask fs hmode files [] (MkdirAll fs dest 0o755).2 hchk hbody
    hmodes (by simpa using hnodup) (by simpa using hleaf)
    (unzipInv_init dest fs hclean hfresh hanc hopen hmode)
  simpa using h


theorem zipFS_lookup_file {k : Key} {p : Perm} {d : Bytes}
    (h : zipFS.lookup k = some (.file p d)) : k = ["in.zip".toList] := by
  by_contra hne
  unfold FS.lookup at h
  by_cases hs : k = [] ∨ k = [rootComp]
  · rw [if_pos hs] at h
    exact absurd h (by simp)
  · rw [if_neg hs] at h
    have : zipFS.nodes k = none := by
      show (if k = ["in.zip".toList] then _ else none) = none
      rw [if_neg hne]
    rw [this] at h
    exact absurd h (by simp)

theorem zipFS_lookup_dir {k : Key} {p : Perm} (h : zipFS.lookup k = some (.dir p)) :
    p = 0o755 := by
  unfold FS.lookup at h
  by_cases hs : k = [] ∨ k = [rootComp]
  · rw [if_pos hs] at h
    exact (Node.dir.inj (Option.some.inj h)).symm
  · rw [if_neg hs] at h
    by_cases hne : k = ["in.zip".toList]
    · have : zipFS.nodes k = some (.file 0o644 [80, 75]) := by
        show (if k = ["in.zip".toList] then _ else none) = _
        rw [if_pos hne]
      rw [this] at h
      exact absurd h (by simp)
    · have : zipFS.nodes k = none := by
        show (if k = ["in.zip".toList] then _ else none) = none
        rw [if_neg hne]
      rw [this] at h
      exact absurd h (by simp)

theorem zipFS_fresh (k : Key) (h : ["uploads".toList, "x".toList] <+: k) :
    zipFS.lookup k = none := by
  obtain ⟨t, rfl⟩ := h
  rfl


/-! ## `createZip` -/

theorem shouldSkip_of_rel (path sourceDir rel : Str) (hrel : Rel sourceDir path = .ok rel) :
    shouldSkip path sourceDir = matchesSkip rel :=
  shouldSkip_eq path sourceDir rel hrel

theorem joinSep_getLast {X : List Str} (hne : X ≠ []) (h : ∀ c ∈ X, Elem c) :
    (joinSep X).getLast? ≠ some sep := by
  induction X with
  | nil => exact absurd rfl hne
  | cons a rest ih =>
    cases rest with
    | nil =>
      intro hl
      exact (h a (List.mem_cons_self _ _)).2.2 (List.mem_of_getLast?_eq_some hl)
    | cons b rest =>
      rw [joinSep_cons_cons]
      have hne' : joinSep (b :: rest) ≠ [] :=
        joinSep_ne_nil (by simp) (fun c hc => h c (List.mem_cons_of_mem _ hc))
      rw [show a ++ sep :: joinSep (b :: rest) = (a ++ [sep]) ++ joinSep (b :: rest) by simp,
        List.getLast?_append_of_ne_nil _ hne']
      exact ih (by simp) (fun c hc => h c (List.mem_cons_of_mem _ hc))

theorem render_getLast {r : Bool} {X : List Str} (hne : X ≠ []) (h : ∀ c ∈ X, Elem c) :
    (render r X).getLast? ≠ some sep := by
  rw [render_of_ne_nil r hne h, List.getLast?_append_of_ne_nil _ (joinSep_ne_nil hne h)]
  exact joinSep_getLast hne h

theorem relElems_render {r : Bool} {X : List Str} (hne : X ≠ []) (h : ∀ c ∈ X, Elem c) :
    relElems (render r X) = (if r then [[]] else []) ++ X := by
  unfold relElems
  rw [if_neg (render_ne_nil _ _), if_neg (render_getLast hne h), splitSep_render r hne h]

theorem dropCommon_append (A T : List Str) : dropCommon A (A ++ T) = ([], T) := by
  induction A with
  | nil => cases T <;> rfl
  | cons a A ih =>
    rw [List.cons_append, dropCommon, if_pos rfl, ih]

theorem render_inj {r : Bool} {X Y : List Str} (hX : ∀ c ∈ X, Elem c) (hY : ∀ c ∈ Y, Elem c)
    (h : render r X = render r Y) : X = Y := by
  have := congrArg pathKey h
  rw [pathKey_render r hX, pathKey_render r hY] at this
  exact List.append_cancel_left this

theorem Clean_render {r : Bool} {X : List Str} (h : CleanStk r X.reverse) :
    Clean (render r X) = render r X := by
  rw [Clean, cleanComps_render h, isRooted_render r (fun c hc => h.elem c (List.mem_reverse.mpr hc))]

theorem cleanStk_append_normals {r : Bool} {X : List Str} (hX : CleanStk r X.reverse) :
    ∀ T : List Str, (∀ c ∈ T, Normal c) → CleanStk r (X ++ T).reverse := by
  intro T
  induction T using List.reverseRecOn with
  | nil => intro _; simpa using hX
  | append_singleton T c ih =>
    intro h
    rw [← List.append_assoc, List.reverse_append]
    exact (ih (fun x hx => h x (by simp [hx]))).push (h c (by simp))

/-- The path of `path` relative to the source directory, for a path below
it. -/
theorem Rel_below (sourceDir : Str) {T : List Str} (hT : T ≠ []) (hn : ∀ c ∈ T, Normal c) :
    Rel sourceDir (render (isRooted sourceDir) (cleanComps sourceDir ++ T)) =
      .ok (joinSep T) := by
  have hS := cleanComps_stk sourceDir
  have hST := cleanStk_append_normals hS T hn
  have hSe := cleanComps_elem sourceDir
  have hSTe : ∀ c ∈ cleanComps sourceDir ++ T, Elem c :=
    fun c hc => hST.elem c (List.mem_reverse.mpr hc)
  have hSTne : cleanComps sourceDir ++ T ≠ [] := by simp [hT]
  unfold Rel
  simp only []
  rw [Clean_render hST]
  have hbase : Clean sourceDir = render (isRooted sourceDir) (cleanComps sourceDir) := rfl
  rw [hbase]
  have hne : ¬ render (isRooted sourceDir) (cleanComps sourceDir ++ T) =
      render (isRooted sourceDir) (cleanComps sourceDir) := by
    intro e
    have := render_inj hSTe hSe e
    exact hT (List.append_cancel_left (this.trans (List.append_nil _).symm))
  rw [if_neg hne]
  have hrel : relElems (if render (isRooted sourceDir) (cleanComps sourceDir) = ['.'] then []
      else render (isRooted sourceDir) (cleanComps sourceDir)) =
      (if isRooted sourceDir then [[]] else []) ++ cleanComps sourceDir ∧
      isRooted (if render (isRooted sourceDir) (cleanComps sourceDir) = ['.'] then []
      else render (isRooted sourceDir) (cleanComps sourceDir)) = isRooted sourceDir := by
    by_cases hSne : cleanComps sourceDir = []
    · rw [hSne]
      cases isRooted sourceDir <;> exact ⟨rfl, rfl⟩
    · have hdot : ¬ render (isRooted sourceDir) (cleanComps sourceDir) = ['.'] := by
        intro e
        have h1 : render (isRooted sourceDir) (cleanComps sourceDir) = render false [] := e
        have h2 := congrArg isRooted h1
        rw [isRooted_render _ hSe] at h2
        have h3 : isRooted sourceDir = false := h2
        rw [h3] at h1
        exact hSne (render_inj hSe (by simp) h1)
      rw [if_neg hdot]
      exact ⟨relElems_render hSne hSe, isRooted_render _ hSe⟩
  rw [hrel.1, hrel.2, isRooted_render _ hSTe, relElems_render hSTne hSTe]
  simp only [ne_eq, not_true_eq_false, if_false]
  rw [← List.append_assoc, dropCommon_append]

theorem Rel_self (sourceDir : Str) : Rel sourceDir sourceDir = .ok ['.'] := by
  unfold Rel
  simp


theorem matchesSkip_append {s : Str} (t : Str) (h : matchesSkip s = true) :
    matchesSkip (s ++ t) = true := by
  unfold matchesSkip at h ⊢
  simp only [Bool.or_eq_true] at h ⊢
  rcases h with ((((h | h) | h) | h) | h) | h
  · exact Or.inl (Or.inl (Or.inl (Or.inl (Or.inl (contains_append_left t h)))))
  · exact Or.inl (Or.inl (Or.inl (Or.inl (Or.inr (contains_append_left t h)))))
  · exact Or.inl (Or.inl (Or.inl (Or.inr (contains_append_left t h))))
  · exact Or.inl (Or.inl (Or.inr (contains_append_left t h)))
  · exact Or.inl (Or.inr (contains_append_left t h))
  · exact Or.inr (contains_append_left t h)

theorem matchesSkip_joinSep_append {rel : List Str} (hne : rel ≠ []) (x : List Str)
    (h : matchesSkip (joinSep rel) = true) : matchesSkip (joinSep (rel ++ x)) = true := by
  by_cases hx : x = []
  · subst hx; simpa using h
  · rw [joinSep_append rel x hne hx]
    exact matchesSkip_append _ h

theorem Join_source (sourceDir : Str) {name : Str} (hn : Normal name) :
    Join sourceDir name = render (isRooted sourceDir) (cleanComps sourceDir ++ [name]) := by
  by_cases hs : sourceDir = []
  · subst hs
    have hname : name ≠ [] := hn.1.1
    unfold Join
    rw [if_neg (by simp), if_pos hname, Clean]
    have hr : isRooted name = false := by
      cases name with
      | nil => exact absurd rfl hname
      | cons c cs =>
        have : c ≠ sep := fun e => hn.1.2.2 (e ▸ List.mem_cons_self _ _)
        simp [isRooted, this]
    have hc : cleanComps name = [name] := by
      unfold cleanComps
      rw [splitSep_of_noSep name hn.1.2.2]
      simp only [List.foldl_cons, List.foldl_nil]
      rw [cleanStep_normal _ _ hn]
      rfl
    rw [hr, hc]
    rfl
  · rw [Join_of_ne_nil hs, cleanComps_append hs, splitSep_of_noSep name hn.1.2.2]
    simp only [List.foldl_cons, List.foldl_nil]
    rw [cleanStep_normal _ _ hn]
    simp

theorem Join_below (sourceDir : Str) {rel : List Str} (hrel : ∀ c ∈ rel, Normal c)
    {name : Str} (hn : Normal name) :
    Join (render (isRooted sourceDir) (cleanComps sourceDir ++ rel)) name =
      render (isRooted sourceDir) (cleanComps sourceDir ++ (rel ++ [name])) := by
  rw [← List.append_assoc]
  exact (Join_render_normal (cleanStk_append_normals (cleanComps_stk sourceDir) rel hrel) hn).1

theorem keptEntries_file (rel : List Str) (perm : Perm) (data : Bytes) :
    keptEntries rel (.file perm data) =
      if matchesSkip (joinSep rel) then [] else [(joinSep rel, data)] := by
  unfold keptEntries
  rw [treeFiles]
  by_cases h : matchesSkip (joinSep rel) = true
  · simp [h]
  · simp [h]

theorem keptEntries_skipped {rel : List Str} (hne : rel ≠ []) (t : Tree)
    (h : matchesSkip (joinSep rel) = true) : keptEntries rel t = [] := by
  unfold keptEntries
  rw [List.map_eq_nil_iff, List.filter_eq_nil_iff]
  intro e _
  simp [matchesSkip_joinSep_append hne e.1 h]


/-- The entries written for the children of a directory found at `rel`. -/
theorem keptChildren_cons (rel : List Str) (name : Str) (t : Tree) (rest : List (Str × Tree)) :
    ((treeFiles.childrenFiles ((name, t) :: rest)).filter
        (fun e => !matchesSkip (joinSep (rel ++ e.1)))).map
      (fun e => (joinSep (rel ++ e.1), e.2)) =
    keptEntries (rel ++ [name]) t ++
      ((treeFiles.childrenFiles rest).filter
        (fun e => !matchesSkip (joinSep (rel ++ e.1)))).map
      (fun e => (joinSep (rel ++ e.1), e.2)) := by
  rw [treeFiles.childrenFiles, List.filter_append, List.map_append]
  congr 1
  unfold keptEntries
  rw [List.filter_map, List.map_map]
  simp only [Function.comp, List.append_assoc, List.singleton_append]
  rfl

mutual
/-- The walk of `createZip` over the tree found at the relative path `rel`
writes the entries of the files that are not skipped. -/
theorem walkZip_spec (sourceDir : Str) : ∀ (t : Tree) (rel : List Str), rel ≠ [] →
    (∀ c ∈ rel, Normal c) → t.WF →
    walkZip sourceDir (render (isRooted sourceDir) (cleanComps sourceDir ++ rel)) t =
      .ok (keptEntries rel t)
  | .file perm data, rel, hne, hrel, _ => by
    rw [walkZip, shouldSkip_of_rel _ _ _ (Rel_below sourceDir hne hrel), keptEntries_file,
      Rel_below sourceDir hne hrel]
    by_cases h : matchesSkip (joinSep rel) = true
    · rw [if_pos h, if_pos h]
    · rw [if_neg h, if_neg h]
  | .dir perm children, rel, hne, hrel, hwf => by
    rw [walkZip, shouldSkip_of_rel _ _ _ (Rel_below sourceDir hne hrel),
      Rel_below sourceDir hne hrel]
    by_cases h : matchesSkip (joinSep rel) = true
    · rw [if_pos h, keptEntries_skipped hne _ h]
    · rw [if_neg h]
      simp only []
      rw [Tree.WF] at hwf
      rw [walkChildren_spec sourceDir children rel _ hrel hwf
        (fun name hn => Join_below sourceDir hrel hn)]
      unfold keptEntries
      rw [treeFiles]
/-- The walk over the entries of a directory found at `rel`. -/
theorem walkChildren_spec (sourceDir : Str) : ∀ (cs : List (Str × Tree)) (rel : List Str)
    (path : Str), (∀ c ∈ rel, Normal c) → Tree.WF.childrenWF cs →
    (∀ name, Normal name → Join path name =
      render (isRooted sourceDir) (cleanComps sourceDir ++ (rel ++ [name]))) →
    walkZip.walkChildren sourceDir path cs =
      .ok (((treeFiles.childrenFiles cs).filter
        (fun e => !matchesSkip (joinSep (rel ++ e.1)))).map
        (fun e => (joinSep (rel ++ e.1), e.2)))
  | [], rel, path, _, _, _ => by
    rw [walkZip.walkChildren, treeFiles.childrenFiles]
    rfl
  | (name, t) :: rest, rel, path, hrel, hwf, hjoin => by
    rw [Tree.WF.childrenWF] at hwf
    obtain ⟨hn, _, ht, hrest⟩ := hwf
    have hrel' : ∀ c ∈ rel ++ [name], Normal c := by
      intro c hc
      rcases List.mem_append.mp hc with h | h
      · exact hrel c h
      · rw [List.mem_singleton.mp h]; exact hn
    rw [walkZip.walkChildren, hjoin name hn,
      walkZip_spec sourceDir t (rel ++ [name]) (by simp) hrel' ht]
    simp only []
    rw [walkChildren_spec sourceDir rest rel path hrel hrest hjoin]
    simp only []
    rw [keptChildren_cons]
end


theorem walkZip_root (sourceDir : Str) (perm : Perm) (children : List (Str × Tree))
    (hwf : Tree.WF (.dir perm children)) :
    walkZip sourceDir sourceDir (.dir perm children) =
      .ok (keptEntries [] (.dir perm children)) := by
  have hskip : shouldSkip sourceDir sourceDir = false := by
    rw [shouldSkip_of_rel _ _ _ (Rel_self sourceDir)]
    decide
  rw [walkZip, hskip, Rel_self]
  simp only [Bool.false_eq_true, if_false]
  rw [Tree.WF] at hwf
  rw [walkChildren_spec sourceDir children [] sourceDir (by simp) hwf
    (fun name hn => by rw [List.nil_append]; exact Join_source sourceDir hn)]
  unfold keptEntries
  rw [treeFiles]

theorem childrenFiles_head : ∀ (cs : List (Str × Tree)) (e : List Str × Bytes),
    e ∈ treeFiles.childrenFiles cs → ∃ name x, e.1 = name :: x ∧ ∃ t, (name, t) ∈ cs
  | [], e, h => by
    rw [treeFiles.childrenFiles] at h
    exact absurd h (List.not_mem_nil _)
  | (name, t) :: rest, e, h => by
    rw [treeFiles.childrenFiles] at h
    rcases List.mem_append.mp h with h | h
    · obtain ⟨e', _, rfl⟩ := List.mem_map.mp h
      exact ⟨name, e'.1, rfl, t, List.mem_cons_self _ _⟩
    · obtain ⟨n, x, hx, t', ht'⟩ := childrenFiles_head rest e h
      exact ⟨n, x, hx, t', List.mem_cons_of_mem _ ht'⟩

theorem pathsOK_cons {name : Str} {l1 l2 : List (List Str × Bytes)} (hn : Normal name)
    (h1 : PathsOK l1) (h2 : PathsOK l2)
    (hhead : ∀ e ∈ l2, ∃ n x, e.1 = n :: x ∧ n ≠ name) :
    PathsOK (l1.map (fun e => (name :: e.1, e.2)) ++ l2) := by
  obtain ⟨h1n, h1d, h1p⟩ := h1
  obtain ⟨h2n, h2d, h2p⟩ := h2
  refine ⟨?_, ?_, ?_⟩
  · intro e he c hc
    rcases List.mem_append.mp he with he | he
    · obtain ⟨e', he', rfl⟩ := List.mem_map.mp he
      rcases List.mem_cons.mp hc with rfl | hc
      · exact hn
      · exact h1n e' he' c hc
    · exact h2n e he c hc
  · rw [List.map_append, List.map_map]
    refine List.Nodup.append ?_ h2d ?_
    · have : (Prod.fst ∘ fun e : List Str × Bytes => (name :: e.1, e.2)) =
          (fun x => name :: x) ∘ Prod.fst := rfl
      rw [this, ← List.map_map]
      exact h1d.map (fun a b h => (List.cons.inj h).2)
    · intro x hx1 hx2
      obtain ⟨e1, _, rfl⟩ := List.mem_map.mp hx1
      obtain ⟨e2, he2, he⟩ := List.mem_map.mp hx2
      obtain ⟨n, y, hy, hne⟩ := hhead e2 he2
      rw [hy] at he
      exact hne (List.cons.inj he).1
  · intro e1 he1 e2 he2 hpre
    rcases List.mem_append.mp he1 with he1 | he1
    · obtain ⟨a, ha, rfl⟩ := List.mem_map.mp he1
      rcases List.mem_append.mp he2 with he2 | he2
      · obtain ⟨b, hb, rfl⟩ := List.mem_map.mp he2
        have := (List.cons_prefix_cons.mp hpre).2
        exact congrArg (List.cons name) (h1p a ha b hb this)
      · obtain ⟨n, y, hy, hne⟩ := hhead e2 he2
        rw [hy] at hpre
        exact absurd (List.cons_prefix_cons.mp hpre).1.symm hne
    · rcases List.mem_append.mp he2 with he2 | he2
      · obtain ⟨b, hb, rfl⟩ := List.mem_map.mp he2
        obtain ⟨n, y, hy, hne⟩ := hhead e1 he1
        rw [hy] at hpre
        exact absurd (List.cons_prefix_cons.mp hpre).1 hne
      · exact h2p e1 he1 e2 he2 hpre

mutual
/-- The files of a well-formed tree have well-formed relative paths. -/
theorem treeFiles_ok : ∀ (t : Tree), t.WF → PathsOK (treeFiles t)
  | .file perm data, _ => by
    rw [treeFiles]
    refine ⟨?_, by simp, ?_⟩
    · intro e he c hc
      rw [List.mem_singleton.mp he] at hc
      exact absurd hc (List.not_mem_nil _)
    · intro e1 he1 e2 he2 _
      rw [List.mem_singleton.mp he1, List.mem_singleton.mp he2]
  | .dir perm children, hwf => by
    rw [Tree.WF] at hwf
    rw [treeFiles]
    exact childrenFiles_ok children hwf
/-- The files below the entries of a well-formed directory. -/
theorem childrenFiles_ok : ∀ (cs : List (Str × Tree)), Tree.WF.childrenWF cs →
    PathsOK (treeFiles.childrenFiles cs)
  | [], _ => by
    rw [treeFiles.childrenFiles]
    exact ⟨by simp, by simp, by simp⟩
  | (name, t) :: rest, hwf => by
    rw [Tree.WF.childrenWF] at hwf
    obtain ⟨hn, hdiff, ht, hrest⟩ := hwf
    rw [treeFiles.childrenFiles]
    refine pathsOK_cons hn (treeFiles_ok t ht) (childrenFiles_ok rest hrest) ?_
    intro e he
    obtain ⟨n, x, hx, t', ht'⟩ := childrenFiles_head rest e he
    exact ⟨n, x, hx, hdiff (n, t') ht'⟩
end

theorem root_paths_ne_nil (perm : Perm) (children : List (Str × Tree)) :
    ∀ e ∈ treeFiles (.dir perm children), e.1 ≠ [] := by
  intro e he
  rw [treeFiles] at he
  obtain ⟨n, x, hx, _⟩ := childrenFiles_head children e he
  rw [hx]
  simp


theorem mem_keptEntries {t : Tree} {x : Str × Bytes} :
    x ∈ keptEntries [] t ↔
      ∃ e ∈ treeFiles t, matchesSkip (joinSep e.1) = false ∧ x = (joinSep e.1, e.2) := by
  unfold keptEntries
  rw [List.mem_map]
  constructor
  · rintro ⟨e, he, rfl⟩
    obtain ⟨he1, he2⟩ := List.mem_filter.mp he
    exact ⟨e, he1, by simpa using he2, rfl⟩
  · rintro ⟨e, he, hs, rfl⟩
    exact ⟨e, List.mem_filter.mpr ⟨he, by simpa using hs⟩, rfl⟩

/-- What the server reads for an entry `createZip` wrote for a file at the
relative path `rel`. -/
theorem createdEntry_facts {dest : Str} (hroot : cleanComps dest ≠ []) {rel : List Str}
    (hne : rel ≠ []) (hn : ∀ c ∈ rel, Normal c) (data : Bytes) :
    passesCheck dest (createdEntry (joinSep rel, data)).name = true ∧
      entryKey dest (createdEntry (joinSep rel, data)) = destKey dest ++ rel ∧
      (createdEntry (joinSep rel, data)).isDir = false ∧
      (createdEntry (joinSep rel, data)).body = .ok data ∧
      (createdEntry (joinSep rel, data)).perm = 0o666 := by
  obtain ⟨h1, h2⟩ := passesCheck_of_normals hroot hne hn
  refine ⟨h1, h2, ?_, rfl, rfl⟩
  unfold createdEntry
  simp only []
  exact decide_eq_false (joinSep_getLast hne (fun c hc => (hn c hc).1))

/-- The entries the server reads from the archive of a well-formed tree pass
the check of `unzip`, can be opened, and do not collide. -/
theorem created_entries_ok {dest : Str} (hroot : cleanComps dest ≠ []) (perm : Perm)
    (children : List (Str × Tree)) (hwf : Tree.WF (.dir perm children)) :
    (∀ f ∈ (keptEntries [] (.dir perm children)).map createdEntry,
      ∃ e ∈ treeFiles (.dir perm children), matchesSkip (joinSep e.1) = false ∧
        f = createdEntry (joinSep e.1, e.2) ∧ entryKey dest f = destKey dest ++ e.1 ∧
        passesCheck dest f.name = true ∧ f.isDir = false ∧ f.body = .ok e.2 ∧
        f.perm = 0o666) ∧
    (((keptEntries [] (.dir perm children)).map createdEntry).map (entryKey dest)).Nodup := by
  obtain ⟨hnorm, hnodup, _⟩ := treeFiles_ok _ hwf
  have hne := root_paths_ne_nil perm children
  have hall : ∀ f ∈ (keptEntries [] (.dir perm children)).map createdEntry,
      ∃ e ∈ treeFiles (.dir perm children), matchesSkip (joinSep e.1) = false ∧
        f = createdEntry (joinSep e.1, e.2) ∧ entryKey dest f = destKey dest ++ e.1 ∧
        passesCheck dest f.name = true ∧ f.isDir = false ∧ f.body = .ok e.2 ∧
        f.perm = 0o666 := by
    intro f hf
    obtain ⟨x, hx, rfl⟩ := List.mem_map.mp hf
    obtain ⟨e, he, hs, rfl⟩ := mem_keptEntries.mp hx
    obtain ⟨h1, h2, h3, h4, h5⟩ := createdEntry_facts hroot (hne e he) (hnorm e he) e.2
    exact ⟨e, he, hs, rfl, h2, h1, h3, h4, h5⟩
  refine ⟨hall, ?_⟩
  have hkeys : ((keptEntries [] (.dir perm children)).map createdEntry).map (entryKey dest) =
      (((treeFiles (.dir perm children)).filter
        (fun e => !matchesSkip (joinSep ([] ++ e.1)))).map Prod.fst).map
        (fun rel => destKey dest ++ rel) := by
    unfold keptEntries
    rw [List.map_map, List.map_map, List.map_map]
    apply List.map_congr_left
    intro e he
    have he' := (List.mem_filter.mp he).1
    simp only [Function.comp, List.nil_append]
    exact (createdEntry_facts hroot (hne e he') (hnorm e he') e.2).2.1
  rw [hkeys]
  refine List.Nodup.map (fun a b h => List.append_cancel_left h) ?_
  exact hnodup.sublist ((List.filter_sublist _).map _)


theorem createZip_root (zipWrite : List (Str × Bytes) → Bytes) (sourceDir : Str) (perm : Perm)
    (children : List (Str × Tree)) (hwf : Tree.WF (.dir perm children)) :
    createZip zipWrite sourceDir (.dir perm children) =
      .ok (zipWrite (keptEntries [] (.dir perm children))) := by
  unfold createZip
  rw [walkZip_root sourceDir perm children hwf]

theorem exampleTree_wf : exampleTree.WF := by
  unfold exampleTree
  simp only [Tree.WF, Tree.WF.childrenWF, List.mem_cons, List.mem_singleton, List.not_mem_nil,
    forall_eq_or_imp, forall_eq, and_true, or_false, IsEmpty.forall_iff, implies_true]
  decide


/-! ## The middleware -/

theorem authenticateMiddleware_pass (apiKey : Str) (next : Handler) (r : Request)
    (s : ServerState)
    (h : r.headerGet "Authorization".toList = "Bearer ".toList ++ apiKey) :
    authenticateMiddleware apiKey next r s = next r s := by
  unfold authenticateMiddleware
  simp only []
  rw [h, if_neg (by simp), (hasPrefix_iff _ _).mpr ⟨apiKey, rfl⟩, trimPrefix_append]
  simp


/-! ## The properties of the specification -/

/-- C1, as stated, fails for a root that starts with `..`: with root `..`
the entry `../x` passes the test of `unzip`, is written at `../../x`, and that
path keeps `..` elements and is not inside the root. -/
theorem unzip_containment_counterexample :
    passesCheck "..".toList "../x".toList = true ∧
    Join "..".toList "../x".toList = "../../x".toList ∧
    ¬ StrictlyInside "..".toList (Join "..".toList "../x".toList) ∧
    (extractAndWriteFile "..".toList emptyFS (fileEntry "../x" 0o644 [1])).1 = none ∧
    (extractAndWriteFile "..".toList emptyFS (fileEntry "../x" 0o644 [1])).2.lookup
      ["..".toList, "..".toList, "x".toList] = some (.file 0o644 [1]) := by
  refine ⟨by decide, by decide, ?_, by decide, by decide⟩
  rintro ⟨rel, hne, hn, heq⟩
  have h1 : joinSep rel = "../x".toList := by
    have h2 : Join "..".toList "../x".toList = Clean "..".toList ++ sep :: "../x".toList := by
      decide
    rw [h2] at heq
    exact (List.cons.inj (List.append_cancel_left heq)).2.symm
  have h3 := splitSep_joinSep rel hne (fun c hc => (hn c hc).1.2.2)
  rw [h1] at h3
  have h4 : dotdot ∈ rel := by
    rw [← h3]
    decide
  exact (hn dotdot h4).2 rfl

/-- C1 (amended): for a destination root whose cleaned form has no `..`
element, (1) an entry that fails the test of `unzip` yields an error and leaves
the file system as it was, (2) the path of an entry that passes is the cleaned
root, a separator and one or more ordinary elements, so it lies lexically
strictly inside the root and keeps no `..`, (3) the loop stops at the first
failing entry with an error, in the state the earlier entries left, and
(4) every node the loop changes lies on the way to the path of an entry that
passed the test: it is the root, an ancestor of the root, or strictly inside
the root. -/
theorem unzip_path_containment (dest : Str) (hdd : dotdot ∉ cleanComps dest) :
    (∀ (fs : FS) (f : ZipFile), passesCheck dest f.name = false →
      ∃ e, extractAndWriteFile dest fs f = (some e, fs)) ∧
    (∀ name : Str, passesCheck dest name = true → StrictlyInside dest (Join dest name)) ∧
    (∀ (fs : FS) (pre post : List ZipFile) (f : ZipFile), passesCheck dest f.name = false →
      (unzipFiles dest fs (pre ++ f :: post)).1 ≠ none ∧
      (unzipFiles dest fs (pre ++ f :: post)).2 = (unzipFiles dest fs pre).2) ∧
    (∀ (fs : FS) (files : List ZipFile) (k : Key),
      (unzipFiles dest fs files).2.lookup k ≠ fs.lookup k →
      (∃ f ∈ files, passesCheck dest f.name = true ∧ k ≠ [] ∧ k <+: entryKey dest f) ∧
        (k <+: destKey dest ∨ KeyInside dest k)) := by
  refine ⟨fun fs f h => extract_rejects fs f h, fun name h => passesCheck_inside hdd h,
    fun fs pre post f h => unzipFiles_stops dest fs pre post f h, ?_⟩
  intro fs files k hk
  rcases unzipFiles_lookup dest files fs k with h | ⟨⟨f, hf, hc, hne, hpre⟩, _⟩
  · exact absurd h hk
  · exact ⟨⟨f, hf, hc, hne, hpre⟩, key_under_cases hdd hc hpre⟩

/-- C1 (amended) at the root `uploads/d/extracted`: the entry `a/../b` lies
strictly inside the root. -/
theorem unzip_path_containment_witness :
    dotdot ∉ cleanComps "uploads/d/extracted".toList ∧
    StrictlyInside "uploads/d/extracted".toList
      (Join "uploads/d/extracted".toList "a/../b".toList) :=
  ⟨by decide,
    (unzip_path_containment "uploads/d/extracted".toList (by decide)).2.1 "a/../b".toList
      (by decide)⟩

/-- C2: the middleware hands the request to the wrapped handler exactly when
the `Authorization` header is `Bearer ` followed by the configured key; in
every other case the answer is a 401 and the state (file system, goroutines)
is the one before the request, whatever the wrapped handler is. -/
theorem authenticateMiddleware_gate (apiKey : Str) (next : Handler) (r : Request)
    (s : ServerState) :
    ∃ msg, authenticateMiddleware apiKey next r s =
      if r.headerGet "Authorization".toList = "Bearer ".toList ++ apiKey then next r s
      else (httpError msg 401, s) := by
  unfold authenticateMiddleware
  generalize r.headerGet "Authorization".toList = hdr
  have hb : "Bearer ".toList ≠ [] := by decide
  generalize "Bearer ".toList = bearer at hb ⊢
  by_cases h0 : hdr = []
  · refine ⟨"Authorization header required".toList, ?_⟩
    subst h0
    have hne : ¬ ([] : Str) = bearer ++ apiKey := by
      intro h; exact hb (List.append_eq_nil.mp h.symm).1
    simp only [if_true, if_neg hne]
  · by_cases h1 : hasPrefix hdr bearer = true
    · obtain ⟨t, ht⟩ := (hasPrefix_iff _ _).mp h1
      subst ht
      by_cases h2 : t = apiKey
      · refine ⟨[], ?_⟩
        subst h2
        simp only [if_neg h0, h1, trimPrefix_append, if_true]
        simp
      · refine ⟨"Invalid API key".toList, ?_⟩
        have hne : ¬ bearer ++ t = bearer ++ apiKey := fun h => h2 (List.append_cancel_left h)
        simp only [if_neg h0, h1, trimPrefix_append, if_neg hne]
        simp [h2]
    · refine ⟨"Invalid authorization format".toList, ?_⟩
      have hne : ¬ hdr = bearer ++ apiKey := fun h => h1 ((hasPrefix_iff _ _).mpr ⟨apiKey, h⟩)
      simp only [if_neg h0, if_neg hne]
      simp [h1]

/-- C3, as stated, fails: the entries `a/../b` and `/etc/passwd` are not
rejected; `unzip` returns no error and writes them inside the root, at `b` and
at `etc/passwd`. -/
theorem unzip_dotdot_counterexample :
    (unzip (fun _ => .ok [fileEntry "a/../b" 0o644 [1], fileEntry "/etc/passwd" 0o644 [2]])
      zipFS "in.zip".toList "uploads/x".toList).1 = none ∧
    (unzip (fun _ => .ok [fileEntry "a/../b" 0o644 [1], fileEntry "/etc/passwd" 0o644 [2]])
      zipFS "in.zip".toList "uploads/x".toList).2.lookup
        ["uploads".toList, "x".toList, "b".toList] = some (.file 0o644 [1]) ∧
    (unzip (fun _ => .ok [fileEntry "a/../b" 0o644 [1], fileEntry "/etc/passwd" 0o644 [2]])
      zipFS "in.zip".toList "uploads/x".toList).2.lookup
        ["uploads".toList, "x".toList, "etc".toList, "passwd".toList] =
          some (.file 0o644 [2]) := by
  refine ⟨by decide, by decide, by decide⟩

/-- C3 (amended): for a destination root given in cleaned form and without a
`..` element, an archive with an entry whose joined path does not start with the
cleaned root and a separator makes `unzip` return an error; and whatever the
entry names are (with `..` elements, absolute), every node `unzip` creates or
changes is the root, one of its ancestors, or lies strictly inside the root. -/
theorem unzip_rejects_escaping (zipOpenReader : Bytes → Except GoError (List ZipFile))
    (fs : FS) (src dest : Str) (bytes : Bytes) (files : List ZipFile)
    (hclean : Clean dest = dest) (hdd : dotdot ∉ cleanComps dest)
    (hread : readFile fs src = .ok bytes) (hdec : zipOpenReader bytes = .ok files) :
    ((∃ f ∈ files, passesCheck dest f.name = false) →
      (unzip zipOpenReader fs src dest).1 ≠ none) ∧
    (∀ k, (unzip zipOpenReader fs src dest).2.lookup k ≠ fs.lookup k →
      k <+: destKey dest ∨ KeyInside dest k) := by
  rw [unzip_eq dest hread hdec]
  constructor
  · rintro ⟨f, hf, hc⟩
    obtain ⟨pre, post, rfl⟩ := List.append_of_mem hf
    exact (unzipFiles_stops dest _ pre post f hc).1
  · intro k hk
    rcases unzipFiles_lookup dest files (MkdirAll fs dest 0o755).2 k with h | ⟨⟨f, _, hc, _, hpre⟩, _⟩
    · rw [h] at hk
      rcases MkdirAll_lookup fs dest 0o755 k with h' | ⟨_, h2, _, _⟩
      · exact absurd h' hk
      · left
        rw [← hclean] at h2
        exact h2
    · exact key_under_cases hdd hc hpre


/-- C3 (amended) on an archive that holds `../../etc/passwd`, for the root
`uploads/x`: `unzip` returns an error. -/
theorem unzip_rejects_escaping_witness :
    (unzip (fun _ => .ok [fileEntry "../../etc/passwd" 0o644 [1]])
      zipFS "in.zip".toList "uploads/x".toList).1 ≠ none :=
  (unzip_rejects_escaping (fun _ => .ok [fileEntry "../../etc/passwd" 0o644 [1]])
    zipFS "in.zip".toList "uploads/x".toList [80, 75] [fileEntry "../../etc/passwd" 0o644 [1]]
    (by decide) (by decide) rfl rfl).1
    ⟨fileEntry "../../etc/passwd" 0o644 [1], List.mem_singleton.mpr rfl, by decide⟩

/-- C4, as stated, fails: for an upload whose archive holds the entry
`../../etc/passwd`, `handleDeploy` answers 500, not 400; and on a server whose
upload directory `uploads` is missing, that directory, which is not in the
workspace `uploads/deploy-20240101-000000`, is made. -/
theorem handleDeploy_unsafe_counterexample :
    (deployHandler exampleKey (fun _ => .ok [fileEntry "../../etc/passwd" 0o644 [1]])
      "20240101-000000".toList (uploadRequest [80, 75]) freshServer).1.status = 500 ∧
    freshServer.fs.lookup ["uploads".toList] = none ∧
    (deployHandler exampleKey (fun _ => .ok [fileEntry "../../etc/passwd" 0o644 [1]])
      "20240101-000000".toList (uploadRequest [80, 75]) freshServer).2.fs.lookup
        ["uploads".toList] = some (.dir 0o755) := by
  refine ⟨by decide, by decide, by decide⟩

/-- C4 (amended): for a POST with the right credential that carries the form
file, whose archive holds an entry that fails the test of `unzip` against the
extraction root, `handleDeploy` answers 500 (the one answer for every failure
of `unzip`) and starts no goroutine; the workspace is
`uploads/deploy-<timestamp>`, and a node outside the workspace is left as it
was, except that the upload directory `uploads` is made, with the mode 0755
less the umask, when there was nothing at its place. The timestamp has no
separator, as the time format guarantees. -/
theorem handleDeploy_unsafe_entry (apiKey : Str)
    (zipOpenReader : Bytes → Except GoError (List ZipFile))
    (timestamp : Str) (r : Request) (s : ServerState) (file : Bytes) (files : List ZipFile)
    (hts : sep ∉ timestamp)
    (hauth : r.headerGet "Authorization".toList = "Bearer ".toList ++ apiKey)
    (hm : r.method = "POST".toList) (hf : r.FormFile "deployment".toList = some file)
    (hdec : zipOpenReader file = .ok files)
    (hbad : ∃ f ∈ files, passesCheck (extractDirOf timestamp) f.name = false) :
    (deployHandler apiKey zipOpenReader timestamp r s).1.status = 500 ∧
    (deployHandler apiKey zipOpenReader timestamp r s).2.spawned = s.spawned ∧
    pathKey (deployDirOf timestamp) = ["uploads".toList, "deploy-".toList ++ timestamp] ∧
    ∀ k, ¬ pathKey (deployDirOf timestamp) <+: k →
      (deployHandler apiKey zipOpenReader timestamp r s).2.fs.lookup k = s.fs.lookup k ∨
      (k = ["uploads".toList] ∧ s.fs.lookup k = none ∧
        (deployHandler apiKey zipOpenReader timestamp r s).2.fs.lookup k =
          some (.dir (dirMode s.fs.umask 0o755))) := by
  obtain ⟨X, hd, _, _, _, _, _, hX⟩ := workspace_keys timestamp
  have hW : pathKey (deployDirOf timestamp) =
      ["uploads".toList, "deploy-".toList ++ timestamp] := by
    rw [hd]; exact hX hts
  have hmk : ∀ k, ¬ pathKey (deployDirOf timestamp) <+: k →
      (MkdirAll s.fs (deployDirOf timestamp) 0o755).2.lookup k = s.fs.lookup k ∨
      (k = ["uploads".toList] ∧ s.fs.lookup k = none ∧
        (MkdirAll s.fs (deployDirOf timestamp) 0o755).2.lookup k =
          some (.dir (dirMode s.fs.umask 0o755))) := by
    intro k hk
    rcases MkdirAll_lookup s.fs (deployDirOf timestamp) 0o755 k with h | ⟨h1, h2, h3, h4⟩
    · exact Or.inl h
    · rw [hW] at h2 hk
      exact Or.inr ⟨prefix_pair h1 h2 hk, h3, h4⟩
  rw [deployHandler, authenticateMiddleware_pass _ _ _ _ hauth,
    handleDeploy_eq zipOpenReader timestamp r s file hm hf]
  by_cases h1 : (MkdirAll s.fs (deployDirOf timestamp) 0o755).1 ≠ none
  · rw [if_pos h1]
    exact ⟨rfl, rfl, hW, hmk⟩
  · rw [if_neg h1]
    by_cases h2 : (Create (MkdirAll s.fs (deployDirOf timestamp) 0o755).2
        (zipPathOf timestamp)).1 ≠ none
    · rw [if_pos h2]
      refine ⟨rfl, rfl, hW, ?_⟩
      intro k hk
      have h := (workspace_frame zipOpenReader s.fs timestamp file hk).1
      simp only []
      rw [h]
      exact hmk k hk
    · rw [if_neg h2]
      have h3 := extractedState_fails zipOpenReader s.fs timestamp file files
        (not_not.mp h2) hdec hbad
      rw [if_pos h3]
      refine ⟨rfl, rfl, hW, ?_⟩
      intro k hk
      have h := (workspace_frame zipOpenReader s.fs timestamp file hk).2 (not_not.mp h1)
      simp only []
      rw [h]
      exact hmk k hk

/-- C4 (amended) on an upload whose archive holds `../../etc/passwd`: the
answer is 500 and `/etc/passwd` is not created. -/
theorem handleDeploy_unsafe_entry_witness :
    (deployHandler exampleKey (fun _ => .ok [fileEntry "../../etc/passwd" 0o644 [1]])
      "20240101-000000".toList (uploadRequest [80, 75]) freshServer).1.status = 500 ∧
    (deployHandler exampleKey (fun _ => .ok [fileEntry "../../etc/passwd" 0o644 [1]])
      "20240101-000000".toList (uploadRequest [80, 75]) freshServer).2.fs.lookup
        [rootComp, "etc".toList, "passwd".toList] = none := by
  have h := handleDeploy_unsafe_entry exampleKey
    (fun _ => .ok [fileEntry "../../etc/passwd" 0o644 [1]])
    "20240101-000000".toList (uploadRequest [80, 75]) freshServer [80, 75]
    [fileEntry "../../etc/passwd" 0o644 [1]] (by decide) rfl rfl rfl rfl
    ⟨fileEntry "../../etc/passwd" 0o644 [1], List.mem_singleton.mpr rfl, by decide⟩
  refine ⟨h.1, ?_⟩
  rcases h.2.2.2 [rootComp, "etc".toList, "passwd".toList] (by decide) with e | ⟨e, _⟩
  · rw [e]
    decide
  · exact absurd e (by decide)

/-- C6, as stated, fails: for the example project (an executable `DEPLOY.sh`
with mode 0755, an empty directory, `src/app.txt` in a directory with mode
0700) the round trip gives `DEPLOY.sh` the mode 0644 (0666 less the umask 022,
no mode being stored in the archive), gives `src` the mode 0755, and does not
make the empty directory. -/
theorem roundtrip_counterexample :
    (createZip (fun _ => [80, 75]) "/home/u/proj".toList exampleTree).toOption =
      some [80, 75] ∧
    (readFile zipFS "in.zip".toList).toOption = some [80, 75] ∧
    (unzip exampleReader zipFS "in.zip".toList "uploads/x".toList).1 = none ∧
    (unzip exampleReader zipFS "in.zip".toList "uploads/x".toList).2.lookup
      ["uploads".toList, "x".toList, "DEPLOY.sh".toList] = some (.file 0o644 [35]) ∧
    (unzip exampleReader zipFS "in.zip".toList "uploads/x".toList).2.lookup
      ["uploads".toList, "x".toList, "src".toList] = some (.dir 0o755) ∧
    (unzip exampleReader zipFS "in.zip".toList "uploads/x".toList).2.lookup
      ["uploads".toList, "x".toList, "empty".toList] = none := by
  refine ⟨by decide, by decide, by decide, by decide, by decide, by decide⟩

/-- C6 (amended): for a well-formed source tree, `createZip` returns the
archive of the regular files whose relative path is not skipped; when the
server reads that archive back and extracts it with `unzip` into a root given
in cleaned form, with at least one element, that does not exist yet, as a
process that is privileged, or that has write and search permission on every
existing directory on the way to the root and keeps it on the directories it
makes (the mode 0755 less the umask grants the owner write and search),
`unzip` returns no error and afterwards (1) every such file is a
regular file at the root joined with its relative path, with its content and
the mode 0666 less the umask, (2) every regular file below the root is one of
them, (3) the root is a directory, and a path strictly below the root is a
directory exactly when it is a proper ancestor of one of them, and (4) every
directory strictly below the root has the mode 0755 less the umask. Modes of
the source and directories without such a file are not reproduced. -/
theorem createZip_unzip_roundtrip (zipWrite : List (Str × Bytes) → Bytes)
    (zipOpenReader : Bytes → Except GoError (List ZipFile)) (sourceDir : Str) (perm : Perm)
    (children : List (Str × Tree)) (fs : FS) (src dest : Str)
    (hwf : Tree.WF (.dir perm children))
    (hcodec : zipOpenReader (zipWrite (keptEntries [] (.dir perm children))) =
      .ok ((keptEntries [] (.dir perm children)).map createdEntry))
    (hsaved : readFile fs src = createZip zipWrite sourceDir (.dir perm children))
    (hclean : Clean dest = dest) (hroot : cleanComps dest ≠ [])
    (hfresh : ∀ k, destKey dest <+: k → fs.lookup k = none)
    (hanc : ∀ k, k <+: destKey dest → ∀ p d, fs.lookup k ≠ some (.file p d))
    (hopen : ∀ k p, k <+: destKey dest → fs.lookup k = some (.dir p) →
      fs.mayCreateIn p = true)
    (hmode : fs.mayCreateIn (dirMode fs.umask 0o755) = true) :
    createZip zipWrite sourceDir (.dir perm children) =
      .ok (zipWrite (keptEntries [] (.dir perm children))) ∧
    (unzip zipOpenReader fs src dest).1 = none ∧
    (∀ rel data, (rel, data) ∈ treeFiles (.dir perm children) →
      matchesSkip (joinSep rel) = false →
      (unzip zipOpenReader fs src dest).2.lookup (destKey dest ++ rel) =
        some (.file (fileMode fs.umask 0o666) data)) ∧
    (∀ k p d, destKey dest <+: k →
      (unzip zipOpenReader fs src dest).2.lookup k = some (.file p d) →
      ∃ rel, (rel, d) ∈ treeFiles (.dir perm children) ∧ matchesSkip (joinSep rel) = false ∧
        k = destKey dest ++ rel) ∧
    (∃ p, (unzip zipOpenReader fs src dest).2.lookup (destKey dest) = some (.dir p)) ∧
    (∀ k, destKey dest <+: k → k ≠ destKey dest →
      ((∃ p, (unzip zipOpenReader fs src dest).2.lookup k = some (.dir p)) ↔
        ∃ rel data, (rel, data) ∈ treeFiles (.dir perm children) ∧
          matchesSkip (joinSep rel) = false ∧ k <+: destKey dest ++ rel ∧
          k ≠ destKey dest ++ rel)) ∧
    (∀ k p, destKey dest <+: k → k ≠ destKey dest →
      (unzip zipOpenReader fs src dest).2.lookup k = some (.dir p) →
      p = dirMode fs.umask 0o755) := by
  have hzip := createZip_root zipWrite sourceDir perm children hwf
  rw [hzip] at hsaved
  obtain ⟨hall, hnodup⟩ := @created_entries_ok dest hroot perm children hwf
  obtain ⟨_, _, hpre⟩ := treeFiles_ok _ hwf
  have hleaf : ∀ f ∈ (keptEntries [] (.dir perm children)).map createdEntry, f.isDir = false →
      ∀ g ∈ (keptEntries [] (.dir perm children)).map createdEntry,
        entryKey dest f <+: entryKey dest g → entryKey dest g = entryKey dest f := by
    intro f hf _ g hg hfg
    obtain ⟨e1, he1, _, _, hk1, _⟩ := hall f hf
    obtain ⟨e2, he2, _, _, hk2, _⟩ := hall g hg
    rw [hk1, hk2] at hfg ⊢
    rw [hpre e1 he1 e2 he2 ((List.prefix_append_right_inj _).mp hfg)]
  have hnodir : ∀ f ∈ (keptEntries [] (.dir perm children)).map createdEntry,
      f.isDir = true → fs.mayCreateIn (dirMode fs.umask f.perm) = true := by
    intro f hf hd
    obtain ⟨_, _, _, _, _, _, hfd, _⟩ := hall f hf
    rw [hfd] at hd
    exact absurd hd (by simp)
  obtain ⟨hok, inv⟩ := unzip_inv zipOpenReader fs src dest _ _ hsaved hcodec hclean hfresh hanc
    hopen hmode hnodir
    (fun f hf => (hall f hf).choose_spec.2.2.2.2.1)
    (fun f hf => ⟨_, (hall f hf).choose_spec.2.2.2.2.2.2.1⟩) hnodup hleaf
  have hkept : ∀ rel data, (rel, data) ∈ treeFiles (.dir perm children) →
      matchesSkip (joinSep rel) = false →
      createdEntry (joinSep rel, data) ∈
          (keptEntries [] (.dir perm children)).map createdEntry ∧
        entryKey dest (createdEntry (joinSep rel, data)) = destKey dest ++ rel := by
    intro rel data hmem hskip
    refine ⟨List.mem_map_of_mem _ (mem_keptEntries.mpr ⟨(rel, data), hmem, hskip, rfl⟩), ?_⟩
    obtain ⟨hn, _, _⟩ := treeFiles_ok _ hwf
    exact (createdEntry_facts hroot (root_paths_ne_nil perm children _ hmem)
      (hn _ hmem) data).2.1
  have hDne : destKey dest ≠ [] := by
    rw [rootKey_eq]
    intro e
    exact hroot (List.append_eq_nil.mp e).2
  refine ⟨hzip, hok, ?_, ?_, inv.root _ hDne (List.prefix_refl _), ?_, ?_⟩
  · intro rel data hmem hskip
    obtain ⟨hf, hkey⟩ := hkept rel data hmem hskip
    obtain ⟨e, he, _, _, hk, _, hdir, hbody, hperm⟩ := hall _ hf
    obtain ⟨d, hd, hl⟩ := inv.doneFiles _ hf hdir
    have hdd : d = data := by
      have h1 : (createdEntry (joinSep rel, data)).body = .ok data := rfl
      rw [h1] at hd
      exact (Except.ok.inj hd).symm
    rw [hkey, hperm, hdd] at hl
    exact hl
  · intro k p d hDk hfile
    obtain ⟨f, hf, _, hfk, hfb, _⟩ := inv.files k p d hDk hfile
    obtain ⟨e, he, hs, _, hk, _, _, hbody, _⟩ := hall f hf
    rw [hbody] at hfb
    have hed : e.2 = d := Except.ok.inj hfb
    refine ⟨e.1, ?_, hs, ?_⟩
    · rw [← hed]; exact he
    · rw [← hfk, hk]
  · intro k hDk hkne
    constructor
    · rintro ⟨p, hdir⟩
      obtain ⟨⟨f, hf, hfk⟩, _⟩ := inv.dirs k p hDk hkne hdir
      obtain ⟨e, he, hs, _, hk, _, hfd, _, _⟩ := hall f hf
      refine ⟨e.1, e.2, he, hs, by rw [← hk]; exact hfk, ?_⟩
      rintro rfl
      obtain ⟨d, _, hl⟩ := inv.doneFiles f hf hfd
      rw [hk, hdir] at hl
      exact absurd hl (by simp)
    · rintro ⟨rel, data, hmem, hskip, hpre', hne'⟩
      obtain ⟨hf, hkey⟩ := hkept rel data hmem hskip
      refine inv.ways _ hf k ?_ (by rw [hkey]; exact hpre') (by rw [hkey]; exact hne')
      rintro rfl
      exact hDne (List.prefix_nil.mp hDk)
  · intro k p hDk hkne hdir
    obtain ⟨_, hp⟩ := inv.dirs k p hDk hkne hdir
    rcases hp with hp | ⟨g, hg, hgd, _⟩
    · exact hp
    · obtain ⟨_, _, _, _, _, _, hgf, _⟩ := hall g hg
      rw [hgf] at hgd
      exact absurd hgd (by simp)

/-- C6 (amended) on the example project, packaged from `/home/u/proj` and
extracted into the new root `uploads/x` by an unprivileged process with umask
022: `src/app.txt` comes back with its content and the mode 0644. -/
theorem createZip_unzip_roundtrip_witness :
    (unzip exampleReader zipFS "in.zip".toList "uploads/x".toList).2.lookup
      (destKey "uploads/x".toList ++ ["src".toList, "app.txt".toList]) =
        some (.file (fileMode zipFS.umask 0o666) [4]) :=
  (createZip_unzip_roundtrip (fun _ => [80, 75]) exampleReader "/home/u/proj".toList 0o755
    [("DEPLOY.sh".toList, .file 0o755 [35]),
     ("empty".toList, .dir 0o755 []),
     ("src".toList, .dir 0o700 [("app.txt".toList, .file 0o600 [4])]),
     ("app.log".toList, .file 0o644 [3]),
     (".gitignore".toList, .file 0o644 [5])]
    zipFS "in.zip".toList "uploads/x".toList exampleTree_wf rfl rfl (by decide) (by decide)
    (fun k hk => zipFS_fresh k hk)
    (fun k hk p d hf => by
      rw [zipFS_lookup_file hf] at hk
      revert hk
      decide)
    (fun k p _ hl => by
      rw [zipFS_lookup_dir hl]
      decide)
    (by decide)).2.2.1 ["src".toList, "app.txt".toList] [4] (by decide) (by decide)

/-- C7, as stated, fails: `.gitignore` is skipped although no component of
its path is one of the listed names (the test is a substring test), and
`app.log` is kept (the pattern `*.log` is looked for as a substring too). -/
theorem shouldSkip_counterexample :
    shouldSkip "/home/u/proj/.gitignore".toList "/home/u/proj".toList = true ∧
    shouldSkip "/home/u/proj/app.log".toList "/home/u/proj".toList = false := by
  decide

/-- C7 (amended): for a path whose path relative to the source directory is
`rel`, `shouldSkip` returns true whenever `rel` contains one of the names
`.git`, `node_modules`, `.env`, `.DS_Store`, `Thumbs.db` as a substring, and,
when `rel` does not contain `.log`, only then. -/
theorem shouldSkip_substring (path sourceDir rel : Str)
    (hrel : Rel sourceDir path = .ok rel) :
    ((∃ s ∈ skipNames, contains rel s = true) → shouldSkip path sourceDir = true) ∧
    (contains rel ".log".toList = false →
      shouldSkip path sourceDir = true → ∃ s ∈ skipNames, contains rel s = true) := by
  rw [shouldSkip_eq path sourceDir rel hrel]
  constructor
  · rintro ⟨s, hs, hc⟩
    simp only [skipNames, List.mem_cons, List.mem_singleton, List.not_mem_nil, or_false] at hs
    rcases hs with rfl | rfl | rfl | rfl | rfl <;> (rw [hc]; simp)
  · intro hlog h
    have hstar : contains rel "*.log".toList = false := by
      cases hs : contains rel "*.log".toList with
      | false => rfl
      | true =>
        have := contains_tail (show contains rel ('*' :: ".log".toList) = true from hs)
        rw [hlog] at this
        exact absurd this (by simp)
    rw [hstar] at h
    simp only [Bool.or_false, Bool.or_eq_true] at h
    rcases h with (((h | h) | h) | h) | h
    · exact ⟨_, by simp [skipNames], h⟩
    · exact ⟨"node_modules".toList, by simp [skipNames], h⟩
    · exact ⟨".env".toList, by simp [skipNames], h⟩
    · exact ⟨".DS_Store".toList, by simp [skipNames], h⟩
    · exact ⟨"Thumbs.db".toList, by simp [skipNames], h⟩

/-- C7 (amended) on `src/.env.example` and on `src/environment.txt`: the first
is skipped, the second is kept. -/
theorem shouldSkip_substring_witness :
    shouldSkip "/home/u/proj/src/.env.example".toList "/home/u/proj".toList = true ∧
    ¬ shouldSkip "/home/u/proj/src/environment.txt".toList "/home/u/proj".toList = true := by
  constructor
  · exact (shouldSkip_substring "/home/u/proj/src/.env.example".toList "/home/u/proj".toList
      "src/.env.example".toList rfl).1 ⟨".env".toList, by decide, by decide⟩
  · intro h
    obtain ⟨s, hs, hc⟩ := (shouldSkip_substring "/home/u/proj/src/environment.txt".toList
      "/home/u/proj".toList "src/environment.txt".toList rfl).2 (by decide) h
    revert hc
    revert s
    decide

/-- C8: for a POST with the right credential that carries the form file,
(1) when the workspace was created, the upload saved, `unzip` returned no
error, and the extraction root is then a directory without an entry
`DEPLOY.sh`, `handleDeploy` answers 400
and starts no goroutine (the state it leaves is the one after `unzip`); (2) a
goroutine, and with it the script, is started only with the answer 200, after
an `unzip` without error that left a node at `DEPLOY.sh` under the extraction
root. -/
theorem handleDeploy_requires_script (apiKey : Str)
    (zipOpenReader : Bytes → Except GoError (List ZipFile))
    (timestamp : Str) (r : Request) (s : ServerState) (file : Bytes)
    (hauth : r.headerGet "Authorization".toList = "Bearer ".toList ++ apiKey)
    (hm : r.method = "POST".toList) (hf : r.FormFile "deployment".toList = some file) :
    ((MkdirAll s.fs (deployDirOf timestamp) 0o755).1 = none →
      (Create (MkdirAll s.fs (deployDirOf timestamp) 0o755).2 (zipPathOf timestamp)).1 = none →
      (extractedState zipOpenReader s.fs timestamp file).1 = none →
      (∃ p, (extractedState zipOpenReader s.fs timestamp file).2.lookup
        (pathKey (extractDirOf timestamp)) = some (.dir p)) →
      (extractedState zipOpenReader s.fs timestamp file).2.lookup
        (pathKey (deployScriptOf timestamp)) = none →
      deployHandler apiKey zipOpenReader timestamp r s =
        (httpError "DEPLOY.sh not found in deployment".toList 400,
          { s with fs := (extractedState zipOpenReader s.fs timestamp file).2 })) ∧
    ((deployHandler apiKey zipOpenReader timestamp r s).2.spawned ≠ s.spawned →
      (deployHandler apiKey zipOpenReader timestamp r s).1.status = 200 ∧
      (deployHandler apiKey zipOpenReader timestamp r s).2.spawned =
        s.spawned ++ [⟨deployDirOf timestamp, extractDirOf timestamp⟩] ∧
      (extractedState zipOpenReader s.fs timestamp file).1 = none ∧
      ∃ n, (extractedState zipOpenReader s.fs timestamp file).2.lookup
        (pathKey (deployScriptOf timestamp)) = some n) := by
  rw [deployHandler, authenticateMiddleware_pass _ _ _ _ hauth]
  rw [handleDeploy_eq zipOpenReader timestamp r s file hm hf]
  constructor
  · intro h1 h2 h3 hroot hnone
    rw [if_neg (not_not.mpr h1), if_neg (not_not.mpr h2), if_neg (not_not.mpr h3)]
    obtain ⟨X, hd, _, he, hs, _, _, _⟩ := workspace_keys timestamp
    have hst : statNotExist (extractedState zipOpenReader s.fs timestamp file).2
        (deployScriptOf timestamp) = true := by
      apply statNotExist_of_missing _ _ hnone
      · unfold deployScriptOf
        rw [Join_of_ne_nil (by
          unfold extractDirOf
          rw [Join_of_ne_nil (by
            unfold deployDirOf
            rw [Join_of_ne_nil (by decide)]
            exact render_ne_nil _ _)]
          exact render_ne_nil _ _)]
        exact render_ne_nil _ _
      · intro k hk1 hk2
        rw [hs, List.dropLast_concat] at hk2
        rcases List.prefix_concat_iff.mp hk2 with h | h
        · rw [h, ← he]
          exact hroot
        · exact workspace_dirs zipOpenReader s.fs timestamp file h1 k hk1 (by rw [hd]; exact h)
    rw [if_pos hst]
  · intro h
    by_cases h1 : (MkdirAll s.fs (deployDirOf timestamp) 0o755).1 ≠ none
    · rw [if_pos h1] at h; exact absurd rfl h
    · rw [if_neg h1] at h ⊢
      by_cases h2 : (Create (MkdirAll s.fs (deployDirOf timestamp) 0o755).2
          (zipPathOf timestamp)).1 ≠ none
      · rw [if_pos h2] at h; exact absurd rfl h
      · rw [if_neg h2] at h ⊢
        by_cases h3 : (extractedState zipOpenReader s.fs timestamp file).1 ≠ none
        · rw [if_pos h3] at h; exact absurd rfl h
        · rw [if_neg h3] at h ⊢
          by_cases h4 : statNotExist (extractedState zipOpenReader s.fs timestamp file).2
              (deployScriptOf timestamp) = true
          · rw [if_pos h4] at h; exact absurd rfl h
          · rw [if_neg h4] at h ⊢
            by_cases h5 : (Chmod (extractedState zipOpenReader s.fs timestamp file).2
                (deployScriptOf timestamp) 0o755).1 ≠ none
            · rw [if_pos h5] at h; exact absurd rfl h
            · rw [if_neg h5]
              exact ⟨rfl, rfl, not_not.mp h3, Chmod_none_lookup (not_not.mp h5)⟩

/-- C8 on an upload whose archive holds only `readme.txt`: the answer is 400
and no goroutine is started. -/
theorem handleDeploy_requires_script_witness :
    deployHandler exampleKey (fun _ => .ok [fileEntry "readme.txt" 0o644 [1]])
        "20240101-000000".toList (uploadRequest [80, 75]) freshServer =
      (httpError "DEPLOY.sh not found in deployment".toList 400,
        { freshServer with fs := (extractedState
          (fun _ => .ok [fileEntry "readme.txt" 0o644 [1]]) freshServer.fs
          "20240101-000000".toList [80, 75]).2 }) :=
  (handleDeploy_requires_script exampleKey (fun _ => .ok [fileEntry "readme.txt" 0o644 [1]])
    "20240101-000000".toList (uploadRequest [80, 75]) freshServer [80, 75] rfl rfl rfl).1
    (by decide) (by decide) (by decide) ⟨0o755, by decide⟩ (by decide)

/-- C9, as stated, fails: with a script that runs for 60 seconds the
workspace is removed at second 65, after the script has exited, and not at
second 5; with a script that never exits it is never removed. -/
theorem cleanup_counterexample :
    Goroutine.events ⟨"uploads/d".toList, "uploads/d/extracted".toList⟩ (some (60, true))
        true =
      [(0, .scriptStart "uploads/d/extracted".toList), (60, .scriptExit true),
        (60, .logLine "Deploy script completed successfully".toList),
        (65, .removeAll "uploads/d".toList),
        (65, .logLine "Cleaned up deployment directory: uploads/d".toList)] ∧
    Goroutine.events ⟨"uploads/d".toList, "uploads/d/extracted".toList⟩ none true =
      [(0, .scriptStart "uploads/d/extracted".toList)] := by
  decide

/-- C9 (amended): the goroutine removes the workspace exactly five seconds
after the script has exited (with success or failure), the removal comes after
the exit in the order of its events, and when the script never exits the
workspace is never removed. -/
theorem cleanup_after_script_exit (g : Goroutine) (run : Option (Nat × Bool))
    (removed : Bool) (t : Nat) (dir : Str) :
    ((t, BgEvent.removeAll dir) ∈ g.events run removed ↔
      dir = g.deployDir ∧ ∃ d ok, run = some (d, ok) ∧ t = d + 5) ∧
    (∀ d ok, run = some (d, ok) →
      [(d, BgEvent.scriptExit ok), (d + 5, BgEvent.removeAll g.deployDir)].Sublist
        (g.events run removed)) := by
  constructor
  · cases run with
    | none => simp [Goroutine.events]
    | some x =>
      obtain ⟨d, ok⟩ := x
      simp only [Goroutine.events, cleanup, List.cons_append, List.nil_append, List.mem_cons,
        Prod.mk.injEq, List.mem_singleton, List.not_mem_nil, or_false]
      constructor
      · rintro (⟨_, h⟩ | ⟨_, h⟩ | ⟨_, h⟩ | ⟨h1, h2⟩ | ⟨_, h⟩)
        · exact absurd h (by simp)
        · exact absurd h (by simp)
        · exact absurd h (by simp)
        · exact ⟨by simpa using h2, d, ok, rfl, h1⟩
        · exact absurd h (by simp)
      · rintro ⟨rfl, d', ok', h, rfl⟩
        simp only [Option.some.injEq, Prod.mk.injEq] at h
        obtain ⟨rfl, rfl⟩ := h
        simp
  · rintro d ok rfl
    simp only [Goroutine.events, cleanup, List.cons_append, List.nil_append]
    exact ((List.Sublist.refl _).cons _ |>.cons₂ _ |>.cons _ |>.cons₂ _ |>.cons _)


/-- C10 fails on the code: the archive with the file entry `a` followed by the
directory entry `a/` makes `os.MkdirAll` fail with `ENOTDIR` (there is a regular
file at `a`), yet `unzip` returns no error and `a` is still a regular file; with
`DEPLOY.sh` in the same archive `handleDeploy` answers 200, not 500. -/
theorem unzip_drops_mkdir_error :
    (MkdirAll (unzip (fun _ => .ok [fileEntry "a" 0o644 [1]]) zipFS "in.zip".toList
      "uploads/x".toList).2 "uploads/x/a".toList 0o755).1 = some .ENOTDIR ∧
    (unzip (fun _ => .ok [fileEntry "a" 0o644 [1], dirEntry "a/" 0o755]) zipFS "in.zip".toList
      "uploads/x".toList).1 = none ∧
    (unzip (fun _ => .ok [fileEntry "a" 0o644 [1], dirEntry "a/" 0o755]) zipFS "in.zip".toList
      "uploads/x".toList).2.lookup ["uploads".toList, "x".toList, "a".toList] =
        some (.file 0o644 [1]) ∧
    (handleDeploy (fun _ => .ok [fileEntry "DEPLOY.sh" 0o644 [35], fileEntry "a" 0o644 [1],
      dirEntry "a/" 0o755]) "20240101-000000".toList (uploadRequest [80, 75])
      freshServer).1.status = 200 := by
  refine ⟨by decide, by decide, by decide, by decide⟩



end GoDeployer
